import Mathlib

/-!
Verification of the import-reordering tool (`reorder_python_imports.py`).

Python strings are modelled as `List Char`; machine text positions are `Nat`
offsets into that list.  The Python tokenizer (`tokenize.generate_tokens`) is
an external capability: it is modelled by a token stream together with the
contract `Tokenizes`, which records the facts about real token streams that
the code under verification relies on (monotone positions, a final
`ENDMARKER`, token text matching the underlying source slice, and so on).
The `classify_imports` package is likewise an external dependency; the parts
of its behaviour the tool consumes (parsing an import statement into a
descriptor, rendering a descriptor back to source, sorting descriptors into
classified blocks) are modelled from the specification's description of that
capability.
-/

namespace ReorderPythonImports

/-- Python whitespace characters as used by `str.strip` / `str.rstrip`
on the ASCII range relevant here. -/
def pySpace (c : Char) : Bool :=
  c = ' ' || c = '\t' || c = '\n' || c = '\r' || c = '\x0b' || c = '\x0c'

/-- Python slicing `src[a:b]` for `0 ≤ a ≤ b` (clamped at the ends, empty
when `b ≤ a`), on `List Char`. -/
def pySlice (src : List Char) (a b : Nat) : List Char :=
  (src.drop a).take (b - a)

/-- Python `s.rstrip()`: drop trailing whitespace. -/
def pyRstrip (s : List Char) : List Char :=
  (s.reverse.dropWhile pySpace).reverse

/-- Python `s.lstrip()`: drop leading whitespace. -/
def pyLstrip (s : List Char) : List Char :=
  s.dropWhile pySpace

/-- Python `s.strip()`. -/
def pyStrip (s : List Char) : List Char :=
  pyRstrip (pyLstrip s)

/-- Whether the pattern `pat` occurs as a contiguous run inside `s`
(Python's `pat in s`). -/
def hasSeq (pat : List Char) : List Char → Bool
  | [] => pat.isEmpty
  | c :: rest => pat.isPrefixOf (c :: rest) || hasSeq pat rest

/-- Python `s.replace(pat, repl)` for a non-empty pattern; for an empty
pattern it returns `s` unchanged (the tool only ever replaces non-empty
line-terminator patterns). -/
def pyReplace (pat repl : List Char) (s : List Char) : List Char :=
  match pat, s with
  | [], s => s
  | _ :: _, [] => []
  | p :: ps, c :: rest =>
    if (p :: ps).isPrefixOf (c :: rest) then
      repl ++ pyReplace (p :: ps) repl (rest.drop ps.length)
    else
      c :: pyReplace (p :: ps) repl rest
termination_by s.length
decreasing_by
  · simp only [List.length_drop, List.length_cons]
    omega
  · simp

/-- Kinds of tokens produced by the external `tokenize` capability, as far
as `partition_source` distinguishes them; every other token kind is
`OTHER`. -/
inductive TokKind where
  | COMMENT | STRING | NAME | NL | NEWLINE | ENDMARKER | OTHER
  deriving DecidableEq, BEq

/-- One token of the external tokenizer: its kind, its text, its starting
column (`scol`), and its absolute start/end offsets in the source (the
Python code derives the absolute end offset from the `(erow, ecol)` token
position via `get_line_offsets_by_line_no`). -/
structure Tok where
  kind : TokKind
  text : List Char
  scol : Nat
  startpos : Nat
  endpos : Nat
  deriving DecidableEq

instance : Inhabited Tok := ⟨⟨.OTHER, [], 0, 0, 0⟩⟩

/-- `TERMINATES_COMMENT` from the source. -/
def TERMINATES_COMMENT : List TokKind := [.NL, .ENDMARKER]

/-- `TERMINATES_DOCSTRING` from the source. -/
def TERMINATES_DOCSTRING : List TokKind := [.NEWLINE, .ENDMARKER]

/-- `TERMINATES_IMPORT` from the source. -/
def TERMINATES_IMPORT : List TokKind := [.NEWLINE, .ENDMARKER]

/-- Membership of a token kind in a terminator set (`token_type in
possible_ending_tokens`). -/
def kindMem (k : TokKind) : List TokKind → Bool
  | [] => false
  | k' :: rest => k = k' || kindMem k rest

/-- `CodeType` from the source. -/
inductive CodeType where
  | PRE_IMPORT_CODE | IMPORT | NON_CODE | CODE
  deriving DecidableEq

/-- `CodePartition` from the source. -/
structure CodePartition where
  code_type : CodeType
  src : List Char
  deriving DecidableEq

/-- `_partitions_to_src` from the source. -/
def partitionsToSrc (partitions : List CodePartition) : List Char :=
  (partitions.map (·.src)).flatten

/-- The scanning loop of `partition_source`: state is the current slice
start `startpos`, the pending chunk type with its terminator set, and the
`seen_import` flag.  `break` in the source corresponds to returning the
final `CODE` chunk holding the rest of the file. -/
def partitionLoop (src : List Char) : Nat → Option (CodeType × List TokKind) →
    Bool → List Tok → List CodePartition
  | _, _, _, [] => []
  | startpos, none, seenImport, t :: rest =>
    if seenImport = false ∧ t.kind = .COMMENT then
      if hasSeq "noreorder".data t.text then
        [⟨.CODE, src.drop startpos⟩]
      else
        partitionLoop src startpos (some (.PRE_IMPORT_CODE, TERMINATES_COMMENT)) seenImport rest
    else if seenImport = false ∧ t.kind = .STRING then
      partitionLoop src startpos (some (.PRE_IMPORT_CODE, TERMINATES_DOCSTRING)) seenImport rest
    else if t.scol = 0 ∧ t.kind = .NAME ∧ (t.text = "from".data ∨ t.text = "import".data) then
      partitionLoop src startpos (some (.IMPORT, TERMINATES_IMPORT)) true rest
    else if t.kind = .NL then
      ⟨.NON_CODE, pySlice src startpos t.endpos⟩ ::
        partitionLoop src t.endpos none seenImport rest
    else if t.kind = .COMMENT then
      if hasSeq "noreorder".data t.text then
        [⟨.CODE, src.drop startpos⟩]
      else
        partitionLoop src startpos (some (.CODE, TERMINATES_COMMENT)) seenImport rest
    else if t.kind = .ENDMARKER then
      partitionLoop src startpos none seenImport rest
    else
      [⟨.CODE, src.drop startpos⟩]
  | startpos, some (ck, ends), seenImport, t :: rest =>
    if kindMem t.kind ends then
      ⟨ck, pySlice src startpos t.endpos⟩ ::
        partitionLoop src t.endpos none seenImport rest
    else if t.kind = .COMMENT ∧ hasSeq "noreorder".data t.text then
      [⟨.CODE, src.drop startpos⟩]
    else
      partitionLoop src startpos (some (ck, ends)) seenImport rest

/-- `partition_source` from the source: run the scanning loop over the
token stream, then drop empty chunks. -/
def partition_source (src : List Char) (toks : List Tok) : List CodePartition :=
  (partitionLoop src 0 none false toks).filter (fun chunk => !chunk.src.isEmpty)

/-- Boolean test that a relation holds between every two adjacent tokens of
a stream. -/
def adjPairsB (R : Tok → Tok → Bool) : List Tok → Bool
  | a :: b :: rest => R a b && adjPairsB R (b :: rest)
  | _ => true

/-- The contract of the external tokenizer, as relied upon by
`partition_source`: the stream is non-empty and ends with an `ENDMARKER`
whose end offset reaches the end of the source; `ENDMARKER` occurs only
there; end offsets are monotone; a single-token stream only arises for the
empty source; an `NL`/`NEWLINE` token directly before the `ENDMARKER` ends
the last line of the file; the text of a `COMMENT`/`STRING`/`NAME` token is
the source slice it covers; comments start with `#`; string literals
contain a quote; every token before a comment ends before that comment
starts; and each token's start does not exceed its end. -/
abbrev Tokenizes (src : List Char) (toks : List Tok) : Prop :=
  toks ≠ [] ∧
  (toks.getLastD default).kind = .ENDMARKER ∧
  src.length ≤ (toks.getLastD default).endpos ∧
  (∀ t ∈ toks.dropLast, t.kind ≠ .ENDMARKER) ∧
  List.Pairwise (fun a b => a.endpos ≤ b.endpos) toks ∧
  (toks.dropLast = [] → src = []) ∧
  adjPairsB
    (fun a b => decide (b.kind = .ENDMARKER → a.kind = .NL ∨ a.kind = .NEWLINE →
      src.length ≤ a.endpos)) toks = true ∧
  (∀ t ∈ toks, t.kind = .COMMENT ∨ t.kind = .STRING ∨ t.kind = .NAME →
    t.text = pySlice src t.startpos t.endpos) ∧
  (∀ t ∈ toks, t.kind = .COMMENT → t.text.take 1 = ['#']) ∧
  (∀ t ∈ toks, t.kind = .STRING → '\"' ∈ t.text ∨ '\'' ∈ t.text) ∧
  List.Pairwise (fun a b => b.kind = .COMMENT → a.endpos ≤ b.startpos) toks ∧
  (∀ t ∈ toks, t.startpos ≤ t.endpos)

/-- Generic boolean list membership via decidable equality. -/
def memB {α : Type} [DecidableEq α] (a : α) : List α → Bool
  | [] => false
  | b :: rest => a = b || memB a rest

/-- Python `s.endswith(pat)`. -/
def endsWith (pat s : List Char) : Bool :=
  pat.reverse.isPrefixOf s.reverse

/-- One `name [as asname]` entry of an import statement. -/
structure ImpName where
  name : List Char
  asname : Option (List Char)
  deriving DecidableEq

/-- Modelled from the spec: the import descriptor of the external
`classify_imports` package — either a plain `import a[, b ...]` statement
(`Import`) or a `from m import n[, ...]` statement (`ImportFrom`), holding
the imported names with their optional aliases. -/
inductive ImportObj where
  | imp (names : List ImpName)
  | frm (mod : List Char) (names : List ImpName)
  deriving DecidableEq

/-- Modelled from the spec: `.is_multiple` of an import descriptor — the
statement binds more than one name. -/
def objIsMultiple : ImportObj → Bool
  | .imp names => 1 < names.length
  | .frm _ names => 1 < names.length

/-- Modelled from the spec: `.split()` of an import descriptor — one
single-name descriptor per bound name. -/
def objSplit : ImportObj → List ImportObj
  | .imp names => names.map (fun n => .imp [n])
  | .frm mod names => names.map (fun n => .frm mod [n])

/-- The identity key of an import statement, mirroring `.key` of
`classify_imports` descriptors: `(module, asname)` for plain imports and
`(mod, symbol, asname)` for from-imports. -/
inductive ImpKey where
  | kimp (module : List Char) (asname : Option (List Char))
  | kfrm (mod symbol : List Char) (asname : Option (List Char))
  deriving DecidableEq

/-- Modelled from the spec: `.key` of a (single-name) import
descriptor. -/
def objKey : ImportObj → ImpKey
  | .imp names => .kimp (names.headD ⟨[], none⟩).name (names.headD ⟨[], none⟩).asname
  | .frm mod names => .kfrm mod (names.headD ⟨[], none⟩).name (names.headD ⟨[], none⟩).asname

/-- Modelled from the spec: `.module` of a plain-import descriptor (for a
from-import, the `from` module path). -/
def objModulePath : ImportObj → List Char
  | .imp names => (names.headD ⟨[], none⟩).name
  | .frm mod _ => mod

/-- Whether a descriptor is a plain import binding its module name without
an alias (the shape subject to the parent/submodule redundancy rule). -/
def isUnaliasedImp : ImportObj → Bool
  | .imp names => (names.headD ⟨[], none⟩).asname = none
  | .frm _ _ => false

/-- Characters allowed in a module-path or name word of an import
statement. -/
def identChar (c : Char) : Bool :=
  c.isAlphanum || c = '_' || c = '.' || c = '*'

/-- A lexical word of an import statement: non-empty and made of
identifier/module-path characters. -/
def validWord (w : List Char) : Bool :=
  !w.isEmpty && w.all identChar

/-- Split the text of an import statement into words, with `,` as its own
word; the first argument accumulates the current word reversed. -/
def lexWords : List Char → List Char → List (List Char)
  | acc, [] => if acc.isEmpty then [] else [acc.reverse]
  | acc, c :: rest =>
    if pySpace c then
      if acc.isEmpty then lexWords [] rest else acc.reverse :: lexWords [] rest
    else if c = ',' then
      if acc.isEmpty then [','] :: lexWords [] rest
      else acc.reverse :: [','] :: lexWords [] rest
    else lexWords (c :: acc) rest

/-- Parse the `name [as alias] (, name [as alias])*` tail of an import
statement. -/
def parseNames : List (List Char) → Option (List ImpName)
  | [] => none
  | n :: rest =>
    if validWord n ∧ n ≠ "as".data then
      match rest with
      | [] => some [⟨n, none⟩]
      | w :: rest' =>
        if w = [','] then
          (parseNames rest').map (⟨n, none⟩ :: ·)
        else if w = "as".data then
          match rest' with
          | [] => none
          | al :: rest'' =>
            if validWord al ∧ al ≠ "as".data then
              match rest'' with
              | [] => some [⟨n, some al⟩]
              | w' :: rest''' =>
                if w' = [','] then
                  (parseNames rest''').map (⟨n, some al⟩ :: ·)
                else none
            else none
        else none
    else none

/-- Modelled from the spec: `import_obj_from_str` of the external
`classify_imports` package, on the single-logical-line statements the tool
feeds it — strips any trailing comment, then parses
`import a[, b]` / `from m import n [as x][, ...]`.  Returns `none` where
the real parser would raise (such inputs never reach it in the tool). -/
def import_obj_from_str (s : List Char) : Option ImportObj :=
  match lexWords [] (s.takeWhile (· ≠ '#')) with
  | w :: rest =>
    if w = "import".data then
      (parseNames rest).map .imp
    else if w = "from".data then
      match rest with
      | m :: w2 :: rest' =>
        if validWord m ∧ w2 = "import".data then (parseNames rest').map (.frm m)
        else none
      | _ => none
    else none
  | [] => none

/-- Rendering of one `name [as asname]` entry. -/
def nameToSrc (n : ImpName) : List Char :=
  n.name ++ (match n.asname with | none => [] | some a => " as ".data ++ a)

/-- Modelled from the spec: `str(import_obj)` — the canonical one-line
source of an import descriptor, newline-terminated. -/
def objToSrc : ImportObj → List Char
  | .imp names => "import ".data ++ (List.intercalate ", ".data (names.map nameToSrc)) ++ ['\n']
  | .frm mod names =>
      "from ".data ++ mod ++ " import ".data ++
        (List.intercalate ", ".data (names.map nameToSrc)) ++ ['\n']

/-- Every word a descriptor names: its module path (for a from-import)
and each bound name with its alias. -/
def objWords : ImportObj → List (List Char)
  | .imp names =>
      names.flatMap (fun n => n.name ::
        (match n.asname with | none => [] | some a => [a]))
  | .frm mod names =>
      mod :: names.flatMap (fun n => n.name ::
        (match n.asname with | none => [] | some a => [a]))

/-- The bound-name entries of a descriptor. -/
def objNames : ImportObj → List ImpName
  | .imp names => names
  | .frm _ names => names

/-- The `NON_COMBINABLE` test of `combine_trailing_code_chunks`. -/
def nonCombinable (ct : CodeType) : Bool :=
  ct = .IMPORT || ct = .PRE_IMPORT_CODE

/-- `combine_trailing_code_chunks` from the source: pop trailing
combinable chunks and re-append them as one `CODE` chunk. -/
def combine_trailing_code_chunks (partitions : List CodePartition) : List CodePartition :=
  let rev := partitions.reverse
  let trailing := rev.takeWhile (fun c => !nonCombinable c.code_type)
  let kept := rev.dropWhile (fun c => !nonCombinable c.code_type)
  if trailing.isEmpty then partitions
  else kept.reverse ++ [⟨.CODE, partitionsToSrc trailing.reverse⟩]

/-- `add_imports` from the source. -/
def add_imports (partitions : List CodePartition) (to_add : List (List Char)) :
    List CodePartition :=
  if (pyStrip (partitionsToSrc partitions)).isEmpty then partitions
  else
    let last := partitions.getLastD ⟨.CODE, []⟩
    let partitions' :=
      if endsWith ['\n'] last.src then partitions
      else partitions.dropLast ++ [⟨last.code_type, last.src ++ ['\n']⟩]
    partitions' ++ to_add.map (fun s => ⟨.IMPORT, pyStrip s ++ ['\n']⟩)

/-- `separate_comma_imports` from the source. -/
def separate_comma_imports (partitions : List CodePartition) : List CodePartition :=
  partitions.flatMap fun partition =>
    if partition.code_type = .IMPORT then
      match import_obj_from_str partition.src with
      | some obj =>
        if objIsMultiple obj then (objSplit obj).map (fun o => ⟨.IMPORT, objToSrc o⟩)
        else [partition]
      | none => [partition]
    else [partition]

/-- `remove_imports` from the source. -/
def remove_imports (partitions : List CodePartition) (to_remove : List ImpKey) :
    List CodePartition :=
  partitions.filter fun partition =>
    if partition.code_type = .IMPORT then
      match import_obj_from_str partition.src with
      | some obj => !memB (objKey obj) to_remove
      | none => true
    else true

/-- Association-list lookup (Python `dict` access). -/
def alookup {α β : Type} [DecidableEq α] (k : α) : List (α × β) → Option β
  | [] => none
  | (k', v) :: rest => if k = k' then some v else alookup k rest

/-- Association-list assignment (Python `dict[k] = v`): replaces the value
at an existing key in place, else appends. -/
def aupsert {α β : Type} [DecidableEq α] (k : α) (v : β) : List (α × β) → List (α × β)
  | [] => [(k, v)]
  | (k', v') :: rest => if k = k' then (k', v) :: rest else (k', v') :: aupsert k v rest

/-- `Replacements` from the source: insertion-ordered dictionaries
`(orig_mod, attr) => new_mod` and `orig_mod => new_mod`. -/
structure Replacements where
  exact : List ((List Char × List Char) × List Char)
  mods : List (List Char × List Char)
  deriving DecidableEq

/-- Python `s.rpartition('.')`. -/
def rpartitionDot (s : List Char) : List Char × List Char × List Char :=
  match s.reverse.findIdx? (· = '.') with
  | none => ([], [], s)
  | some i => (s.take (s.length - i - 1), ['.'], s.drop (s.length - i))

/-- `Replacements.make` from the source. -/
def replacementsMake (args : List (List Char × List Char × List Char)) : Replacements :=
  args.foldl
    (fun acc arg =>
      let mod_from := arg.1
      let mod_to := arg.2.1
      let attr := arg.2.2
      if !attr.isEmpty then
        { acc with exact := aupsert (mod_from, attr) mod_to acc.exact }
      else
        let p_from := rpartitionDot mod_from
        let p_to := rpartitionDot mod_to
        let acc' :=
          if !p_from.2.2.isEmpty && !p_to.1.isEmpty && p_from.2.2 = p_to.2.2 then
            { acc with exact := aupsert (p_from.1, p_from.2.2) p_to.1 acc.exact }
          else acc
        { acc' with mods := aupsert mod_from mod_to acc'.mods })
    ⟨[], []⟩

/-- Python `s.split('.')`; the first argument accumulates the current part
reversed. -/
def splitDotAux : List Char → List Char → List (List Char)
  | acc, [] => [acc.reverse]
  | acc, c :: rest =>
    if c = '.' then acc.reverse :: splitDotAux [] rest else splitDotAux (c :: acc) rest

/-- `_module_to_base_modules` from the source: the proper dotted ancestors
of a module path, shortest first. -/
def moduleToBaseModules (s : List Char) : List (List Char) :=
  let parts := splitDotAux [] s
  (List.range (parts.length - 1)).map (fun i => List.intercalate ['.'] (parts.take (i + 1)))

/-- The body of `replace_imports` for one partition: plain imports are
yielded unchanged; from-imports go through the exact / collapse / module /
dotted-ancestor rule chain in source order. -/
def replacePart (to_replace : Replacements) (partition : CodePartition) : CodePartition :=
  if partition.code_type = .IMPORT then
    match import_obj_from_str partition.src with
    | none => partition
    | some (.imp _) => partition
    | some (.frm mod names) =>
      let n := (names.headD ⟨[], none⟩)
      let symbol := n.name
      let asname := n.asname
      let mod_symbol := mod ++ ['.'] ++ symbol
      let fallback :=
        match alookup mod to_replace.mods with
        | some m2 => ⟨partition.code_type, objToSrc (.frm m2 names)⟩
        | none =>
          match (moduleToBaseModules mod).findSome?
              (fun mn => (alookup mn to_replace.mods).map (fun v => (mn, v))) with
          | some hit =>
              ⟨partition.code_type, objToSrc (.frm (hit.2 ++ mod.drop hit.1.length) names)⟩
          | none => partition
      match alookup (mod, symbol) to_replace.exact with
      | some m2 => ⟨partition.code_type, objToSrc (.frm m2 names)⟩
      | none =>
        match alookup mod_symbol to_replace.mods with
        | some new0 =>
          if asname.isSome || new0 = symbol then
            let parts := rpartitionDot new0
            if !parts.1.isEmpty then
              ⟨partition.code_type, objToSrc (.frm parts.1 [⟨parts.2.2, asname⟩])⟩
            else if parts.2.1.isEmpty then
              ⟨partition.code_type, objToSrc (.imp [⟨parts.2.2, asname⟩])⟩
            else partition
          else fallback
        | none => fallback
  else partition

/-- `replace_imports` from the source. -/
def replace_imports (partitions : List CodePartition) (to_replace : Replacements) :
    List CodePartition :=
  partitions.map (replacePart to_replace)

/-- The first pass of `remove_duplicated_imports`: drop exact duplicates
(keeping first occurrences) while collecting the dotted ancestors of every
unaliased plain import; returns the surviving partitions together with the
collected `seen_module_names`. -/
def rdiPass1 (seen : List ImportObj) (smn : List (List Char)) :
    List CodePartition → List CodePartition × List (List Char)
  | [] => ([], smn)
  | p :: rest =>
    if p.code_type = .IMPORT then
      match import_obj_from_str p.src with
      | some obj =>
        if memB obj seen then rdiPass1 seen smn rest
        else
          let smn' :=
            if isUnaliasedImp obj then smn ++ moduleToBaseModules (objModulePath obj)
            else smn
          let res := rdiPass1 (obj :: seen) smn' rest
          (p :: res.1, res.2)
      | none =>
        let res := rdiPass1 seen smn rest
        (p :: res.1, res.2)
    else
      let res := rdiPass1 seen smn rest
      (p :: res.1, res.2)

/-- `remove_duplicated_imports` from the source: drop exact duplicates,
then drop unaliased plain imports whose module is a dotted ancestor of some
unaliased plain import in the file. -/
def remove_duplicated_imports (partitions : List CodePartition) : List CodePartition :=
  let pass1 := rdiPass1 [] [] partitions
  pass1.1.filter fun p =>
    !(p.code_type = CodeType.IMPORT &&
      (match import_obj_from_str p.src with
       | some obj => isUnaliasedImp obj && memB (objModulePath obj) pass1.2
       | none => false))

/-- Modelled from the spec: the sorting configuration of the external
`classify_imports` package — how a module path is classified into an
ordered group index (standard library / third party / first party /
relative), as configured by the application directories. -/
structure Settings where
  classify : List Char → Nat

/-- Lexicographic order on character lists (by code point). -/
def wordLe : List Char → List Char → Bool
  | [], _ => true
  | _ :: _, [] => false
  | a :: as, b :: bs => if a = b then wordLe as bs else decide (a.toNat < b.toNat)

/-- The canonical within-group sort string of a descriptor: module path,
then a flag putting plain imports before from-imports of the same module,
then the rendered statement. -/
def objSortStr (o : ImportObj) : List Char :=
  objModulePath o ++
    (match o with | .imp _ => ['\x00'] | .frm _ _ => ['\x01']) ++ objToSrc o

/-- Stable insertion of an element into a sorted list. -/
def insertLe {α : Type} (le : α → α → Bool) (x : α) : List α → List α
  | [] => [x]
  | y :: rest => if le x y then x :: y :: rest else y :: insertLe le x rest

/-- Stable insertion sort. -/
def insertionSort {α : Type} (le : α → α → Bool) : List α → List α
  | [] => []
  | x :: rest => insertLe le x (insertionSort le rest)

/-- Group a classified-sorted list into runs of equal classification. -/
def groupRuns (cls : ImportObj → Nat) : List ImportObj → List (List ImportObj)
  | [] => []
  | x :: rest =>
    match groupRuns cls rest with
    | [] => [[x]]
    | [] :: blocks => [x] :: blocks
    | (y :: ys) :: blocks =>
      if cls x = cls y then (x :: y :: ys) :: blocks else [x] :: (y :: ys) :: blocks

/-- Modelled from the spec: `classify_imports.sort` — partition the
descriptors into ordered classification groups and sort each group by the
canonical within-group order, returning the list of groups. -/
def sortModel (settings : Settings) (objs : List ImportObj) : List (List ImportObj) :=
  let cls := fun o => settings.classify (objModulePath o)
  let sorted := insertionSort
    (fun a b => cls a < cls b || (cls a = cls b && wordLe (objSortStr a) (objSortStr b)))
    objs
  groupRuns cls sorted

/-- The insertion-ordered `import_obj_to_partition` dictionary of
`apply_import_sorting`. -/
def importsAssoc (imports : List CodePartition) : List (ImportObj × CodePartition) :=
  imports.foldl
    (fun acc p =>
      match import_obj_from_str p.src with
      | some obj => aupsert obj p acc
      | none => acc)
    []

/-- `apply_import_sorting` from the source. -/
def apply_import_sorting (partitions : List CodePartition) (settings : Settings) :
    List CodePartition :=
  let pre_import_code := partitions.filter (fun p => p.code_type = .PRE_IMPORT_CODE)
  let imports0 := partitions.filter (fun p => p.code_type = .IMPORT)
  let rest := partitions.filter (fun p => p.code_type = .CODE)
  let imports := imports0.map fun p =>
    if endsWith ['\n'] p.src then p else ⟨.IMPORT, p.src ++ ['\n']⟩
  let assoc := importsAssoc imports
  let sorted_blocks := sortModel settings (assoc.map (·.1))
  let new_imports :=
    (sorted_blocks.flatMap fun block =>
      (block.filterMap fun obj => alookup obj assoc) ++ [⟨.NON_CODE, ['\n']⟩]).dropLast
  let restsrc := pyRstrip (partitionsToSrc rest)
  let restParts : List CodePartition :=
    if restsrc.isEmpty then [] else [⟨.CODE, restsrc ++ ['\n']⟩]
  pre_import_code ++ new_imports ++ restParts

/-- Abbreviation for the comparator `sortModel` sorts with: classification
group first, then the canonical sort string. -/
def sortLe (settings : Settings) (a b : ImportObj) : Bool :=
  settings.classify (objModulePath a) < settings.classify (objModulePath b) ||
    (settings.classify (objModulePath a) = settings.classify (objModulePath b) &&
      wordLe (objSortStr a) (objSortStr b))

/-- Abbreviation for the new-imports region `apply_import_sorting` builds
from its import dictionary: the sorted blocks, each rendered as its
partitions followed by a blank-line separator, with the final separator
dropped. -/
def newImports (assoc : List (ImportObj × CodePartition)) (settings : Settings) :
    List CodePartition :=
  ((sortModel settings (assoc.map (fun kv => kv.1))).flatMap fun block =>
    (block.filterMap fun obj => alookup obj assoc) ++ [⟨.NON_CODE, ['\n']⟩]).dropLast

/-- The import descriptors parsed from a region list's import regions. -/
def partObjs (parts : List CodePartition) : List ImportObj :=
  parts.filterMap fun p =>
    if p.code_type = .IMPORT then import_obj_from_str p.src else none

/-- The token stream of the real tokenizer on `"import a\n"`. -/
def toksC2w : List Tok :=
  [⟨.NAME, ['i', 'm', 'p', 'o', 'r', 't'], 0, 0, 6⟩,
   ⟨.NAME, ['a'], 7, 7, 8⟩,
   ⟨.NEWLINE, ['\n'], 8, 8, 9⟩,
   ⟨.ENDMARKER, [], 0, 9, 9⟩]

/-- The line-boundary characters of Python `str.splitlines`. -/
def lineBoundary (c : Char) : Bool :=
  c = '\n' || c = '\r' || c = '\x0b' || c = '\x0c' ||
    c = '\x1c' || c = '\x1d' || c = '\x1e' || c = '\x85' ||
    c = '\u2028' || c = '\u2029'

/-- Python `s.splitlines(True)`; the first argument accumulates the
current line reversed. -/
def splitlinesAux : List Char → List Char → List (List Char)
  | acc, [] => if acc.isEmpty then [] else [acc.reverse]
  | acc, '\r' :: '\n' :: rest => (acc.reverse ++ ['\r', '\n']) :: splitlinesAux [] rest
  | acc, c :: rest =>
    if lineBoundary c then (acc.reverse ++ [c]) :: splitlinesAux [] rest
    else splitlinesAux (c :: acc) rest

/-- Increment the count of a key in an insertion-ordered counter. -/
def bump (k : List Char) : List (List Char × Nat) → List (List Char × Nat)
  | [] => [(k, 1)]
  | (k', n) :: rest => if k = k' then (k', n + 1) :: rest else (k', n) :: bump k rest

/-- The terminator a line ends with, checked in the order
`'\r\n'`, `'\r'`, `'\n'` as in the source. -/
def endingOfLine (line : List Char) : Option (List Char) :=
  if endsWith ['\r', '\n'] line then some ['\r', '\n']
  else if endsWith ['\r'] line then some ['\r']
  else if endsWith ['\n'] line then some ['\n']
  else none

/-- The first maximal-count entry of an insertion-ordered counter
(`Counter.most_common(1)[0]`: ties go to the earliest-inserted key). -/
def maxCount : List (List Char × Nat) → List Char × Nat
  | [] => (['\n'], 0)
  | kv :: rest => rest.foldl (fun best x => if best.2 < x.2 then x else best) kv

/-- `_most_common_line_ending` from the source: count the terminator of
each kept-ends line, seeding `'\n'` with zero, and take the most common. -/
def mostCommonLineEnding (s : List Char) : List Char :=
  (maxCount
    ((splitlinesAux [] s).foldl
      (fun acc line =>
        match endingOfLine line with
        | some e => bump e acc
        | none => acc)
      [(['\n'], 0)])).1

/-- The CR/LF/CRLF line terminators of a text, in order of occurrence: a
direct left-to-right scan emitting `'\r\n'` for a CRLF pair, `'\r'` for a
lone carriage return and `'\n'` for a lone line feed. -/
def lineEnds : List Char → List (List Char)
  | [] => []
  | [c] => if c = '\r' ∨ c = '\n' then [[c]] else []
  | c :: d :: rest =>
    if c = '\r' ∧ d = '\n' then ['\r', '\n'] :: lineEnds rest
    else if c = '\r' ∨ c = '\n' then [c] :: lineEnds (d :: rest)
    else lineEnds (d :: rest)

/-- `fix_file_contents` from the source: remember the most common line
ending, normalize to `'\n'`, partition, run the pipeline stages in order,
reassemble, and restore the line ending.  The token stream `toks` stands
for the external tokenizer applied to the normalized contents. -/
def fix_file_contents (contents : List Char) (toks : List Tok)
    (to_add : List (List Char)) (to_remove : List ImpKey)
    (to_replace : Replacements) (settings : Settings) : List Char :=
  let nl := mostCommonLineEnding contents
  let contents' := pyReplace ['\r'] ['\n'] (pyReplace ['\r', '\n'] ['\n'] contents)
  let p1 := partition_source contents' toks
  let p2 := combine_trailing_code_chunks p1
  let p3 := add_imports p2 to_add
  let p4 := separate_comma_imports p3
  let p5 := remove_imports p4 to_remove
  let p6 := replace_imports p5 to_replace
  let p7 := remove_duplicated_imports p6
  let p8 := apply_import_sorting p7 settings
  pyReplace ['\n'] nl (partitionsToSrc p8)

/-- The module paths of all unaliased plain imports among a region list
(the modules feeding `seen_module_names` in
`remove_duplicated_imports`). -/
def unaliasedModules (parts : List CodePartition) : List (List Char) :=
  parts.filterMap fun p =>
    if p.code_type = .IMPORT then
      match import_obj_from_str p.src with
      | some obj => if isUnaliasedImp obj then some (objModulePath obj) else none
      | none => none
    else none

/-- The token stream of the real tokenizer on
`"# noreorder\nx = 1\n\n"`. -/
def toksC3 : List Tok :=
  [⟨.COMMENT, "# noreorder".data, 0, 0, 11⟩,
   ⟨.NL, ['\n'], 11, 11, 12⟩,
   ⟨.NAME, ['x'], 0, 12, 13⟩,
   ⟨.OTHER, ['='], 2, 14, 15⟩,
   ⟨.OTHER, ['1'], 4, 16, 17⟩,
   ⟨.NEWLINE, ['\n'], 5, 17, 18⟩,
   ⟨.NL, ['\n'], 0, 18, 19⟩,
   ⟨.ENDMARKER, [], 0, 19, 19⟩]

/-- The token stream of the real tokenizer on the whitespace-only input
`"\n\n"`. -/
def toksC10 : List Tok :=
  [⟨.NL, ['\n'], 0, 0, 1⟩,
   ⟨.NL, ['\n'], 0, 1, 2⟩,
   ⟨.ENDMARKER, [], 0, 2, 2⟩]

/-- The token stream of the real tokenizer on `"from a import x\n"`. -/
def toksC2a : List Tok :=
  [⟨.NAME, ['f', 'r', 'o', 'm'], 0, 0, 4⟩,
   ⟨.NAME, ['a'], 5, 5, 6⟩,
   ⟨.NAME, ['i', 'm', 'p', 'o', 'r', 't'], 7, 7, 13⟩,
   ⟨.NAME, ['x'], 14, 14, 15⟩,
   ⟨.NEWLINE, ['\n'], 15, 15, 16⟩,
   ⟨.ENDMARKER, [], 0, 16, 16⟩]

/-- The token stream of the real tokenizer on `"from b import x\n"`. -/
def toksC2b : List Tok :=
  [⟨.NAME, ['f', 'r', 'o', 'm'], 0, 0, 4⟩,
   ⟨.NAME, ['b'], 5, 5, 6⟩,
   ⟨.NAME, ['i', 'm', 'p', 'o', 'r', 't'], 7, 7, 13⟩,
   ⟨.NAME, ['x'], 14, 14, 15⟩,
   ⟨.NEWLINE, ['\n'], 15, 15, 16⟩,
   ⟨.ENDMARKER, [], 0, 16, 16⟩]

/-- The token stream of the real tokenizer on `"import os\n"`. -/
def toksC1 : List Tok :=
  [⟨.NAME, "import".data, 0, 0, 6⟩,
   ⟨.NAME, "os".data, 7, 7, 9⟩,
   ⟨.NEWLINE, "\n".data, 9, 9, 10⟩,
   ⟨.ENDMARKER, [], 0, 10, 10⟩]

/-- The token stream of the real tokenizer on two consecutive docstrings
(`'"""foo"""\n"""bar"""\n'`). -/
def toksTwoDocstrings : List Tok :=
  [⟨.STRING, ['\"', '\"', '\"', 'f', 'o', 'o', '\"', '\"', '\"'], 0, 0, 9⟩,
   ⟨.NEWLINE, ['\n'], 9, 9, 10⟩,
   ⟨.STRING, ['\"', '\"', '\"', 'b', 'a', 'r', '\"', '\"', '\"'], 0, 10, 19⟩,
   ⟨.NEWLINE, ['\n'], 9, 19, 20⟩,
   ⟨.ENDMARKER, [], 0, 20, 20⟩]

/-- The text `'"""foo"""\n"""bar"""\n'`. -/
def srcTwoDocstrings : List Char :=
  "\"\"\"foo\"\"\"\n\"\"\"bar\"\"\"\n".data

theorem kindMem_iff {k : TokKind} : ∀ {l : List TokKind}, kindMem k l = true ↔ k ∈ l
  | [] => by simp [kindMem]
  | k' :: rest => by
    simp only [kindMem, Bool.or_eq_true, decide_eq_true_eq, List.mem_cons,
      kindMem_iff (l := rest)]

theorem adjPairsB_tail {R : Tok → Tok → Bool} {a : Tok} {l : List Tok}
    (h : adjPairsB R (a :: l) = true) : adjPairsB R l = true := by
  cases l with
  | nil => rfl
  | cons b rest =>
    simp only [adjPairsB, Bool.and_eq_true] at h
    exact h.2

theorem adjPairsB_head {R : Tok → Tok → Bool} {a b : Tok} {l : List Tok}
    (h : adjPairsB R (a :: b :: l) = true) : R a b = true := by
  simp only [adjPairsB, Bool.and_eq_true] at h
  exact h.1

theorem pySlice_append_drop {src : List Char} {a b : Nat} (hab : a ≤ b) :
    pySlice src a b ++ src.drop b = src.drop a := by
  have hdrop : src.drop b = (src.drop a).drop (b - a) := by
    rw [List.drop_drop]
    congr 1
    omega
  rw [pySlice, hdrop, List.take_append_drop]

theorem partitionsToSrc_cons (p : CodePartition) (l : List CodePartition) :
    partitionsToSrc (p :: l) = p.src ++ partitionsToSrc l := by
  simp [partitionsToSrc]

theorem partitionsToSrc_filter_nonempty (l : List CodePartition) :
    partitionsToSrc (l.filter fun chunk => !chunk.src.isEmpty) = partitionsToSrc l := by
  induction l with
  | nil => rfl
  | cons p rest ih =>
    rw [List.filter_cons]
    by_cases h : p.src.isEmpty
    · have hsrc : p.src = [] := List.isEmpty_iff.mp h
      simp [h, partitionsToSrc_cons, hsrc, ih]
    · simp [h, partitionsToSrc_cons, ih]

theorem term_comment_ok :
    (∀ k ∈ TERMINATES_COMMENT, k = TokKind.NL ∨ k = TokKind.NEWLINE ∨ k = TokKind.ENDMARKER) ∧
      TokKind.ENDMARKER ∈ TERMINATES_COMMENT := by
  refine ⟨?_, by simp [TERMINATES_COMMENT]⟩
  intro k hk
  simp only [TERMINATES_COMMENT, List.mem_cons, List.not_mem_nil, or_false] at hk
  rcases hk with rfl | rfl
  · exact Or.inl rfl
  · exact Or.inr (Or.inr rfl)

theorem term_docstring_ok :
    (∀ k ∈ TERMINATES_DOCSTRING, k = TokKind.NL ∨ k = TokKind.NEWLINE ∨ k = TokKind.ENDMARKER) ∧
      TokKind.ENDMARKER ∈ TERMINATES_DOCSTRING := by
  refine ⟨?_, by simp [TERMINATES_DOCSTRING]⟩
  intro k hk
  simp only [TERMINATES_DOCSTRING, List.mem_cons, List.not_mem_nil, or_false] at hk
  rcases hk with rfl | rfl
  · exact Or.inr (Or.inl rfl)
  · exact Or.inr (Or.inr rfl)

theorem term_import_ok :
    (∀ k ∈ TERMINATES_IMPORT, k = TokKind.NL ∨ k = TokKind.NEWLINE ∨ k = TokKind.ENDMARKER) ∧
      TokKind.ENDMARKER ∈ TERMINATES_IMPORT := by
  refine ⟨?_, by simp [TERMINATES_IMPORT]⟩
  intro k hk
  simp only [TERMINATES_IMPORT, List.mem_cons, List.not_mem_nil, or_false] at hk
  rcases hk with rfl | rfl
  · exact Or.inr (Or.inl rfl)
  · exact Or.inr (Or.inr rfl)

theorem partitionLoop_join (src : List Char) :
    ∀ (toks : List Tok) (startpos : Nat)
      (pending : Option (CodeType × List TokKind)) (seen : Bool),
    (toks = [] → src.length ≤ startpos) →
    (∀ h : toks ≠ [], (toks.getLast h).kind = .ENDMARKER ∧
      src.length ≤ (toks.getLast h).endpos) →
    (∀ t ∈ toks.dropLast, t.kind ≠ .ENDMARKER) →
    List.Pairwise (fun a b => a.endpos ≤ b.endpos) toks →
    adjPairsB
      (fun a b => decide (b.kind = .ENDMARKER → a.kind = .NL ∨ a.kind = .NEWLINE →
        src.length ≤ a.endpos)) toks = true →
    (∀ t ∈ toks, startpos ≤ t.endpos) →
    (pending = none → ∀ t, toks.head? = some t → t.kind = .ENDMARKER →
      src.length ≤ startpos) →
    (∀ ck ends, pending = some (ck, ends) →
      (∀ k ∈ ends, k = .NL ∨ k = .NEWLINE ∨ k = .ENDMARKER) ∧ .ENDMARKER ∈ ends) →
    partitionsToSrc (partitionLoop src startpos pending seen toks) = src.drop startpos
  | [], startpos, pending, seen, hemp, _, _, _, _, _, _, _ => by
    simp only [partitionLoop, partitionsToSrc, List.map_nil, List.flatten_nil]
    exact (List.drop_eq_nil_of_le (hemp rfl)).symm
  | t :: rest, startpos, pending, seen, hemp, hlast, hdl, hpair, hadj, hstart, hG, hP => by
    have hrest_last : ∀ h : rest ≠ [],
        (rest.getLast h).kind = .ENDMARKER ∧ src.length ≤ (rest.getLast h).endpos := by
      intro h
      have := hlast (by simp)
      rwa [List.getLast_cons h] at this
    have hrest_dl : ∀ u ∈ rest.dropLast, u.kind ≠ .ENDMARKER := by
      intro u hu
      apply hdl
      cases rest with
      | nil => simp at hu
      | cons b rb => simpa [List.dropLast_cons₂] using Or.inr hu
    have hrest_pair : List.Pairwise (fun a b => a.endpos ≤ b.endpos) rest :=
      (List.pairwise_cons.mp hpair).2
    have hrest_adj : adjPairsB
        (fun a b => decide (b.kind = .ENDMARKER → a.kind = .NL ∨ a.kind = .NEWLINE →
          src.length ≤ a.endpos)) rest = true := adjPairsB_tail hadj
    have hrest_start : ∀ u ∈ rest, startpos ≤ u.endpos := fun u hu =>
      hstart u (by simp [hu])
    -- when `rest` is empty, the current token is the last token
    have ht_last : rest = [] → t.kind = .ENDMARKER ∧ src.length ≤ t.endpos := by
      intro hr
      have := hlast (by simp)
      subst hr
      simpa using this
    -- when `rest` is non-empty, the current token is not the ENDMARKER
    have ht_mid : rest ≠ [] → t.kind ≠ .ENDMARKER := by
      intro hr
      apply hdl
      cases rest with
      | nil => exact absurd rfl hr
      | cons b rb => simp [List.dropLast_cons₂]
    -- the invariant needed after an immediate emission or a flush at `t`
    have hG_after : ∀ u, rest.head? = some u → u.kind = .ENDMARKER →
        (t.kind = .NL ∨ t.kind = .NEWLINE) → src.length ≤ t.endpos := by
      intro u hu hk hnl
      cases rest with
      | nil => simp at hu
      | cons b rb =>
        have hRab := adjPairsB_head hadj
        simp only [List.head?_cons, Option.some.injEq] at hu
        subst hu
        simpa [hk, hnl] using of_decide_eq_true hRab
    match pending with
    | none =>
      show partitionsToSrc (partitionLoop src startpos none seen (t :: rest)) = _
      rw [partitionLoop]
      split_ifs with h1 h1n h2 h3 h4 h5 h5n h6
      -- comment (pre-import) with noreorder: break
      · simp [partitionsToSrc]
      -- comment (pre-import): open PRE_IMPORT_CODE chunk
      · refine partitionLoop_join src rest startpos _ seen ?_ hrest_last hrest_dl
          hrest_pair hrest_adj hrest_start (by simp) ?_
        · intro hr
          exact absurd (ht_last hr).1 (by simp [h1.2])
        · intro ck ends heq
          obtain ⟨rfl, rfl⟩ : CodeType.PRE_IMPORT_CODE = ck ∧ TERMINATES_COMMENT = ends := by
            simpa using heq
          exact term_comment_ok
      -- docstring: open PRE_IMPORT_CODE chunk
      · refine partitionLoop_join src rest startpos _ seen ?_ hrest_last hrest_dl
          hrest_pair hrest_adj hrest_start (by simp) ?_
        · intro hr
          exact absurd (ht_last hr).1 (by simp [h2.2])
        · intro ck ends heq
          obtain ⟨rfl, rfl⟩ : CodeType.PRE_IMPORT_CODE = ck ∧ TERMINATES_DOCSTRING = ends := by
            simpa using heq
          exact term_docstring_ok
      -- column-zero `from`/`import`: open IMPORT chunk
      · refine partitionLoop_join src rest startpos _ true ?_ hrest_last hrest_dl
          hrest_pair hrest_adj hrest_start (by simp) ?_
        · intro hr
          exact absurd (ht_last hr).1 (by simp [h3.2.1])
        · intro ck ends heq
          obtain ⟨rfl, rfl⟩ : CodeType.IMPORT = ck ∧ TERMINATES_IMPORT = ends := by
            simpa using heq
          exact term_import_ok
      -- NL token: emit a NON_CODE chunk immediately
      · rw [partitionsToSrc_cons]
        rw [partitionLoop_join src rest t.endpos none seen ?_ hrest_last hrest_dl
          hrest_pair hrest_adj ?_ ?_ (by simp)]
        · exact pySlice_append_drop (hstart t (by simp))
        · intro hr
          exact absurd (ht_last hr).1 (by simp [h4])
        · intro u hu
          exact (List.pairwise_cons.mp hpair).1 u hu
        · intro _ u hu hk
          exact hG_after u hu hk (Or.inl h4)
      -- comment with noreorder: break
      · simp [partitionsToSrc]
      -- comment: open CODE chunk
      · refine partitionLoop_join src rest startpos _ seen ?_ hrest_last hrest_dl
          hrest_pair hrest_adj hrest_start (by simp) ?_
        · intro hr
          exact absurd (ht_last hr).1 (by simp [h5])
        · intro ck ends heq
          obtain ⟨rfl, rfl⟩ : CodeType.CODE = ck ∧ TERMINATES_COMMENT = ends := by
            simpa using heq
          exact term_comment_ok
      -- ENDMARKER with nothing pending: skipped (`pass` in the source)
      · have hr : rest = [] := by
          by_contra hne
          exact ht_mid hne h6
        subst hr
        simp only [partitionLoop, partitionsToSrc, List.map_nil, List.flatten_nil]
        exact (List.drop_eq_nil_of_le (hG rfl t rfl h6)).symm
      -- any other token: the rest of the file is one CODE chunk
      · simp [partitionsToSrc]
    | some (ck, ends) =>
      show partitionsToSrc (partitionLoop src startpos (some (ck, ends)) seen (t :: rest)) = _
      rw [partitionLoop]
      split_ifs with h1 h2
      -- a terminating token: flush the pending chunk
      · rw [partitionsToSrc_cons]
        rw [partitionLoop_join src rest t.endpos none seen ?_ hrest_last hrest_dl
          hrest_pair hrest_adj ?_ ?_ (by simp)]
        · exact pySlice_append_drop (hstart t (by simp))
        · intro hr
          exact (ht_last hr).2
        · intro u hu
          exact (List.pairwise_cons.mp hpair).1 u hu
        · intro _ u hu hk
          have hne : rest ≠ [] := by
            cases rest with
            | nil => simp at hu
            | cons b rb => simp
          have htk : t.kind ∈ ends := kindMem_iff.mp h1
          have := (hP ck ends rfl).1 t.kind htk
          rcases this with h | h | h
          · exact hG_after u hu hk (Or.inl h)
          · exact hG_after u hu hk (Or.inr h)
          · exact absurd h (ht_mid hne)
      -- a noreorder comment while a chunk is pending: break
      · simp [partitionsToSrc]
      -- otherwise keep scanning for the end of the pending chunk
      · refine partitionLoop_join src rest startpos (some (ck, ends)) seen ?_ hrest_last
          hrest_dl hrest_pair hrest_adj hrest_start (by simp) hP
        intro hr
        have hkt : t.kind = .ENDMARKER := (ht_last hr).1
        have hmem : kindMem t.kind ends = true := kindMem_iff.mpr (hkt ▸ (hP ck ends rfl).2)
        exact absurd hmem h1

theorem getLast_eq_getLastD_tok {toks : List Tok} (h : toks ≠ []) :
    toks.getLast h = toks.getLastD default := by
  rw [List.getLastD_eq_getLast? default toks, List.getLast?_eq_getLast toks h]
  rfl

theorem partition_source_roundtrip_core (src : List Char) (toks : List Tok)
    (h : Tokenizes src toks) :
    partitionsToSrc (partition_source src toks) = src := by
  obtain ⟨h1, h2, h3, h4, h5, h6, h7, h8, h9, h10, h11, h12⟩ := h
  rw [partition_source, partitionsToSrc_filter_nonempty]
  have hmain := partitionLoop_join src toks 0 none false
    (fun he => absurd he h1)
    (fun hne => by rw [getLast_eq_getLastD_tok hne]; exact ⟨h2, h3⟩)
    h4 h5 h7
    (fun t _ => Nat.zero_le _)
    (fun _ t hh hk => by
      cases toks with
      | nil => cases hh
      | cons a rest =>
        have ha : a = t := by simpa using hh
        subst ha
        cases rest with
        | nil =>
          have hsrc : src = [] := h6 (by simp)
          simp [hsrc]
        | cons b rb =>
          exact absurd hk (h4 a (by simp [List.dropLast_cons₂])))
    (fun ck ends hpe => by cases hpe)
  simpa using hmain

/-- C1: for every input text accepted by the tokenizer (that is, any token
stream satisfying the tokenizer contract for that text), `partition_source`
returns a list of regions whose `src` fields, concatenated in source order,
equal the original input string exactly. -/
theorem c1_partition_source_roundtrip (src : List Char) (toks : List Tok)
    (h : Tokenizes src toks) :
    partitionsToSrc (partition_source src toks) = src :=
  partition_source_roundtrip_core src toks h

/-- C1 witness: the round-trip theorem applied to `"import os\n"` with its
real token stream. -/
theorem c1_partition_source_roundtrip_witness :
    Tokenizes "import os\n".data toksC1 ∧
      partitionsToSrc (partition_source "import os\n".data toksC1) = "import os\n".data :=
  ⟨by decide, c1_partition_source_roundtrip "import os\n".data toksC1 (by decide)⟩

/-- C5 counterexample: with the replacement rule `os=myos`, the plain
statement `import os` matches the rule's old module path exactly,
yet `replace_imports` leaves it unchanged (rather than rewriting it to
`import myos` at the module-path level as the claim states). -/
theorem c5_counterexample :
    replace_imports [⟨.IMPORT, "import os\n".data⟩]
        (replacementsMake [("os".data, "myos".data, [])]) =
      [⟨.IMPORT, "import os\n".data⟩] ∧
    (⟨.IMPORT, "import os\n".data⟩ : CodePartition) ≠
      ⟨.IMPORT, "import myos\n".data⟩ := by
  constructor
  · decide
  · decide

/-- C5 (amended): `replace_imports` never rewrites a plain import
statement at all — a partition whose text parses as a plain `import a.b`
is yielded unchanged whether or not any rule matches its module path (the
source skips them: "cannot rewrite import-imports"); in particular no
symbol-level rewrite is ever performed on one. -/
theorem c5_plain_imports_never_rewritten (r : Replacements) (parts : List CodePartition) :
    replace_imports parts r = parts.map (replacePart r) ∧
    ∀ p : CodePartition, (∃ names, import_obj_from_str p.src = some (.imp names)) →
      replacePart r p = p := by
  refine ⟨rfl, ?_⟩
  rintro p ⟨names, hp⟩
  by_cases h : p.code_type = .IMPORT
  · simp [replacePart, h, hp]
  · simp [replacePart, h]

/-- C5 witness: the amended theorem applied to `import os` under the rule
`os=myos`. -/
theorem c5_witness :
    (∃ names, import_obj_from_str "import os\n".data = some (.imp names)) ∧
    replacePart (replacementsMake [("os".data, "myos".data, [])])
        ⟨.IMPORT, "import os\n".data⟩ =
      ⟨.IMPORT, "import os\n".data⟩ :=
  ⟨⟨[⟨"os".data, none⟩], by decide⟩,
   (c5_plain_imports_never_rewritten (replacementsMake [("os".data, "myos".data, [])]) []).2
     ⟨.IMPORT, "import os\n".data⟩ ⟨[⟨"os".data, none⟩], by decide⟩⟩

theorem findSome?_const_none {α β : Type} (l : List α) :
    l.findSome? (fun _ => (none : Option β)) = none := by
  induction l with
  | nil => rfl
  | cons x xs ih => simp [List.findSome?, ih]

/-- C6: if the replacement configuration contains only the
attribute-specific rule `(mod=foo, attr=bar) ↦ new`, then every from-import
of a different attribute of `foo` (`from foo import baz` with `baz ≠ bar`)
is left unchanged by `replace_imports`, elementwise and in any file. -/
theorem c6_attr_specific_rule_frame (foo new bar : List Char) (hbar : bar ≠ [])
    (parts : List CodePartition) (p : CodePartition) (names : List ImpName)
    (hp : import_obj_from_str p.src = some (.frm foo names))
    (hbaz : (names.headD ⟨[], none⟩).name ≠ bar) :
    replacePart (replacementsMake [(foo, new, bar)]) p = p ∧
    (p ∈ parts → p ∈ replace_imports parts (replacementsMake [(foo, new, bar)])) := by
  have hb : bar.isEmpty = false := by
    cases bar with
    | nil => exact absurd rfl hbar
    | cons c cs => rfl
  have hmk : replacementsMake [(foo, new, bar)] = ⟨[((foo, bar), new)], []⟩ := by
    simp [replacementsMake, hbar, aupsert]
  have hbaz' : ¬((names.head?.getD (⟨[], none⟩ : ImpName)).name = bar) := by
    simpa using hbaz
  have hfix : replacePart (replacementsMake [(foo, new, bar)]) p = p := by
    by_cases h : p.code_type = .IMPORT
    · simp [replacePart, h, hp, hmk, alookup, hbaz', findSome?_const_none]
    · simp [replacePart, h]
  refine ⟨hfix, fun hmem => ?_⟩
  rw [replace_imports]
  have := List.mem_map_of_mem (replacePart (replacementsMake [(foo, new, bar)])) hmem
  rwa [hfix] at this

/-- C6 witness: the theorem applied to `from foo import baz` under the
rule `foo=newmod:bar`. -/
theorem c6_witness :
    "bar".data ≠ ([] : List Char) ∧
    replacePart (replacementsMake [("foo".data, "newmod".data, "bar".data)])
        ⟨.IMPORT, "from foo import baz\n".data⟩ =
      ⟨.IMPORT, "from foo import baz\n".data⟩ := by
  exact ⟨by decide,
    (c6_attr_specific_rule_frame "foo".data "newmod".data "bar".data (by decide)
      [] ⟨.IMPORT, "from foo import baz\n".data⟩ [⟨"baz".data, none⟩]
      (by decide) (by decide)).1⟩

/-- C7 counterexample: on two consecutive string-literal statements
(`'"""foo"""\n"""bar"""\n'`) with the real token stream, `partition_source`
classifies BOTH strings as `PRE_IMPORT_CODE`; the second one is not
classified as ordinary code as the claim states (the repository's own
`test_partition_source_multiple_docstrings` asserts this behaviour). -/
theorem c7_counterexample :
    (partition_source srcTwoDocstrings toksTwoDocstrings).map (fun p => p.code_type) =
      [.PRE_IMPORT_CODE, .PRE_IMPORT_CODE] ∧
    CodeType.PRE_IMPORT_CODE ≠ CodeType.CODE := by
  constructor
  · decide
  · decide

/-- C7 (amended): a second consecutive string literal before any import is
also classified `PRE_IMPORT_CODE`: the `seen_import` guard only stops
treating strings as pre-import material once an import has been seen, so
for any two leading string-literal lines both resulting regions are
`PRE_IMPORT_CODE`. -/
theorem c7_second_docstring_also_pre_import (s1 s2 : List Char) :
    partition_source (s1 ++ '\n' :: (s2 ++ ['\n']))
      [⟨.STRING, s1, 0, 0, s1.length⟩,
       ⟨.NEWLINE, ['\n'], s1.length, s1.length, s1.length + 1⟩,
       ⟨.STRING, s2, 0, s1.length + 1, s1.length + 1 + s2.length⟩,
       ⟨.NEWLINE, ['\n'], s1.length + 1 + s2.length, s1.length + 1 + s2.length,
         s1.length + s2.length + 2⟩,
       ⟨.ENDMARKER, [], 0, s1.length + s2.length + 2, s1.length + s2.length + 2⟩] =
    [⟨.PRE_IMPORT_CODE, s1 ++ ['\n']⟩, ⟨.PRE_IMPORT_CODE, s2 ++ ['\n']⟩] := by
  have hslice1 : pySlice (s1 ++ '\n' :: (s2 ++ ['\n'])) 0 (s1.length + 1) = s1 ++ ['\n'] := by
    show ((s1 ++ '\n' :: (s2 ++ ['\n'])).drop 0).take (s1.length + 1 - 0) = _
    rw [List.drop_zero, Nat.sub_zero]
    rw [show ('\n' :: (s2 ++ ['\n'])) = ['\n'] ++ (s2 ++ ['\n']) from rfl]
    rw [show s1.length + 1 = s1.length + 1 from rfl, List.take_append 1]
    simp
  have hslice2 : pySlice (s1 ++ '\n' :: (s2 ++ ['\n'])) (s1.length + 1)
      (s1.length + s2.length + 2) = s2 ++ ['\n'] := by
    unfold pySlice
    rw [show ('\n' :: (s2 ++ ['\n'])) = ['\n'] ++ (s2 ++ ['\n']) from rfl]
    rw [show s1.length + 1 = (s1 ++ ['\n']).length + 0 by simp, ← List.append_assoc,
      List.drop_append 0]
    rw [List.drop_zero]
    rw [show s1.length + s2.length + 2 - ((s1 ++ ['\n']).length + 0) = s2.length + 1 by
      simp; omega]
    rw [show s2.length + 1 = (s2 ++ ['\n']).length by simp]
    exact List.take_length _
  rw [partition_source]
  rw [partitionLoop]
  simp only [List.length_nil]
  norm_num [partitionLoop, kindMem, TERMINATES_DOCSTRING, hslice1, hslice2, List.filter]
  have h1 : (s1 ++ ['\n']).isEmpty = false := by
    simp [List.isEmpty_iff]
  have h2 : (s2 ++ ['\n']).isEmpty = false := by
    simp [List.isEmpty_iff]
  simp [h1, h2]

/-- C8 counterexample: `combine_trailing_code_chunks` on a single trailing
`CODE` chunk `"x\n\n"` returns its text unchanged; the text is neither
trimmed nor re-terminated with exactly one newline as the claim states
(that trimming happens later in `apply_import_sorting`). -/
theorem c8_counterexample :
    combine_trailing_code_chunks [⟨.CODE, "x\n\n".data⟩] = [⟨.CODE, "x\n\n".data⟩] ∧
    "x\n\n".data ≠ pyRstrip "x\n\n".data ++ ['\n'] := by
  constructor
  · decide
  · decide

theorem takeWhile_append_all {α : Type} (p : α → Bool) (u v : List α)
    (hu : ∀ x ∈ u, p x = true) :
    (u ++ v).takeWhile p = u ++ v.takeWhile p := by
  induction u with
  | nil => simp
  | cons x xs ih =>
    have hx : p x = true := hu x (by simp)
    simp only [List.cons_append, List.takeWhile_cons, hx, if_true]
    rw [ih (fun y hy => hu y (by simp [hy]))]

theorem dropWhile_append_all {α : Type} (p : α → Bool) (u v : List α)
    (hu : ∀ x ∈ u, p x = true) :
    (u ++ v).dropWhile p = v.dropWhile p := by
  induction u with
  | nil => simp
  | cons x xs ih =>
    have hx : p x = true := hu x (by simp)
    simp only [List.cons_append, List.dropWhile_cons, hx, if_true]
    exact ih (fun y hy => hu y (by simp [hy]))

/-- C8 (amended): for every region list ending in a non-empty run of
trailing `CODE`/`NON_CODE` regions after the last `IMPORT`/
`PRE_IMPORT_CODE` region, `combine_trailing_code_chunks` collapses that
run into exactly one `CODE` region whose text is the concatenation of the
collapsed regions' texts, unmodified: no trimming and no newline
re-termination happens here (that normalization is performed later by
`apply_import_sorting`). -/
theorem c8_combine_collapses_run (a b : List CodePartition)
    (hb : b ≠ []) (hball : ∀ p ∈ b, nonCombinable p.code_type = false)
    (ha : ∀ q ∈ a.getLast?, nonCombinable q.code_type = true) :
    combine_trailing_code_chunks (a ++ b) = a ++ [⟨.CODE, partitionsToSrc b⟩] := by
  have hbrev : ∀ p ∈ b.reverse, (fun c => !nonCombinable c.code_type) p = true := by
    intro p hp
    simp [hball p (List.mem_reverse.mp hp)]
  rcases List.eq_nil_or_concat a with rfl | ⟨a', q, rfl⟩
  · rw [combine_trailing_code_chunks]
    simp only [List.nil_append, List.reverse_reverse]
    rw [List.takeWhile_eq_self_iff.mpr (by
      intro x hx
      exact hbrev x (by simpa using hx))]
    rw [List.dropWhile_eq_nil_iff.mpr (by
      intro x hx
      exact hbrev x (by simpa using hx))]
    have : (b.reverse).isEmpty = false := by
      cases hbe : b.reverse with
      | nil => exact absurd (by simpa using hbe) hb
      | cons x xs => rfl
    simp [this]
  · simp only [List.concat_eq_append] at ha ⊢
    have hq : nonCombinable q.code_type = true := by
      have := ha q
      simp at this
      exact this
    rw [combine_trailing_code_chunks]
    simp only [List.reverse_append, List.reverse_singleton, List.singleton_append]
    rw [takeWhile_append_all _ _ _ hbrev, dropWhile_append_all _ _ _ hbrev]
    simp only [List.takeWhile_cons, List.dropWhile_cons, hq]
    have hne : (b.reverse ++ ([] : List CodePartition)).isEmpty = false := by
      cases hbe : b.reverse with
      | nil => exact absurd (by simpa using hbe) hb
      | cons x xs => simp [hbe]
    simp [hne, List.reverse_append]
    exact fun hbe => absurd hbe hb

/-- C8 witness: the amended collapse theorem applied to an import followed
by a blank-line region and a code region. -/
theorem c8_witness :
    combine_trailing_code_chunks
        ([⟨.IMPORT, "import a\n".data⟩] ++ [⟨.NON_CODE, "\n".data⟩, ⟨.CODE, "x = 1\n".data⟩]) =
      [⟨.IMPORT, "import a\n".data⟩] ++
        [⟨.CODE, partitionsToSrc [⟨.NON_CODE, "\n".data⟩, ⟨.CODE, "x = 1\n".data⟩]⟩] :=
  c8_combine_collapses_run [⟨.IMPORT, "import a\n".data⟩]
    [⟨.NON_CODE, "\n".data⟩, ⟨.CODE, "x = 1\n".data⟩]
    (by decide) (by decide) (by decide)

theorem memB_iff {α : Type} [DecidableEq α] {a : α} :
    ∀ {l : List α}, memB a l = true ↔ a ∈ l
  | [] => by simp [memB]
  | b :: rest => by
    simp only [memB, Bool.or_eq_true, decide_eq_true_eq, List.mem_cons,
      memB_iff (l := rest)]

theorem splitDotAux_ne_nil (acc s : List Char) : splitDotAux acc s ≠ [] := by
  induction s generalizing acc with
  | nil => simp [splitDotAux]
  | cons c rest ih =>
    rw [splitDotAux]
    by_cases hc : c = '.'
    · simp [hc]
    · simpa [hc] using ih (c :: acc)

theorem splitDotAux_append (u : List Char) :
    ∀ (acc v : List Char),
      splitDotAux acc (u ++ '.' :: v) = splitDotAux acc u ++ splitDotAux [] v := by
  induction u with
  | nil =>
    intro acc v
    simp [splitDotAux]
  | cons c u' ih =>
    intro acc v
    by_cases hc : c = '.'
    · subst hc
      simp only [List.cons_append]
      simp only [splitDotAux, if_pos rfl]
      rw [ih [] v]
      simp [splitDotAux]
    · simp only [List.cons_append]
      simp only [splitDotAux, if_neg hc]
      exact ih (c :: acc) v

theorem intercalate_splitDotAux :
    ∀ (s acc : List Char),
      List.intercalate ['.'] (splitDotAux acc s) = acc.reverse ++ s := by
  intro s
  induction s with
  | nil =>
    intro acc
    simp [splitDotAux, List.intercalate]
  | cons c rest ih =>
    intro acc
    by_cases hc : c = '.'
    · subst hc
      rw [splitDotAux, if_pos rfl]
      cases hsp : splitDotAux [] rest with
      | nil => exact absurd hsp (splitDotAux_ne_nil [] rest)
      | cons x xs =>
        rw [show List.intercalate ['.'] (acc.reverse :: x :: xs) =
            acc.reverse ++ ['.'] ++ List.intercalate ['.'] (x :: xs) by
          simp [List.intercalate, List.intersperse]]
        rw [← hsp, ih []]
        simp
    · rw [splitDotAux, if_neg hc]
      rw [ih (c :: acc)]
      simp

theorem intercalate_cons_of_ne_nil {x : List Char} {l : List (List Char)} (h : l ≠ []) :
    List.intercalate ['.'] (x :: l) = x ++ '.' :: List.intercalate ['.'] l := by
  cases l with
  | nil => exact absurd rfl h
  | cons y ys => simp [List.intercalate, List.intersperse]

theorem mem_moduleToBaseModules_of_ext (m tail : List Char) :
    m ∈ moduleToBaseModules (m ++ '.' :: tail) := by
  rw [moduleToBaseModules]
  have hsplit : splitDotAux [] (m ++ '.' :: tail) =
      splitDotAux [] m ++ splitDotAux [] tail := splitDotAux_append m [] tail
  rw [hsplit]
  have hk : (splitDotAux [] m).length ≠ 0 := by
    intro h
    exact splitDotAux_ne_nil [] m (List.length_eq_zero.mp h)
  refine List.mem_map.mpr ⟨(splitDotAux [] m).length - 1, ?_, ?_⟩
  · refine List.mem_range.mpr ?_
    have h1 : (splitDotAux [] tail).length ≠ 0 := by
      intro h
      exact splitDotAux_ne_nil [] tail (List.length_eq_zero.mp h)
    simp only [List.length_append]
    omega
  · rw [show (splitDotAux [] m).length - 1 + 1 = (splitDotAux [] m).length by omega]
    rw [List.take_left]
    have := intercalate_splitDotAux m []
    simpa using this

theorem intercalate_take_drop (parts : List (List Char)) :
    ∀ (k : Nat), 0 < k → k < parts.length →
      List.intercalate ['.'] parts =
        List.intercalate ['.'] (parts.take k) ++
          '.' :: List.intercalate ['.'] (parts.drop k) := by
  induction parts with
  | nil =>
    intro k _ hk
    simp at hk
  | cons p rest ih =>
    intro k hk0 hklt
    have hrest : rest ≠ [] := by
      intro h
      subst h
      simp at hklt
      omega
    cases k with
    | zero => omega
    | succ j =>
      cases j with
      | zero =>
        simp only [List.take_succ_cons, List.take_zero, List.drop_succ_cons, List.drop_zero]
        rw [intercalate_cons_of_ne_nil hrest]
        simp [List.intercalate]
      | succ j' =>
        have hrlt : j' + 1 < rest.length := by
          simp only [List.length_cons] at hklt
          omega
        have htake : (p :: rest).take (j' + 2) = p :: rest.take (j' + 1) := by simp
        have hdrop : (p :: rest).drop (j' + 2) = rest.drop (j' + 1) := by simp
        rw [htake, hdrop]
        have htk_ne : rest.take (j' + 1) ≠ [] := by
          intro h
          have hlen : (rest.take (j' + 1)).length = 0 := by rw [h]; rfl
          rw [List.length_take] at hlen
          omega
        rw [intercalate_cons_of_ne_nil hrest, intercalate_cons_of_ne_nil htk_ne]
        rw [ih (j' + 1) (by omega) hrlt]
        simp

theorem moduleToBaseModules_sub {m M : List Char} (h : m ∈ moduleToBaseModules M) :
    ∃ tail, M = m ++ '.' :: tail := by
  rw [moduleToBaseModules] at h
  obtain ⟨i, hi, heq⟩ := List.mem_map.mp h
  have hirange := List.mem_range.mp hi
  have hM : List.intercalate ['.'] (splitDotAux [] M) = M := by
    simpa using intercalate_splitDotAux M []
  have h2 : i + 1 < (splitDotAux [] M).length := by omega
  have hsplit := intercalate_take_drop (splitDotAux [] M) (i + 1) (by omega) h2
  refine ⟨List.intercalate ['.'] ((splitDotAux [] M).drop (i + 1)), ?_⟩
  conv_lhs => rw [← hM, hsplit]
  rw [heq]

theorem rdiPass1_mem_of (parts : List CodePartition) :
    ∀ (seen : List ImportObj) (smn : List (List Char)) (p : CodePartition),
      p ∈ (rdiPass1 seen smn parts).1 → p ∈ parts := by
  induction parts with
  | nil => intro seen smn p hp; simp [rdiPass1] at hp
  | cons q rest ih =>
    intro seen smn p hp
    rw [rdiPass1] at hp
    by_cases hq : q.code_type = .IMPORT
    · simp only [hq, if_true] at hp
      cases hobj : import_obj_from_str q.src with
      | none =>
        rw [hobj] at hp
        rcases List.mem_cons.mp hp with rfl | hp'
        · exact List.mem_cons_self _ _
        · exact List.mem_cons_of_mem _ (ih _ _ _ hp')
      | some obj =>
        rw [hobj] at hp
        by_cases hseen : memB obj seen
        · simp only [hseen, if_true] at hp
          exact List.mem_cons_of_mem _ (ih _ _ _ hp)
        · simp only [hseen, Bool.false_eq_true, if_false] at hp
          rcases List.mem_cons.mp hp with rfl | hp'
          · exact List.mem_cons_self _ _
          · exact List.mem_cons_of_mem _ (ih _ _ _ hp')
    · simp only [hq, if_false] at hp
      rcases List.mem_cons.mp hp with rfl | hp'
      · exact List.mem_cons_self _ _
      · exact List.mem_cons_of_mem _ (ih _ _ _ hp')

theorem rdiPass1_smn_mono (parts : List CodePartition) :
    ∀ (seen : List ImportObj) (smn : List (List Char)) (m : List Char),
      m ∈ smn → m ∈ (rdiPass1 seen smn parts).2 := by
  induction parts with
  | nil => intro seen smn m hm; simpa [rdiPass1] using hm
  | cons q rest ih =>
    intro seen smn m hm
    rw [rdiPass1]
    by_cases hq : q.code_type = .IMPORT
    · simp only [hq, if_true]
      cases hobj : import_obj_from_str q.src with
      | none => exact ih _ _ _ hm
      | some obj =>
        by_cases hseen : memB obj seen
        · simp only [hseen, if_true]
          exact ih _ _ _ hm
        · simp only [hseen, Bool.false_eq_true, if_false]
          by_cases hunal : isUnaliasedImp obj
          · simp only [hunal, if_true]
            exact ih _ _ _ (List.mem_append_left _ hm)
          · simp only [hunal, Bool.false_eq_true, if_false]
            exact ih _ _ _ hm
    · simp only [hq, if_false]
      exact ih _ _ _ hm

theorem rdiPass1_smn_collect (parts : List CodePartition) :
    ∀ (seen : List ImportObj) (smn : List (List Char)) (p : CodePartition) (obj : ImportObj),
      p ∈ parts → p.code_type = .IMPORT → import_obj_from_str p.src = some obj →
      isUnaliasedImp obj = true → memB obj seen = false →
      ∀ m ∈ moduleToBaseModules (objModulePath obj), m ∈ (rdiPass1 seen smn parts).2 := by
  induction parts with
  | nil => intro seen smn p obj hp; simp at hp
  | cons q rest ih =>
    intro seen smn p obj hp hct hparse hunal hseen m hm
    rw [rdiPass1]
    by_cases hq : q.code_type = .IMPORT
    · simp only [hq, if_true]
      cases hobjq : import_obj_from_str q.src with
      | none =>
        rcases List.mem_cons.mp hp with rfl | hp'
        · rw [hparse] at hobjq; cases hobjq
        · exact ih _ _ _ _ hp' hct hparse hunal hseen m hm
      | some objq =>
        by_cases hseenq : memB objq seen
        · simp only [hseenq, if_true]
          rcases List.mem_cons.mp hp with rfl | hp'
          · rw [hparse] at hobjq
            injection hobjq with he
            rw [← he] at hseenq
            rw [hseenq] at hseen
            cases hseen
          · exact ih _ _ _ _ hp' hct hparse hunal hseen m hm
        · simp only [hseenq, Bool.false_eq_true, if_false]
          rcases List.mem_cons.mp hp with rfl | hp'
          · rw [hparse] at hobjq
            injection hobjq with he
            subst he
            simp only [hunal, if_true]
            exact rdiPass1_smn_mono rest _ _ m (List.mem_append_right _ hm)
          · by_cases heobj : obj = objq
            · subst heobj
              simp only [hunal, if_true]
              exact rdiPass1_smn_mono rest _ _ m (List.mem_append_right _ hm)
            · have hseen' : memB obj (objq :: seen) = false := by
                simp [memB, heobj, hseen]
              by_cases hunalq : isUnaliasedImp objq
              · simp only [hunalq, if_true]
                exact ih _ _ _ _ hp' hct hparse hunal hseen' m hm
              · simp only [hunalq, Bool.false_eq_true, if_false]
                exact ih _ _ _ _ hp' hct hparse hunal hseen' m hm
    · simp only [hq, if_false]
      rcases List.mem_cons.mp hp with rfl | hp'
      · exact absurd hct hq
      · exact ih _ _ _ _ hp' hct hparse hunal hseen m hm

theorem rdiPass1_smn_src (parts : List CodePartition) :
    ∀ (seen : List ImportObj) (smn : List (List Char)) (m : List Char),
      m ∈ (rdiPass1 seen smn parts).2 →
      m ∈ smn ∨ ∃ p ∈ parts, p.code_type = .IMPORT ∧ ∃ obj,
        import_obj_from_str p.src = some obj ∧ isUnaliasedImp obj = true ∧
          m ∈ moduleToBaseModules (objModulePath obj) := by
  induction parts with
  | nil => intro seen smn m hm; exact Or.inl (by simpa [rdiPass1] using hm)
  | cons q rest ih =>
    intro seen smn m hm
    rw [rdiPass1] at hm
    by_cases hq : q.code_type = .IMPORT
    · simp only [hq, if_true] at hm
      cases hobjq : import_obj_from_str q.src with
      | none =>
        rw [hobjq] at hm
        rcases ih _ _ _ hm with h | ⟨p, hp, h1, h2⟩
        · exact Or.inl h
        · exact Or.inr ⟨p, List.mem_cons_of_mem _ hp, h1, h2⟩
      | some objq =>
        rw [hobjq] at hm
        by_cases hseenq : memB objq seen
        · simp only [hseenq, if_true] at hm
          rcases ih _ _ _ hm with h | ⟨p, hp, h1, h2⟩
          · exact Or.inl h
          · exact Or.inr ⟨p, List.mem_cons_of_mem _ hp, h1, h2⟩
        · simp only [hseenq, Bool.false_eq_true, if_false] at hm
          by_cases hunalq : isUnaliasedImp objq
          · simp only [hunalq, if_true] at hm
            rcases ih _ _ _ hm with h | ⟨p, hp, h1, h2⟩
            · rcases List.mem_append.mp h with h' | h'
              · exact Or.inl h'
              · exact Or.inr ⟨q, List.mem_cons_self _ _, hq, objq, hobjq, hunalq, h'⟩
            · exact Or.inr ⟨p, List.mem_cons_of_mem _ hp, h1, h2⟩
          · simp only [hunalq, Bool.false_eq_true, if_false] at hm
            rcases ih _ _ _ hm with h | ⟨p, hp, h1, h2⟩
            · exact Or.inl h
            · exact Or.inr ⟨p, List.mem_cons_of_mem _ hp, h1, h2⟩
    · simp only [hq, if_false] at hm
      rcases ih _ _ _ hm with h | ⟨p, hp, h1, h2⟩
      · exact Or.inl h
      · exact Or.inr ⟨p, List.mem_cons_of_mem _ hp, h1, h2⟩

theorem rdiPass1_keeps_first (post : List CodePartition) (p : CodePartition) (obj : ImportObj)
    (hct : p.code_type = .IMPORT) (hparse : import_obj_from_str p.src = some obj) :
    ∀ (pre : List CodePartition) (seen : List ImportObj) (smn : List (List Char)),
      (∀ q ∈ pre, q.code_type = .IMPORT → import_obj_from_str q.src ≠ some obj) →
      memB obj seen = false →
      p ∈ (rdiPass1 seen smn (pre ++ p :: post)).1 := by
  intro pre
  induction pre with
  | nil =>
    intro seen smn _ hseen
    rw [List.nil_append, rdiPass1]
    simp only [hct, if_true, hparse, hseen, Bool.false_eq_true, if_false]
    exact List.mem_cons_self _ _
  | cons q pre' ih =>
    intro seen smn hpre hseen
    rw [List.cons_append, rdiPass1]
    by_cases hq : q.code_type = .IMPORT
    · simp only [hq, if_true]
      cases hobjq : import_obj_from_str q.src with
      | none =>
        exact List.mem_cons_of_mem _ (ih _ _ (fun r hr => hpre r (by simp [hr])) hseen)
      | some objq =>
        have hne : objq ≠ obj := by
          intro he
          exact hpre q (by simp) hq (he ▸ hobjq)
        by_cases hseenq : memB objq seen
        · simp only [hseenq, if_true]
          exact ih _ _ (fun r hr => hpre r (by simp [hr])) hseen
        · simp only [hseenq, Bool.false_eq_true, if_false]
          have hseen' : memB obj (objq :: seen) = false := by
            simp [memB, hseen]
            exact fun h => hne h.symm
          exact List.mem_cons_of_mem _ (ih _ _ (fun r hr => hpre r (by simp [hr])) hseen')
    · simp only [hq, if_false]
      exact List.mem_cons_of_mem _ (ih _ _ (fun r hr => hpre r (by simp [hr])) hseen)

theorem remove_duplicated_imports_eq (parts : List CodePartition) :
    remove_duplicated_imports parts =
      (rdiPass1 [] [] parts).1.filter (fun p =>
        !(p.code_type = CodeType.IMPORT &&
          (match import_obj_from_str p.src with
           | some obj =>
               isUnaliasedImp obj && memB (objModulePath obj) (rdiPass1 [] [] parts).2
           | none => false))) := rfl

/-- C4 counterexample: in the file `import a` / `import a.b` / `import
a.b.c`, the pair (`import a`, `import a.b`) satisfies the claim's
hypothesis (unaliased parent plus submodule import), yet the submodule
statement `import a.b` is NOT kept — it is itself dropped as the redundant
parent of `import a.b.c`, so the claim's "keeps the submodule import" part
fails. -/
theorem c4_counterexample :
    remove_duplicated_imports
        [⟨.IMPORT, "import a\n".data⟩, ⟨.IMPORT, "import a.b\n".data⟩,
         ⟨.IMPORT, "import a.b.c\n".data⟩] =
      [⟨.IMPORT, "import a.b.c\n".data⟩] ∧
    (⟨.IMPORT, "import a.b\n".data⟩ : CodePartition) ∉
      remove_duplicated_imports
        [⟨.IMPORT, "import a\n".data⟩, ⟨.IMPORT, "import a.b\n".data⟩,
         ⟨.IMPORT, "import a.b.c\n".data⟩] := by
  constructor
  · decide
  · decide

/-- C4 (amended): `remove_duplicated_imports` drops every unaliased plain
`import m` for which some unaliased plain import of a strict dotted
submodule of `m` exists anywhere in the file (either order); and it keeps
any first-occurrence import region that is not such a redundant parent —
in particular the submodule import is kept when no deeper unaliased
submodule import exists, an aliased plain import (`import a as y`,
`import a.b as x`) is never dropped by this rule, and an aliased
submodule import does not cause its unaliased parent to be dropped. -/
theorem c4_parent_submodule_rule (parts : List CodePartition) (m : List Char) :
    ((∃ q ∈ parts, q.code_type = .IMPORT ∧ ∃ obj,
        import_obj_from_str q.src = some obj ∧ isUnaliasedImp obj = true ∧
        (m ++ ['.']).isPrefixOf (objModulePath obj) = true) →
      ∀ p ∈ remove_duplicated_imports parts, p.code_type = .IMPORT →
        ∀ obj, import_obj_from_str p.src = some obj → isUnaliasedImp obj = true →
          objModulePath obj ≠ m) ∧
    (∀ (pre : List CodePartition) (p : CodePartition) (post : List CodePartition)
        (obj : ImportObj),
      parts = pre ++ p :: post →
      p.code_type = .IMPORT →
      import_obj_from_str p.src = some obj →
      (∀ q ∈ pre, q.code_type = .IMPORT → import_obj_from_str q.src ≠ some obj) →
      (isUnaliasedImp obj = true →
        ∀ q ∈ parts, q.code_type = .IMPORT →
          ∀ obj', import_obj_from_str q.src = some obj' → isUnaliasedImp obj' = true →
            (objModulePath obj ++ ['.']).isPrefixOf (objModulePath obj') = false) →
      p ∈ remove_duplicated_imports parts) := by
  constructor
  · rintro ⟨q, hq, hqct, objq, hqparse, hqunal, hqpref⟩ p hp hpct obj hpparse hpunal heq
    have hext : ∃ tail, objModulePath objq = m ++ '.' :: tail := by
      obtain ⟨t, ht⟩ := List.isPrefixOf_iff_prefix.mp hqpref
      exact ⟨t, by rw [← ht]; simp⟩
    rw [remove_duplicated_imports_eq] at hp
    obtain ⟨hp1, hcond⟩ := List.mem_filter.mp hp
    simp only [hpct, hpparse, hpunal, decide_True, Bool.true_and, Bool.not_eq_true',
      Bool.and_eq_false_iff] at hcond
    have hmem : m ∈ (rdiPass1 [] [] parts).2 := by
      obtain ⟨tail, htail⟩ := hext
      have := rdiPass1_smn_collect parts [] [] q objq hq hqct hqparse hqunal rfl
      rw [htail] at this
      exact this m (mem_moduleToBaseModules_of_ext m tail)
    rw [heq] at hcond
    rw [memB_iff.mpr hmem] at hcond
    simp at hcond
  · intro pre p post obj hsplit hpct hpparse hfirst hnoext
    subst hsplit
    rw [remove_duplicated_imports_eq]
    refine List.mem_filter.mpr ⟨rdiPass1_keeps_first post p obj hpct hpparse pre [] []
      hfirst rfl, ?_⟩
    by_cases hunal : isUnaliasedImp obj
    · have hmemb : memB (objModulePath obj) (rdiPass1 [] [] (pre ++ p :: post)).2 = false := by
        by_contra hcon
        have hmem : objModulePath obj ∈ (rdiPass1 [] [] (pre ++ p :: post)).2 :=
          memB_iff.mp (eq_true_of_ne_false hcon)
        rcases rdiPass1_smn_src (pre ++ p :: post) [] [] _ hmem with h | ⟨q, hqm, hqct, obj', hq1, hq2, hq3⟩
        · simp at h
        · obtain ⟨tail, htail⟩ := moduleToBaseModules_sub hq3
          have hpref : (objModulePath obj ++ ['.']).isPrefixOf (objModulePath obj') = true := by
            refine List.isPrefixOf_iff_prefix.mpr ⟨tail, ?_⟩
            rw [htail]
            simp
          rw [hnoext hunal q hqm hqct obj' hq1 hq2] at hpref
          cases hpref
      simp [hpct, hpparse, hunal, hmemb]
    · simp only [Bool.not_eq_true] at hunal
      simp [hpct, hpparse, hunal]

/-- C4 witness: the amended theorem applied to the two-line file
`import os` / `import os.path`: no unaliased `import os` survives and the
submodule import survives. -/
theorem c4_witness :
    (∀ p ∈ remove_duplicated_imports
        [⟨.IMPORT, "import os\n".data⟩, ⟨.IMPORT, "import os.path\n".data⟩],
      p.code_type = .IMPORT →
      ∀ obj, import_obj_from_str p.src = some obj → isUnaliasedImp obj = true →
        objModulePath obj ≠ "os".data) ∧
    (⟨.IMPORT, "import os.path\n".data⟩ : CodePartition) ∈
      remove_duplicated_imports
        [⟨.IMPORT, "import os\n".data⟩, ⟨.IMPORT, "import os.path\n".data⟩] := by
  constructor
  · exact (c4_parent_submodule_rule
      [⟨.IMPORT, "import os\n".data⟩, ⟨.IMPORT, "import os.path\n".data⟩] "os".data).1
      ⟨⟨.IMPORT, "import os.path\n".data⟩, by decide, by decide,
        .imp [⟨"os.path".data, none⟩], by decide, by decide, by decide⟩
  · exact (c4_parent_submodule_rule
      [⟨.IMPORT, "import os\n".data⟩, ⟨.IMPORT, "import os.path\n".data⟩] "os.path".data).2
      [⟨.IMPORT, "import os\n".data⟩] ⟨.IMPORT, "import os.path\n".data⟩ []
      (.imp [⟨"os.path".data, none⟩]) rfl (by decide) (by decide) (by decide) (by decide)

theorem partitionsToSrc_append (a b : List CodePartition) :
    partitionsToSrc (a ++ b) = partitionsToSrc a ++ partitionsToSrc b := by
  simp [partitionsToSrc]

theorem mem_pyLstrip {ch : Char} {x : List Char} (hm : ch ∈ x) (hns : pySpace ch = false) :
    ch ∈ pyLstrip x := by
  rw [pyLstrip]
  induction x with
  | nil => cases hm
  | cons c rest ih =>
    rw [List.dropWhile_cons]
    by_cases hc : pySpace c
    · rcases List.mem_cons.mp hm with rfl | hm'
      · rw [hc] at hns; cases hns
      · simp only [hc, if_true]
        exact ih hm'
    · simp only [hc, if_false]
      exact hm

theorem pyRstrip_ne_nil {ch : Char} {x : List Char} (hm : ch ∈ x) (hns : pySpace ch = false) :
    pyRstrip x ≠ [] := by
  rw [pyRstrip]
  intro h
  have hdw : x.reverse.dropWhile pySpace = [] := by
    have := congrArg List.reverse h
    simpa using this
  have := (List.dropWhile_eq_nil_iff.mp hdw) ch (List.mem_reverse.mpr hm)
  rw [hns] at this
  cases this

theorem pyStrip_ne_nil {ch : Char} {x : List Char} (hm : ch ∈ x) (hns : pySpace ch = false) :
    pyStrip x ≠ [] :=
  pyRstrip_ne_nil (mem_pyLstrip hm hns) hns

theorem pyRstrip_append_of_ne_nil {a b : List Char} (hb : pyRstrip b ≠ []) :
    pyRstrip (a ++ b) = a ++ pyRstrip b := by
  have hne : (b.reverse.dropWhile pySpace).isEmpty = false := by
    cases hh : b.reverse.dropWhile pySpace with
    | nil =>
      exfalso
      apply hb
      rw [pyRstrip, hh]
      rfl
    | cons y ys => rfl
  rw [pyRstrip, pyRstrip, List.reverse_append, List.dropWhile_append, hne]
  simp

theorem pyRstrip_append_ws {x trail : List Char} (htrail : ∀ c ∈ trail, pySpace c = true) :
    pyRstrip (x ++ trail) = pyRstrip x := by
  rw [pyRstrip, pyRstrip, List.reverse_append, List.dropWhile_append]
  have hnil : trail.reverse.dropWhile pySpace = [] :=
    List.dropWhile_eq_nil_iff.mpr (fun c hc => htrail c (List.mem_reverse.mp hc))
  rw [hnil]
  rfl

theorem pyReplace_nil (pat r : List Char) : pyReplace pat r [] = [] := by
  cases pat <;> simp [pyReplace]

theorem pyReplace_single_append (c : Char) (r : List Char) (x y : List Char) :
    pyReplace [c] r (x ++ y) = pyReplace [c] r x ++ pyReplace [c] r y := by
  induction x with
  | nil =>
    rw [List.nil_append, pyReplace_nil, List.nil_append]
  | cons a x' ih =>
    rw [List.cons_append]
    rw [pyReplace, pyReplace]
    by_cases hac : c = a
    · subst hac
      have hpre1 : ([c]).isPrefixOf (c :: (x' ++ y)) = true := by
        simp [List.isPrefixOf]
      have hpre2 : ([c]).isPrefixOf (c :: x') = true := by
        simp [List.isPrefixOf]
      rw [hpre1, hpre2]
      simp only [if_true, List.length_nil, List.drop_zero]
      rw [ih]
      simp
    · have hpre1 : ([c]).isPrefixOf (a :: (x' ++ y)) = false := by
        simp [List.isPrefixOf, hac]
      have hpre2 : ([c]).isPrefixOf (a :: x') = false := by
        simp [List.isPrefixOf, hac]
      rw [hpre1, hpre2]
      simp only [Bool.false_eq_true, if_false]
      rw [ih]
      simp

theorem kindMem_comment_false {ends : List TokKind}
    (h : ∀ k ∈ ends, k = .NL ∨ k = .NEWLINE ∨ k = .ENDMARKER) :
    kindMem .COMMENT ends = false := by
  induction ends with
  | nil => rfl
  | cons k rest ih =>
    rw [kindMem]
    have hk := h k (by simp)
    have hne : (TokKind.COMMENT = k) = False := by
      rcases hk with rfl | rfl | rfl <;> simp
    simp only [hne, decide_False, Bool.false_or]
    exact ih (fun k' hk' => h k' (by simp [hk']))

theorem filter_append_last_kept (F : List CodePartition) (x : CodePartition)
    (hx : x.src.isEmpty = false) :
    (F ++ [x]).filter (fun chunk => !chunk.src.isEmpty) =
      F.filter (fun chunk => !chunk.src.isEmpty) ++ [x] := by
  rw [List.filter_append]
  simp [List.filter, hx]

theorem combine_join (parts : List CodePartition) :
    partitionsToSrc (combine_trailing_code_chunks parts) = partitionsToSrc parts := by
  rw [combine_trailing_code_chunks]
  by_cases h : (parts.reverse.takeWhile (fun c => !nonCombinable c.code_type)).isEmpty
  · simp [h]
  · simp only [h, Bool.false_eq_true, if_false]
    rw [partitionsToSrc_append]
    have hsplit := List.takeWhile_append_dropWhile
      (p := fun c : CodePartition => !nonCombinable c.code_type) (l := parts.reverse)
    conv_rhs => rw [← List.reverse_reverse parts, ← hsplit]
    rw [List.reverse_append, partitionsToSrc_append]
    simp [partitionsToSrc]

theorem combine_last_code (F : List CodePartition) (s : List Char) :
    ∃ F' w, combine_trailing_code_chunks (F ++ [⟨.CODE, s⟩]) = F' ++ [⟨.CODE, w ++ s⟩] := by
  rw [combine_trailing_code_chunks]
  simp only [List.reverse_append, List.reverse_singleton, List.singleton_append]
  rw [show List.takeWhile (fun c => !nonCombinable c.code_type)
        ((⟨.CODE, s⟩ : CodePartition) :: F.reverse) =
      ⟨.CODE, s⟩ :: List.takeWhile (fun c => !nonCombinable c.code_type) F.reverse by
    simp [List.takeWhile_cons, nonCombinable]]
  rw [show List.dropWhile (fun c => !nonCombinable c.code_type)
        ((⟨.CODE, s⟩ : CodePartition) :: F.reverse) =
      List.dropWhile (fun c => !nonCombinable c.code_type) F.reverse by
    simp [List.dropWhile_cons, nonCombinable]]
  simp only [List.isEmpty_cons, Bool.false_eq_true, if_false]
  refine ⟨(List.dropWhile (fun c => !nonCombinable c.code_type) F.reverse).reverse,
    partitionsToSrc (List.takeWhile (fun c => !nonCombinable c.code_type) F.reverse).reverse,
    ?_⟩
  simp [partitionsToSrc_append, partitionsToSrc]

theorem add_imports_shape (front : List CodePartition) (s : List Char) (ct : CodeType)
    (to_add : List (List Char))
    (hstrip : pyStrip (partitionsToSrc (front ++ [⟨ct, s⟩])) ≠ []) :
    ∃ trail, (trail = [] ∨ trail = ['\n']) ∧ (∀ c ∈ trail, pySpace c = true) ∧
      add_imports (front ++ [⟨ct, s⟩]) to_add =
        front ++ [⟨ct, s ++ trail⟩] ++ to_add.map (fun a => ⟨.IMPORT, pyStrip a ++ ['\n']⟩) := by
  have hne : (pyStrip (partitionsToSrc (front ++ [⟨ct, s⟩]))).isEmpty = false := by
    cases hh : pyStrip (partitionsToSrc (front ++ [⟨ct, s⟩])) with
    | nil => exact absurd hh hstrip
    | cons y ys => rfl
  have hlast : (front ++ [(⟨ct, s⟩ : CodePartition)]).getLastD (⟨.CODE, []⟩ : CodePartition) =
      (⟨ct, s⟩ : CodePartition) := by
    rw [List.getLastD_eq_getLast?]
    simp
  simp only [add_imports, hne, Bool.false_eq_true, if_false, hlast]
  by_cases hnl : endsWith ['\n'] s
  · refine ⟨[], Or.inl rfl, by simp, ?_⟩
    simp [hnl]
  · refine ⟨['\n'], Or.inr rfl, by simp [pySpace], ?_⟩
    have hcond : endsWith ['\n'] s = false := by
      cases hh : endsWith ['\n'] s with
      | false => rfl
      | true => exact absurd hh hnl
    rw [hcond]
    simp only [Bool.false_eq_true, if_false]
    rw [show (front ++ [(⟨ct, s⟩ : CodePartition)]).dropLast = front by simp]

theorem partitionLoop_noreorder (src : List Char) (c : Tok)
    (hck : c.kind = .COMMENT) (hcnr : hasSeq "noreorder".data c.text = true) :
    ∀ (toks : List Tok) (startpos : Nat)
      (pending : Option (CodeType × List TokKind)) (seen : Bool),
      c ∈ toks →
      List.Pairwise (fun a b => b.kind = .COMMENT → a.endpos ≤ b.startpos) toks →
      startpos ≤ c.startpos →
      (∀ ck ends, pending = some (ck, ends) →
        ∀ k ∈ ends, k = .NL ∨ k = .NEWLINE ∨ k = .ENDMARKER) →
      ∃ front p', p' ≤ c.startpos ∧
        partitionLoop src startpos pending seen toks = front ++ [⟨.CODE, src.drop p'⟩]
  | [], startpos, pending, seen, hc, _, _, _ => absurd hc (List.not_mem_nil c)
  | t :: rest, startpos, pending, seen, hc, hpair, hsp, hP => by
    have hrest_pair : List.Pairwise (fun a b => b.kind = .COMMENT → a.endpos ≤ b.startpos)
        rest := (List.pairwise_cons.mp hpair).2
    have hbound : c ∈ rest → t.endpos ≤ c.startpos := fun hc' =>
      (List.pairwise_cons.mp hpair).1 c hc' hck
    match pending with
    | none =>
      rw [partitionLoop]
      split_ifs with h1 h1n h2 h3 h4 h5 h5n h6
      · exact ⟨[], startpos, hsp, by simp⟩
      · have hc' : c ∈ rest := by
          rcases List.mem_cons.mp hc with rfl | hc'
          · exact absurd hcnr (by simpa using h1n)
          · exact hc'
        refine partitionLoop_noreorder src c hck hcnr rest startpos _ seen hc' hrest_pair hsp ?_
        intro ck ends heq
        obtain ⟨rfl, rfl⟩ : CodeType.PRE_IMPORT_CODE = ck ∧ TERMINATES_COMMENT = ends := by
          simpa using heq
        exact term_comment_ok.1
      · have hc' : c ∈ rest := by
          rcases List.mem_cons.mp hc with rfl | hc'
          · rw [hck] at h2; simp at h2
          · exact hc'
        refine partitionLoop_noreorder src c hck hcnr rest startpos _ seen hc' hrest_pair hsp ?_
        intro ck ends heq
        obtain ⟨rfl, rfl⟩ : CodeType.PRE_IMPORT_CODE = ck ∧ TERMINATES_DOCSTRING = ends := by
          simpa using heq
        exact term_docstring_ok.1
      · have hc' : c ∈ rest := by
          rcases List.mem_cons.mp hc with rfl | hc'
          · rw [hck] at h3; simp at h3
          · exact hc'
        refine partitionLoop_noreorder src c hck hcnr rest startpos _ true hc' hrest_pair hsp ?_
        intro ck ends heq
        obtain ⟨rfl, rfl⟩ : CodeType.IMPORT = ck ∧ TERMINATES_IMPORT = ends := by
          simpa using heq
        exact term_import_ok.1
      · have hc' : c ∈ rest := by
          rcases List.mem_cons.mp hc with rfl | hc'
          · rw [hck] at h4; simp at h4
          · exact hc'
        obtain ⟨front, p', hple, heq⟩ := partitionLoop_noreorder src c hck hcnr rest t.endpos
          none seen hc' hrest_pair (hbound hc') (fun ck ends h => by cases h)
        exact ⟨⟨.NON_CODE, pySlice src startpos t.endpos⟩ :: front, p', hple, by
          rw [heq]; simp⟩
      · exact ⟨[], startpos, hsp, by simp⟩
      · have hc' : c ∈ rest := by
          rcases List.mem_cons.mp hc with rfl | hc'
          · exact absurd hcnr (by simpa using h5n)
          · exact hc'
        refine partitionLoop_noreorder src c hck hcnr rest startpos _ seen hc' hrest_pair hsp ?_
        intro ck ends heq
        obtain ⟨rfl, rfl⟩ : CodeType.CODE = ck ∧ TERMINATES_COMMENT = ends := by
          simpa using heq
        exact term_comment_ok.1
      · have hc' : c ∈ rest := by
          rcases List.mem_cons.mp hc with rfl | hc'
          · rw [hck] at h6; simp at h6
          · exact hc'
        exact partitionLoop_noreorder src c hck hcnr rest startpos none seen hc' hrest_pair
          hsp (fun ck ends h => by cases h)
      · exact ⟨[], startpos, hsp, by simp⟩
    | some (ck, ends) =>
      rw [partitionLoop]
      split_ifs with h1 h2
      · have hkt : t.kind = .NL ∨ t.kind = .NEWLINE ∨ t.kind = .ENDMARKER :=
          (hP ck ends rfl) t.kind (kindMem_iff.mp h1)
        have hc' : c ∈ rest := by
          rcases List.mem_cons.mp hc with rfl | hc'
          · rcases hkt with h | h | h <;> (rw [hck] at h; cases h)
          · exact hc'
        obtain ⟨front, p', hple, heq⟩ := partitionLoop_noreorder src c hck hcnr rest t.endpos
          none seen hc' hrest_pair (hbound hc') (fun ck' ends' h => by cases h)
        exact ⟨⟨ck, pySlice src startpos t.endpos⟩ :: front, p', hple, by rw [heq]; simp⟩
      · exact ⟨[], startpos, hsp, by simp⟩
      · have hc' : c ∈ rest := by
          rcases List.mem_cons.mp hc with rfl | hc'
          · exact absurd ⟨hck, hcnr⟩ h2
          · exact hc'
        exact partitionLoop_noreorder src c hck hcnr rest startpos (some (ck, ends)) seen hc'
          hrest_pair hsp hP

theorem replacePart_code_type (r : Replacements) (p : CodePartition) :
    (replacePart r p).code_type = p.code_type ∧
      (p.code_type ≠ .IMPORT → replacePart r p = p) := by
  by_cases h : p.code_type = .IMPORT
  · refine ⟨?_, fun hne => absurd h hne⟩
    rw [replacePart]
    simp only [h, if_true]
    repeat' split
    all_goals first | rfl | exact h
  · refine ⟨?_, fun _ => ?_⟩ <;> rw [replacePart] <;> simp [h]

theorem filterCode_flatMap (f : CodePartition → List CodePartition)
    (parts : List CodePartition)
    (hf : ∀ p, (f p).filter (fun p => p.code_type = CodeType.CODE) =
      [p].filter (fun p => p.code_type = CodeType.CODE)) :
    (parts.flatMap f).filter (fun p => p.code_type = CodeType.CODE) =
      parts.filter (fun p => p.code_type = CodeType.CODE) := by
  induction parts with
  | nil => rfl
  | cons p rest ih =>
    rw [List.flatMap_cons, List.filter_append, ih, hf p]
    rw [show (p :: rest) = [p] ++ rest from rfl, List.filter_append]

theorem filterCode_filter (g : CodePartition → Bool) (parts : List CodePartition)
    (hg : ∀ p, p.code_type = CodeType.CODE → g p = true) :
    (parts.filter g).filter (fun p => p.code_type = CodeType.CODE) =
      parts.filter (fun p => p.code_type = CodeType.CODE) := by
  induction parts with
  | nil => rfl
  | cons p rest ih =>
    rw [List.filter_cons]
    by_cases hgp : g p = true
    · rw [if_pos hgp, List.filter_cons, List.filter_cons, ih]
    · have hcd : ¬ p.code_type = CodeType.CODE := fun hc => hgp (hg p hc)
      rw [if_neg hgp, ih, List.filter_cons, if_neg (by simpa using hcd)]

theorem filterCode_separate (parts : List CodePartition) :
    (separate_comma_imports parts).filter (fun p => p.code_type = CodeType.CODE) =
      parts.filter (fun p => p.code_type = CodeType.CODE) := by
  refine filterCode_flatMap _ parts ?_
  intro p
  by_cases hct : p.code_type = .IMPORT
  · simp only [hct, if_true]
    cases hobj : import_obj_from_str p.src with
    | none => rfl
    | some obj =>
      by_cases hm : objIsMultiple obj
      · simp only [hm, if_true]
        have hz : List.filter ((fun p => decide (p.code_type = CodeType.CODE)) ∘
            fun o => (⟨.IMPORT, objToSrc o⟩ : CodePartition)) (objSplit obj) = [] := by
          apply List.filter_eq_nil_iff.mpr
          intro o _
          simp
        have hl : ((objSplit obj).map
            (fun o => (⟨.IMPORT, objToSrc o⟩ : CodePartition))).filter
              (fun p => p.code_type = CodeType.CODE) = [] := by
          simp only [List.filter_map, hz, List.map_nil]
        rw [hl]
        have : p.code_type ≠ CodeType.CODE := by rw [hct]; simp
        simp [List.filter, this]
      · simp only [hm, Bool.false_eq_true, if_false]
  · simp only [hct, if_false]

theorem filterCode_remove (parts : List CodePartition) (to_remove : List ImpKey) :
    (remove_imports parts to_remove).filter (fun p => p.code_type = CodeType.CODE) =
      parts.filter (fun p => p.code_type = CodeType.CODE) := by
  refine filterCode_filter _ parts ?_
  intro p hp
  have : p.code_type ≠ CodeType.IMPORT := by rw [hp]; simp
  simp [this]

theorem filterCode_replace (parts : List CodePartition) (r : Replacements) :
    (replace_imports parts r).filter (fun p => p.code_type = CodeType.CODE) =
      parts.filter (fun p => p.code_type = CodeType.CODE) := by
  rw [replace_imports]
  induction parts with
  | nil => rfl
  | cons p rest ih =>
    rw [List.map_cons, List.filter_cons, List.filter_cons, ih]
    obtain ⟨hty, hunch⟩ := replacePart_code_type r p
    rw [hty]
    by_cases hcd : p.code_type = CodeType.CODE
    · have : p.code_type ≠ CodeType.IMPORT := by rw [hcd]; simp
      rw [hunch this]
    · have hd : (decide (p.code_type = CodeType.CODE)) = false := by simpa using hcd
      rw [hd]
      simp

theorem filterCode_rdiPass1 (parts : List CodePartition) :
    ∀ (seen : List ImportObj) (smn : List (List Char)),
      ((rdiPass1 seen smn parts).1).filter (fun p => p.code_type = CodeType.CODE) =
        parts.filter (fun p => p.code_type = CodeType.CODE) := by
  induction parts with
  | nil => intro seen smn; rfl
  | cons p rest ih =>
    intro seen smn
    rw [rdiPass1]
    by_cases hct : p.code_type = .IMPORT
    · have hncd : ¬ p.code_type = CodeType.CODE := by rw [hct]; simp
      simp only [hct, if_true]
      cases hobj : import_obj_from_str p.src with
      | none =>
        rw [List.filter_cons]
        simp only [hncd, decide_False, Bool.false_eq_true, if_false]
        rw [ih]
        simp [List.filter_cons, hncd]
      | some obj =>
        by_cases hseen : memB obj seen
        · simp only [hseen, if_true]
          rw [ih]
          simp [List.filter_cons, hncd]
        · simp only [hseen, Bool.false_eq_true, if_false]
          rw [List.filter_cons]
          simp only [hncd, decide_False, Bool.false_eq_true, if_false]
          rw [ih]
          simp [List.filter_cons, hncd]
    · simp only [hct, if_false]
      rw [List.filter_cons, List.filter_cons, ih]

theorem filterCode_rdi (parts : List CodePartition) :
    (remove_duplicated_imports parts).filter (fun p => p.code_type = CodeType.CODE) =
      parts.filter (fun p => p.code_type = CodeType.CODE) := by
  rw [remove_duplicated_imports_eq]
  rw [filterCode_filter _ _ ?_]
  · exact filterCode_rdiPass1 parts [] []
  · intro p hp
    have : p.code_type ≠ CodeType.IMPORT := by rw [hp]; simp
    simp [this]

theorem apply_sorting_suffix (parts : List CodePartition) (settings : Settings)
    (G : List CodePartition) (s : List Char)
    (hfilter : parts.filter (fun p => p.code_type = CodeType.CODE) = G ++ [⟨.CODE, s⟩])
    (hnn : pyRstrip s ≠ []) :
    ∃ u, partitionsToSrc (apply_import_sorting parts settings) =
      u ++ (pyRstrip s ++ ['\n']) := by
  have hrest : pyRstrip (partitionsToSrc (G ++ [⟨.CODE, s⟩])) =
      partitionsToSrc G ++ pyRstrip s := by
    rw [partitionsToSrc_append]
    rw [show partitionsToSrc [(⟨.CODE, s⟩ : CodePartition)] = s by simp [partitionsToSrc]]
    exact pyRstrip_append_of_ne_nil hnn
  have hne2 : (partitionsToSrc G ++ pyRstrip s).isEmpty = false := by
    cases hrs : pyRstrip s with
    | nil => exact absurd hrs hnn
    | cons y ys =>
      cases hG : partitionsToSrc G with
      | nil => simp [hG, hrs]
      | cons z zs => simp [hG]
  have key : ∀ (A B G' : List CodePartition) (y : List Char),
      ∃ u, partitionsToSrc (A ++ B ++ [⟨.CODE, (partitionsToSrc G' ++ y) ++ ['\n']⟩]) =
        u ++ (y ++ ['\n']) := by
    intro A B G' y
    refine ⟨partitionsToSrc A ++ partitionsToSrc B ++ partitionsToSrc G', ?_⟩
    rw [partitionsToSrc_append, partitionsToSrc_append]
    simp [partitionsToSrc, List.append_assoc]
  simp only [apply_import_sorting, hfilter, hrest, hne2, Bool.false_eq_true, if_false]
  exact key _ _ G (pyRstrip s)

theorem c3_noreorder_trailing_freeze
    (contents : List Char) (toks : List Tok) (to_add : List (List Char))
    (to_remove : List ImpKey) (to_replace : Replacements) (settings : Settings)
    (h : Tokenizes (pyReplace ['\r'] ['\n'] (pyReplace ['\r', '\n'] ['\n'] contents)) toks)
    (c : Tok) (hc : c ∈ toks) (hck : c.kind = .COMMENT)
    (hcnr : hasSeq "noreorder".data c.text = true) :
    ∃ u p, p ≤ c.startpos ∧
      fix_file_contents contents toks to_add to_remove to_replace settings =
        u ++ pyReplace ['\n'] (mostCommonLineEnding contents)
          (pyRstrip ((pyReplace ['\r'] ['\n'] (pyReplace ['\r', '\n'] ['\n'] contents)).drop p)
            ++ ['\n']) := by
  set src' := pyReplace ['\r'] ['\n'] (pyReplace ['\r', '\n'] ['\n'] contents) with hsrcdef
  have h' := h
  obtain ⟨h1, h2, h3, h4, h5, h6, h7, h8, h9, h10, h11, h12⟩ := h'
  have htext : c.text = pySlice src' c.startpos c.endpos := h8 c hc (Or.inl hck)
  have hhash_text : '#' ∈ c.text := by
    have ht := h9 c hc hck
    cases hte : c.text with
    | nil => rw [hte] at ht; cases ht
    | cons a l =>
      rw [hte] at ht
      simp only [List.take_succ_cons, List.take_zero] at ht
      have ha : a = '#' := by
        have := List.head_eq_of_cons_eq ht
        exact this
      rw [ha]
      exact List.mem_cons_self _ _
  have hhash_dropc : '#' ∈ src'.drop c.startpos := by
    rw [htext] at hhash_text
    exact List.mem_of_mem_take hhash_text
  obtain ⟨front0, p', hple, hloop⟩ := partitionLoop_noreorder src' c hck hcnr toks 0 none
    false hc h11 (Nat.zero_le _) (fun ck ends hpe => by cases hpe)
  have hhash_drop : '#' ∈ src'.drop p' := by
    have hdd : src'.drop c.startpos = (src'.drop p').drop (c.startpos - p') := by
      rw [List.drop_drop]
      congr 1
      omega
    rw [hdd] at hhash_dropc
    exact List.mem_of_mem_drop hhash_dropc
  have hdropne : (src'.drop p').isEmpty = false := by
    cases hdp : src'.drop p' with
    | nil => rw [hdp] at hhash_drop; cases hhash_drop
    | cons a l => rfl
  have hpart : partition_source src' toks =
      (front0.filter (fun chunk => !chunk.src.isEmpty)) ++ [⟨.CODE, src'.drop p'⟩] := by
    rw [partition_source, hloop, List.filter_append]
    congr 1
    simp [List.filter, hdropne]
  obtain ⟨F2, w, hcomb⟩ := combine_last_code
    (front0.filter (fun chunk => !chunk.src.isEmpty)) (src'.drop p')
  have hjoin : partitionsToSrc (F2 ++ [⟨.CODE, w ++ src'.drop p'⟩]) = src' := by
    rw [← hcomb, combine_join, ← hpart]
    exact partition_source_roundtrip_core src' toks h
  have hhash_src : '#' ∈ src' := List.mem_of_mem_drop hhash_drop
  have hstrip : pyStrip (partitionsToSrc (F2 ++ [⟨.CODE, w ++ src'.drop p'⟩])) ≠ [] := by
    rw [hjoin]
    exact pyStrip_ne_nil hhash_src rfl
  obtain ⟨trail, htr01, htrws, hadd⟩ := add_imports_shape F2 (w ++ src'.drop p') .CODE
    to_add hstrip
  have hmap0 : (to_add.map (fun a => (⟨.IMPORT, pyStrip a ++ ['\n']⟩ : CodePartition))).filter
      (fun p => p.code_type = CodeType.CODE) = [] := by
    apply List.filter_eq_nil_iff.mpr
    intro o ho
    obtain ⟨a, _, rfl⟩ := List.mem_map.mp ho
    simp
  have hfc3 : (F2 ++ [(⟨.CODE, (w ++ src'.drop p') ++ trail⟩ : CodePartition)] ++
      to_add.map (fun a => (⟨.IMPORT, pyStrip a ++ ['\n']⟩ : CodePartition))).filter
        (fun p => p.code_type = CodeType.CODE) =
      (F2.filter (fun p => p.code_type = CodeType.CODE)) ++
        [(⟨.CODE, (w ++ src'.drop p') ++ trail⟩ : CodePartition)] := by
    rw [List.filter_append, List.filter_append, hmap0]
    simp [List.filter]
  have hrs_drop_ne : pyRstrip (src'.drop p') ≠ [] := pyRstrip_ne_nil hhash_drop rfl
  have hrs_ne : pyRstrip ((w ++ src'.drop p') ++ trail) ≠ [] := by
    rw [pyRstrip_append_ws htrws, pyRstrip_append_of_ne_nil hrs_drop_ne]
    intro hcon
    exact hrs_drop_ne (List.append_eq_nil.mp hcon).2
  have hfc7 : (remove_duplicated_imports (replace_imports (remove_imports
      (separate_comma_imports (F2 ++ [(⟨.CODE, (w ++ src'.drop p') ++ trail⟩ : CodePartition)] ++
        to_add.map (fun a => (⟨.IMPORT, pyStrip a ++ ['\n']⟩ : CodePartition)))) to_remove)
          to_replace)).filter (fun p => p.code_type = CodeType.CODE) =
      (F2.filter (fun p => p.code_type = CodeType.CODE)) ++
        [(⟨.CODE, (w ++ src'.drop p') ++ trail⟩ : CodePartition)] := by
    rw [filterCode_rdi, filterCode_replace, filterCode_remove, filterCode_separate, hfc3]
  obtain ⟨u0, hu0⟩ := apply_sorting_suffix _ settings _ _ hfc7 hrs_ne
  have hrw : pyRstrip ((w ++ src'.drop p') ++ trail) = w ++ pyRstrip (src'.drop p') := by
    rw [pyRstrip_append_ws htrws, pyRstrip_append_of_ne_nil hrs_drop_ne]
  rw [hrw] at hu0
  refine ⟨pyReplace ['\n'] (mostCommonLineEnding contents) (u0 ++ w), p', hple, ?_⟩
  show pyReplace ['\n'] (mostCommonLineEnding contents)
      (partitionsToSrc (apply_import_sorting (remove_duplicated_imports (replace_imports
        (remove_imports (separate_comma_imports (add_imports (combine_trailing_code_chunks
          (partition_source src' toks)) to_add)) to_remove) to_replace)) settings)) = _
  rw [hpart, hcomb, hadd, hu0]
  simp [pyReplace_single_append, List.append_assoc]

theorem pyReplace_of_not_hasSeq (pat r : List Char) :
    ∀ s : List Char, hasSeq pat s = false → pyReplace pat r s = s := by
  intro s
  induction s with
  | nil => intro _; exact pyReplace_nil pat r
  | cons c rest ih =>
    intro h
    cases pat with
    | nil => simp [pyReplace]
    | cons p ps =>
      rw [hasSeq, Bool.or_eq_false_iff] at h
      rw [pyReplace, h.1]
      simp [ih h.2]

theorem pyReplace_self (c : Char) (s : List Char) : pyReplace [c] [c] s = s := by
  induction s with
  | nil => exact pyReplace_nil _ _
  | cons a rest ih =>
    rw [pyReplace]
    by_cases hac : c = a
    · subst hac
      simp [List.isPrefixOf, ih]
    · have hpre : ([c].isPrefixOf (a :: rest)) = false := by
        simp [List.isPrefixOf, hac]
      rw [hpre]
      simp [ih]

/-- C3 counterexample: on the input `"# noreorder\nx = 1\n\n"` — whose very first
token is a `noreorder` comment, so the whole file is frozen CODE — the pipeline
still rstrips the trailing blank line and re-terminates with a single newline,
producing `"# noreorder\nx = 1\n"`.  The suffix of the input starting at the
comment (here the entire input) therefore does not reappear byte-identically in
the output. -/
theorem c3_counterexample :
    fix_file_contents "# noreorder\nx = 1\n\n".data toksC3 [] [] ⟨[], []⟩ ⟨fun _ => 0⟩ =
      "# noreorder\nx = 1\n".data ∧
    hasSeq "# noreorder\nx = 1\n\n".data
      (fix_file_contents "# noreorder\nx = 1\n\n".data toksC3 [] [] ⟨[], []⟩ ⟨fun _ => 0⟩)
      = false := by
  have hnorm : pyReplace ['\r'] ['\n']
      (pyReplace ['\r', '\n'] ['\n'] "# noreorder\nx = 1\n\n".data) =
      "# noreorder\nx = 1\n\n".data := by
    rw [pyReplace_of_not_hasSeq ['\r', '\n'] ['\n'] _ (by decide)]
    rw [pyReplace_of_not_hasSeq ['\r'] ['\n'] _ (by decide)]
  have hmc : mostCommonLineEnding "# noreorder\nx = 1\n\n".data = ['\n'] := by decide
  have h1 : fix_file_contents "# noreorder\nx = 1\n\n".data toksC3 [] [] ⟨[], []⟩ ⟨fun _ => 0⟩ =
      "# noreorder\nx = 1\n".data := by
    simp only [fix_file_contents]
    rw [hnorm, hmc, pyReplace_self]
    decide
  refine ⟨h1, ?_⟩
  rw [h1]
  decide

/-- Witness for `c3_noreorder_trailing_freeze`: instantiated on the concrete
input `"# noreorder\nx = 1\n\n"` with its real token stream `toksC3` and the
comment token at offset 0. -/
theorem c3_witness :
    Tokenizes (pyReplace ['\r'] ['\n']
      (pyReplace ['\r', '\n'] ['\n'] "# noreorder\nx = 1\n\n".data)) toksC3 ∧
    (∃ u p, p ≤ (⟨.COMMENT, "# noreorder".data, 0, 0, 11⟩ : Tok).startpos ∧
      fix_file_contents "# noreorder\nx = 1\n\n".data toksC3 [] [] ⟨[], []⟩ ⟨fun _ => 0⟩ =
        u ++ pyReplace ['\n'] (mostCommonLineEnding "# noreorder\nx = 1\n\n".data)
          (pyRstrip ((pyReplace ['\r'] ['\n']
              (pyReplace ['\r', '\n'] ['\n'] "# noreorder\nx = 1\n\n".data)).drop p)
            ++ ['\n'])) :=
  by
  have hnorm : pyReplace ['\r'] ['\n']
      (pyReplace ['\r', '\n'] ['\n'] "# noreorder\nx = 1\n\n".data) =
      "# noreorder\nx = 1\n\n".data := by
    rw [pyReplace_of_not_hasSeq ['\r', '\n'] ['\n'] _ (by decide)]
    rw [pyReplace_of_not_hasSeq ['\r'] ['\n'] _ (by decide)]
  refine ⟨by rw [hnorm]; decide, ?_⟩
  exact c3_noreorder_trailing_freeze "# noreorder\nx = 1\n\n".data toksC3 [] [] ⟨[], []⟩
    ⟨fun _ => 0⟩ (by rw [hnorm]; decide) ⟨.COMMENT, "# noreorder".data, 0, 0, 11⟩ (by decide)
    rfl (by decide)

theorem mem_pySlice {x : Char} {src : List Char} {a b : Nat}
    (hx : x ∈ pySlice src a b) : x ∈ src :=
  List.mem_of_mem_drop (List.mem_of_mem_take hx)

theorem mem_pyRstrip {x : Char} {s : List Char} (hx : x ∈ pyRstrip s) : x ∈ s := by
  rw [pyRstrip, List.mem_reverse] at hx
  exact List.mem_reverse.mp ((List.dropWhile_sublist pySpace).mem hx)

theorem mem_pyStrip {x : Char} {s : List Char} (hx : x ∈ pyStrip s) : x ∈ s := by
  rw [pyStrip] at hx
  have h1 := mem_pyRstrip hx
  rw [pyLstrip] at h1
  exact (List.dropWhile_sublist pySpace).mem h1

theorem mem_pyReplace {c : Char} {r : List Char} {x : Char} :
    ∀ {s : List Char}, x ∈ pyReplace [c] r s → x ∈ r ∨ (x ∈ s ∧ x ≠ c) := by
  intro s
  induction s with
  | nil => intro hx; rw [pyReplace_nil] at hx; cases hx
  | cons a rest ih =>
    intro hx
    rw [pyReplace] at hx
    by_cases hac : ([c].isPrefixOf (a :: rest)) = true
    · rw [if_pos hac] at hx
      simp only [List.length_nil, List.drop_zero] at hx
      rcases List.mem_append.mp hx with h | h
      · exact Or.inl h
      · rcases ih h with h' | h'
        · exact Or.inl h'
        · exact Or.inr ⟨List.mem_cons_of_mem a h'.1, h'.2⟩
    · rw [if_neg hac] at hx
      have hane : a ≠ c := by
        intro hEq
        subst hEq
        apply hac
        simp [List.isPrefixOf]
      rcases List.mem_cons.mp hx with h | h
      · subst h
        exact Or.inr ⟨List.mem_cons_self _ _, hane⟩
      · rcases ih h with h' | h'
        · exact Or.inl h'
        · exact Or.inr ⟨List.mem_cons_of_mem a h'.1, h'.2⟩

theorem partitionLoop_src_subset (src : List Char) :
    ∀ (toks : List Tok) (sp : Nat) (pend : Option (CodeType × List TokKind)) (seen : Bool),
      ∀ chunk ∈ partitionLoop src sp pend seen toks, ∀ x ∈ chunk.src, x ∈ src := by
  intro toks
  induction toks with
  | nil =>
    intro sp pend seen chunk hck
    cases pend <;> simp [partitionLoop] at hck
  | cons t rest ih =>
    intro sp pend seen chunk hck x hx
    match pend with
    | none =>
      rw [partitionLoop] at hck
      repeat' split at hck
      all_goals
        first
        | (rcases List.mem_cons.mp hck with hEq | hm
           · subst hEq; exact List.mem_of_mem_drop hx
           · cases hm)
        | (rcases List.mem_cons.mp hck with hEq | hm
           · subst hEq; exact mem_pySlice hx
           · exact ih _ _ _ _ hm x hx)
        | exact ih _ _ _ _ hck x hx
    | some pr =>
      match pr with
      | (ck, ends) =>
        rw [partitionLoop] at hck
        repeat' split at hck
        all_goals
          first
          | (rcases List.mem_cons.mp hck with hEq | hm
             · subst hEq; exact List.mem_of_mem_drop hx
             · cases hm)
          | (rcases List.mem_cons.mp hck with hEq | hm
             · subst hEq; exact mem_pySlice hx
             · exact ih _ _ _ _ hm x hx)
          | exact ih _ _ _ _ hck x hx

theorem partition_source_src_subset {src : List Char} {toks : List Tok} :
    ∀ chunk ∈ partition_source src toks, ∀ x ∈ chunk.src, x ∈ src := by
  intro chunk hck x hx
  rw [partition_source] at hck
  exact partitionLoop_src_subset src toks 0 none false chunk (List.mem_of_mem_filter hck) x hx

theorem mem_partitionsToSrc {x : Char} {ps : List CodePartition}
    (hx : x ∈ partitionsToSrc ps) : ∃ p ∈ ps, x ∈ p.src := by
  rw [partitionsToSrc] at hx
  obtain ⟨l, hl, hxl⟩ := List.mem_flatten.mp hx
  obtain ⟨p, hp, rfl⟩ := List.mem_map.mp hl
  exact ⟨p, hp, hxl⟩

theorem validWord_noCR {w : List Char} (h : validWord w = true) : '\r' ∉ w := by
  intro hm
  rw [validWord, Bool.and_eq_true] at h
  exact absurd (List.all_eq_true.mp h.2 _ hm) (by decide)

theorem parseNames_valid :
    ∀ (k : Nat) (ws : List (List Char)), ws.length ≤ k →
      ∀ {names : List ImpName}, parseNames ws = some names →
      ∀ n ∈ names, validWord n.name = true ∧
        ∀ a, n.asname = some a → validWord a = true := by
  intro k
  induction k with
  | zero =>
    intro ws hlen names h
    have hws : ws = [] := List.eq_nil_of_length_eq_zero (Nat.le_zero.mp hlen)
    subst hws
    exact Option.noConfusion h
  | succ k ih =>
    intro ws hlen names h n hn
    cases ws with
    | nil => exact Option.noConfusion h
    | cons w rest =>
      rw [parseNames.eq_def] at h
      dsimp only at h
      by_cases hv : (validWord w = true) ∧ (w ≠ "as".data)
      case neg => rw [if_neg hv] at h; cases h
      case pos =>
      rw [if_pos hv] at h
      cases rest with
      | nil =>
        dsimp only at h
        injection h with h1
        subst h1
        rcases List.mem_singleton.mp hn with rfl
        exact ⟨hv.1, fun a ha => by cases ha⟩
      | cons w2 rest' =>
        dsimp only at h
        by_cases hw2 : w2 = [',']
        · rw [if_pos hw2] at h
          obtain ⟨tail, htail, hcons⟩ := Option.map_eq_some'.mp h
          subst hcons
          rcases List.mem_cons.mp hn with rfl | hmem
          · exact ⟨hv.1, fun a ha => by cases ha⟩
          · refine ih rest' ?_ htail n hmem
            simp only [List.length_cons] at hlen
            omega
        · rw [if_neg hw2] at h
          by_cases hw2as : w2 = "as".data
          · rw [if_pos hw2as] at h
            cases rest' with
            | nil => exact Option.noConfusion h
            | cons al rest'' =>
              dsimp only at h
              by_cases hval : (validWord al = true) ∧ (al ≠ "as".data)
              case neg => rw [if_neg hval] at h; cases h
              case pos =>
              rw [if_pos hval] at h
              cases rest'' with
              | nil =>
                dsimp only at h
                injection h with h1
                subst h1
                rcases List.mem_singleton.mp hn with rfl
                refine ⟨hv.1, fun a ha => ?_⟩
                injection ha with h2
                subst h2
                exact hval.1
              | cons w3 rest3 =>
                dsimp only at h
                by_cases hw3 : w3 = [',']
                · rw [if_pos hw3] at h
                  obtain ⟨tail, htail, hcons⟩ := Option.map_eq_some'.mp h
                  subst hcons
                  rcases List.mem_cons.mp hn with rfl | hmem
                  · refine ⟨hv.1, fun a ha => ?_⟩
                    injection ha with h2
                    subst h2
                    exact hval.1
                  · refine ih rest3 ?_ htail n hmem
                    simp only [List.length_cons] at hlen
                    omega
                · rw [if_neg hw3] at h; cases h
          · rw [if_neg hw2as] at h; cases h

theorem import_obj_valid {s : List Char} {obj : ImportObj}
    (h : import_obj_from_str s = some obj) :
    ∀ w ∈ objWords obj, validWord w = true := by
  rw [import_obj_from_str] at h
  generalize lexWords [] (s.takeWhile (fun c => c ≠ '#')) = ws at h
  cases ws with
  | nil => exact Option.noConfusion h
  | cons w rest =>
    dsimp only at h
    by_cases hwi : w = "import".data
    · rw [if_pos hwi] at h
      obtain ⟨names, hnames, hobj⟩ := Option.map_eq_some'.mp h
      subst hobj
      intro u hu
      rw [objWords] at hu
      obtain ⟨n, hnmem, hun⟩ := List.mem_flatMap.mp hu
      have hval := parseNames_valid rest.length rest (le_refl _) hnames n hnmem
      rcases List.mem_cons.mp hun with rfl | hu2
      · exact hval.1
      · cases hasn : n.asname with
        | none => rw [hasn] at hu2; cases hu2
        | some a =>
          rw [hasn] at hu2
          rw [List.mem_singleton.mp hu2]
          exact hval.2 a hasn
    · rw [if_neg hwi] at h
      by_cases hwf : w = "from".data
      · rw [if_pos hwf] at h
        cases rest with
        | nil => exact Option.noConfusion h
        | cons m rest2 =>
          cases rest2 with
          | nil => exact Option.noConfusion h
          | cons w2 rest' =>
            dsimp only at h
            by_cases hc : (validWord m = true) ∧ (w2 = "import".data)
            · rw [if_pos hc] at h
              obtain ⟨names, hnames, hobj⟩ := Option.map_eq_some'.mp h
              subst hobj
              intro u hu
              rw [objWords] at hu
              rcases List.mem_cons.mp hu with rfl | hu2
              · exact hc.1
              · obtain ⟨n, hnmem, hun⟩ := List.mem_flatMap.mp hu2
                have hval := parseNames_valid rest'.length rest' (le_refl _) hnames n hnmem
                rcases List.mem_cons.mp hun with rfl | hu3
                · exact hval.1
                · cases hasn : n.asname with
                  | none => rw [hasn] at hu3; cases hu3
                  | some a =>
                    rw [hasn] at hu3
                    rw [List.mem_singleton.mp hu3]
                    exact hval.2 a hasn
            · rw [if_neg hc] at h
              exact Option.noConfusion h
      · rw [if_neg hwf] at h
        exact Option.noConfusion h

theorem mem_intercalate_sep {x : Char} {sep : List Char} :
    ∀ {l : List (List Char)}, x ∈ List.intercalate sep l → x ∈ sep ∨ ∃ w ∈ l, x ∈ w := by
  intro l
  induction l with
  | nil => intro hx; simp [List.intercalate] at hx
  | cons w l' ih =>
    cases l' with
    | nil =>
      intro hx
      simp only [List.intercalate, List.intersperse, List.flatten] at hx
      simp at hx
      exact Or.inr ⟨w, List.mem_singleton_self w, hx⟩
    | cons v l'' =>
      intro hx
      have hstep : List.intercalate sep (w :: v :: l'') =
          w ++ sep ++ List.intercalate sep (v :: l'') := by
        simp [List.intercalate, List.intersperse]
      rw [hstep] at hx
      rcases List.mem_append.mp hx with h1 | h1
      · rcases List.mem_append.mp h1 with h2 | h2
        · exact Or.inr ⟨w, List.mem_cons_self _ _, h2⟩
        · exact Or.inl h2
      · rcases ih h1 with h2 | h2
        · exact Or.inl h2
        · obtain ⟨u, hu, hxu⟩ := h2
          exact Or.inr ⟨u, List.mem_cons_of_mem w hu, hxu⟩

theorem mem_nameToSrc {x : Char} {n : ImpName} (hx : x ∈ nameToSrc n) :
    x ∈ n.name ∨ x ∈ " as ".data ∨ ∃ a, n.asname = some a ∧ x ∈ a := by
  rw [nameToSrc] at hx
  rcases List.mem_append.mp hx with h | h
  · exact Or.inl h
  · cases hasn : n.asname with
    | none => rw [hasn] at h; cases h
    | some a =>
      rw [hasn] at h
      rcases List.mem_append.mp h with h2 | h2
      · exact Or.inr (Or.inl h2)
      · exact Or.inr (Or.inr ⟨a, rfl, h2⟩)

theorem objToSrc_noCR {obj : ImportObj}
    (h : ∀ w ∈ objWords obj, '\r' ∉ w) : '\r' ∉ objToSrc obj := by
  intro hx
  have hn_word : ∀ names : List ImpName,
      '\r' ∈ List.intercalate ", ".data (names.map nameToSrc) →
      (∀ n ∈ names, n.name ∈ objWords obj ∧
        ∀ a, n.asname = some a → a ∈ objWords obj) → False := by
    intro names hmem hws
    rcases mem_intercalate_sep hmem with h5 | h5
    · revert h5; decide
    · obtain ⟨w, hw, hxw⟩ := h5
      obtain ⟨n, hn, rfl⟩ := List.mem_map.mp hw
      rcases mem_nameToSrc hxw with h4 | h4 | h4
      · exact h n.name (hws n hn).1 h4
      · revert h4; decide
      · obtain ⟨a, ha, h4⟩ := h4
        exact h a ((hws n hn).2 a ha) h4
  cases obj with
  | imp names =>
    rw [objToSrc] at hx
    rcases List.mem_append.mp hx with h1 | h1
    swap
    · revert h1; decide
    rcases List.mem_append.mp h1 with h2 | h2
    · revert h2; decide
    · refine hn_word names h2 ?_
      intro n hn
      constructor
      · rw [objWords]
        exact List.mem_flatMap.mpr ⟨n, hn, List.mem_cons_self _ _⟩
      · intro a ha
        rw [objWords]
        refine List.mem_flatMap.mpr ⟨n, hn, List.mem_cons_of_mem _ ?_⟩
        rw [ha]
        exact List.mem_singleton_self a
  | frm mod names =>
    rw [objToSrc] at hx
    rcases List.mem_append.mp hx with h1 | h1
    swap
    · revert h1; decide
    rcases List.mem_append.mp h1 with h2 | h2
    swap
    · refine hn_word names h2 ?_
      intro n hn
      constructor
      · rw [objWords]
        exact List.mem_cons_of_mem _
          (List.mem_flatMap.mpr ⟨n, hn, List.mem_cons_self _ _⟩)
      · intro a ha
        rw [objWords]
        refine List.mem_cons_of_mem _
          (List.mem_flatMap.mpr ⟨n, hn, List.mem_cons_of_mem _ ?_⟩)
        rw [ha]
        exact List.mem_singleton_self a
    rcases List.mem_append.mp h2 with h3 | h3
    swap
    · revert h3; decide
    rcases List.mem_append.mp h3 with h4 | h4
    · revert h4; decide
    · refine h mod ?_ h4
      rw [objWords]
      exact List.mem_cons_self _ _

theorem alookup_mem {α β : Type} [DecidableEq α] {k : α} {v : β} :
    ∀ {l : List (α × β)}, alookup k l = some v → (k, v) ∈ l := by
  intro l
  induction l with
  | nil => intro h; cases h
  | cons kv rest ih =>
    intro h
    match kv with
    | (k', v') =>
      rw [alookup] at h
      by_cases hk : k = k'
      · rw [if_pos hk] at h
        injection h with h1
        subst hk
        subst h1
        exact List.mem_cons_self _ _
      · rw [if_neg hk] at h
        exact List.mem_cons_of_mem _ (ih h)

theorem mem_aupsert {α β : Type} [DecidableEq α] {k : α} {v : β} {kv : α × β} :
    ∀ {l : List (α × β)}, kv ∈ aupsert k v l → kv = (k, v) ∨ kv ∈ l := by
  intro l
  induction l with
  | nil =>
    intro h
    exact Or.inl (List.mem_singleton.mp h)
  | cons kv' rest ih =>
    intro h
    match kv' with
    | (k', v') =>
      rw [aupsert] at h
      by_cases hk : k = k'
      · rw [if_pos hk] at h
        subst hk
        rcases List.mem_cons.mp h with rfl | hm
        · exact Or.inl rfl
        · exact Or.inr (List.mem_cons_of_mem _ hm)
      · rw [if_neg hk] at h
        rcases List.mem_cons.mp h with rfl | hm
        · exact Or.inr (List.mem_cons_self _ _)
        · rcases ih hm with h1 | h1
          · exact Or.inl h1
          · exact Or.inr (List.mem_cons_of_mem _ h1)

theorem mem_rpartitionDot1 {s : List Char} {x : Char}
    (hx : x ∈ (rpartitionDot s).1) : x ∈ s := by
  rw [rpartitionDot] at hx
  cases hidx : s.reverse.findIdx? (fun c => c = '.') with
  | none => rw [hidx] at hx; exact absurd hx (List.not_mem_nil x)
  | some i => rw [hidx] at hx; exact List.mem_of_mem_take hx

theorem mem_rpartitionDot22 {s : List Char} {x : Char}
    (hx : x ∈ (rpartitionDot s).2.2) : x ∈ s := by
  rw [rpartitionDot] at hx
  cases hidx : s.reverse.findIdx? (fun c => c = '.') with
  | none => rw [hidx] at hx; exact hx
  | some i => rw [hidx] at hx; exact List.mem_of_mem_drop hx

theorem partition_source_noCR {src : List Char} {toks : List Tok} (hsrc : '\r' ∉ src) :
    ∀ p ∈ partition_source src toks, '\r' ∉ p.src :=
  fun p hp hx => hsrc (partition_source_src_subset p hp '\r' hx)

theorem partitionsToSrc_noCR {ps : List CodePartition} (hps : ∀ p ∈ ps, '\r' ∉ p.src) :
    '\r' ∉ partitionsToSrc ps := by
  intro hx
  obtain ⟨p, hp, hxp⟩ := mem_partitionsToSrc hx
  exact hps p hp hxp

theorem combine_noCR {ps : List CodePartition} (hps : ∀ p ∈ ps, '\r' ∉ p.src) :
    ∀ p ∈ combine_trailing_code_chunks ps, '\r' ∉ p.src := by
  intro p hp
  simp only [combine_trailing_code_chunks] at hp
  split at hp
  · exact hps p hp
  · rcases List.mem_append.mp hp with h | h
    · refine hps p ?_
      have h1 := List.mem_reverse.mp h
      exact List.mem_reverse.mp ((List.dropWhile_sublist _).mem h1)
    · rcases List.mem_singleton.mp h with rfl
      intro hx
      obtain ⟨q, hq, hxq⟩ := mem_partitionsToSrc hx
      refine hps q ?_ hxq
      have h1 := List.mem_reverse.mp hq
      exact List.mem_reverse.mp ((List.takeWhile_sublist _).mem h1)

theorem add_noCR {ps : List CodePartition} {to_add : List (List Char)}
    (hps : ∀ p ∈ ps, '\r' ∉ p.src) (hadd : ∀ a ∈ to_add, '\r' ∉ a) :
    ∀ p ∈ add_imports ps to_add, '\r' ∉ p.src := by
  intro p hp
  simp only [add_imports] at hp
  split at hp
  · exact hps p hp
  · rcases List.mem_append.mp hp with h | h
    · split at h
      · exact hps p h
      · rcases List.mem_append.mp h with h1 | h1
        · exact hps p (List.mem_of_mem_dropLast h1)
        · rcases List.mem_singleton.mp h1 with rfl
          intro hx
          rcases List.mem_append.mp hx with h2 | h2
          · cases hps0 : ps with
            | nil =>
              rw [hps0] at h2
              exact absurd h2 (List.not_mem_nil _)
            | cons q qs =>
              subst hps0
              refine hps _ ?_ h2
              rw [List.getLastD_cons]
              exact List.getLastD_mem_cons qs q
          · revert h2; decide
    · obtain ⟨a, ha, rfl⟩ := List.mem_map.mp h
      intro hx
      rcases List.mem_append.mp hx with h2 | h2
      · exact hadd a ha (mem_pyStrip h2)
      · revert h2; decide

theorem objSplit_words {obj o : ImportObj} (ho : o ∈ objSplit obj) :
    ∀ w ∈ objWords o, w ∈ objWords obj := by
  cases obj with
  | imp names =>
    rw [objSplit] at ho
    obtain ⟨n, hn, rfl⟩ := List.mem_map.mp ho
    intro w hw
    rw [objWords] at hw ⊢
    obtain ⟨n', hn', hw'⟩ := List.mem_flatMap.mp hw
    rcases List.mem_singleton.mp hn' with rfl
    exact List.mem_flatMap.mpr ⟨n', hn, hw'⟩
  | frm mod names =>
    rw [objSplit] at ho
    obtain ⟨n, hn, rfl⟩ := List.mem_map.mp ho
    intro w hw
    rw [objWords] at hw ⊢
    rcases List.mem_cons.mp hw with rfl | hw2
    · exact List.mem_cons_self _ _
    · obtain ⟨n', hn', hw'⟩ := List.mem_flatMap.mp hw2
      rcases List.mem_singleton.mp hn' with rfl
      exact List.mem_cons_of_mem _ (List.mem_flatMap.mpr ⟨n', hn, hw'⟩)

theorem separate_noCR {ps : List CodePartition} (hps : ∀ p ∈ ps, '\r' ∉ p.src) :
    ∀ p ∈ separate_comma_imports ps, '\r' ∉ p.src := by
  intro p hp
  rw [separate_comma_imports] at hp
  obtain ⟨q, hq, hpq⟩ := List.mem_flatMap.mp hp
  by_cases hct : q.code_type = CodeType.IMPORT
  · rw [if_pos hct] at hpq
    cases hobj : import_obj_from_str q.src with
    | none =>
      rw [hobj] at hpq
      rcases List.mem_singleton.mp hpq with rfl
      exact hps p hq
    | some obj =>
      rw [hobj] at hpq
      dsimp only at hpq
      by_cases hm : objIsMultiple obj = true
      · rw [if_pos hm] at hpq
        obtain ⟨o, ho, rfl⟩ := List.mem_map.mp hpq
        refine objToSrc_noCR ?_
        intro w hw
        exact validWord_noCR (import_obj_valid hobj w (objSplit_words ho w hw))
      · rw [if_neg hm] at hpq
        rcases List.mem_singleton.mp hpq with rfl
        exact hps p hq
  · rw [if_neg hct] at hpq
    rcases List.mem_singleton.mp hpq with rfl
    exact hps p hq

theorem remove_noCR {ps : List CodePartition} {to_remove : List ImpKey}
    (hps : ∀ p ∈ ps, '\r' ∉ p.src) :
    ∀ p ∈ remove_imports ps to_remove, '\r' ∉ p.src :=
  fun p hp => hps p (List.mem_of_mem_filter hp)

theorem objToSrc_frm_noCR {mod' : List Char} {names : List ImpName}
    (h1 : '\r' ∉ mod')
    (h2 : ∀ w ∈ names.flatMap (fun n => n.name ::
        (match n.asname with | none => [] | some a => [a])), '\r' ∉ w) :
    '\r' ∉ objToSrc (ImportObj.frm mod' names) := by
  refine objToSrc_noCR ?_
  intro w hw
  rw [objWords] at hw
  rcases List.mem_cons.mp hw with rfl | hw2
  · exact h1
  · exact h2 w hw2

theorem replacePart_noCR {to_replace : Replacements} {p : CodePartition}
    (hp : '\r' ∉ p.src)
    (hex : ∀ kv ∈ to_replace.exact, '\r' ∉ kv.2)
    (hmods : ∀ kv ∈ to_replace.mods, '\r' ∉ kv.2) :
    '\r' ∉ (replacePart to_replace p).src := by
  rw [replacePart]
  by_cases hct : p.code_type = CodeType.IMPORT
  case neg => rw [if_neg hct]; exact hp
  case pos =>
  rw [if_pos hct]
  cases hobj : import_obj_from_str p.src with
  | none => exact hp
  | some obj =>
    cases obj with
    | imp names => exact hp
    | frm mod names =>
      have hwords := import_obj_valid hobj
      have hmod : '\r' ∉ mod := by
        refine validWord_noCR (hwords mod ?_)
        rw [objWords]
        exact List.mem_cons_self _ _
      have hnamesF : ∀ w ∈ names.flatMap (fun n => n.name ::
          (match n.asname with | none => [] | some a => [a])), '\r' ∉ w := by
        intro w hw
        refine validWord_noCR (hwords w ?_)
        rw [objWords]
        exact List.mem_cons_of_mem _ hw
      have hasn_noCR : ∀ a, (names.headD ⟨[], none⟩).asname = some a → '\r' ∉ a := by
        intro a ha
        cases names with
        | nil => cases ha
        | cons n0 ns =>
          have ha' : n0.asname = some a := ha
          refine hnamesF a ?_
          refine List.mem_flatMap.mpr ⟨n0, List.mem_cons_self _ _, ?_⟩
          rw [ha']
          exact List.mem_cons_of_mem _ (List.mem_singleton_self a)
      dsimp only
      cases hex1 : alookup (mod, (names.headD ⟨[], none⟩).name) to_replace.exact with
      | some m2 =>
        dsimp only
        refine objToSrc_frm_noCR ?_ hnamesF
        exact hex _ (alookup_mem hex1)
      | none =>
        dsimp only
        cases hms : alookup (mod ++ ['.'] ++ (names.headD ⟨[], none⟩).name)
            to_replace.mods with
        | some new0 =>
          dsimp only
          have hnew0 : '\r' ∉ new0 := hmods _ (alookup_mem hms)
          have hsingle : ∀ w ∈ [(⟨(rpartitionDot new0).2.2,
              (names.headD ⟨[], none⟩).asname⟩ : ImpName)].flatMap (fun n => n.name ::
                (match n.asname with | none => [] | some a => [a])), '\r' ∉ w := by
            intro w hw
            obtain ⟨n, hn, hwn⟩ := List.mem_flatMap.mp hw
            rcases List.mem_singleton.mp hn with rfl
            rcases List.mem_cons.mp hwn with rfl | hw3
            · intro hx
              exact hnew0 (mem_rpartitionDot22 hx)
            · cases hasn2 : (names.headD ⟨[], none⟩).asname with
              | none => rw [hasn2] at hw3; exact absurd hw3 (List.not_mem_nil _)
              | some a =>
                rw [hasn2] at hw3
                rw [List.mem_singleton.mp hw3]
                exact hasn_noCR a hasn2
          split
          · split
            · refine objToSrc_frm_noCR ?_ hsingle
              intro hx
              exact hnew0 (mem_rpartitionDot1 hx)
            · split
              · show '\r' ∉ objToSrc (ImportObj.imp [⟨(rpartitionDot new0).2.2,
                    (names.headD ⟨[], none⟩).asname⟩])
                refine objToSrc_noCR ?_
                intro w hw
                rw [objWords] at hw
                exact hsingle w hw
              · exact hp
          · cases hfb : alookup mod to_replace.mods with
            | some m2 =>
              dsimp only
              exact objToSrc_frm_noCR (hmods _ (alookup_mem hfb)) hnamesF
            | none =>
              dsimp only
              cases hfs : (moduleToBaseModules mod).findSome?
                  (fun mn => (alookup mn to_replace.mods).map (fun v => (mn, v))) with
              | some hit =>
                dsimp only
                obtain ⟨mn, hmn, hmn2⟩ := List.exists_of_findSome?_eq_some hfs
                obtain ⟨v, hv, hveq⟩ := Option.map_eq_some'.mp hmn2
                refine objToSrc_frm_noCR ?_ hnamesF
                intro hx
                rcases List.mem_append.mp hx with h1 | h1
                · rw [← hveq] at h1
                  exact hmods (mn, v) (alookup_mem hv) h1
                · exact hmod (List.mem_of_mem_drop h1)
              | none => exact hp
        | none =>
          dsimp only
          cases hfb : alookup mod to_replace.mods with
          | some m2 =>
            dsimp only
            exact objToSrc_frm_noCR (hmods _ (alookup_mem hfb)) hnamesF
          | none =>
            dsimp only
            cases hfs : (moduleToBaseModules mod).findSome?
                (fun mn => (alookup mn to_replace.mods).map (fun v => (mn, v))) with
            | some hit =>
              dsimp only
              obtain ⟨mn, hmn, hmn2⟩ := List.exists_of_findSome?_eq_some hfs
              obtain ⟨v, hv, hveq⟩ := Option.map_eq_some'.mp hmn2
              refine objToSrc_frm_noCR ?_ hnamesF
              intro hx
              rcases List.mem_append.mp hx with h1 | h1
              · rw [← hveq] at h1
                exact hmods (mn, v) (alookup_mem hv) h1
              · exact hmod (List.mem_of_mem_drop h1)
            | none => exact hp

theorem replace_noCR {ps : List CodePartition} {to_replace : Replacements}
    (hps : ∀ p ∈ ps, '\r' ∉ p.src)
    (hex : ∀ kv ∈ to_replace.exact, '\r' ∉ kv.2)
    (hmods : ∀ kv ∈ to_replace.mods, '\r' ∉ kv.2) :
    ∀ p ∈ replace_imports ps to_replace, '\r' ∉ p.src := by
  intro p hp
  rw [replace_imports] at hp
  obtain ⟨q, hq, rfl⟩ := List.mem_map.mp hp
  exact replacePart_noCR (hps q hq) hex hmods

theorem rdi_noCR {ps : List CodePartition} (hps : ∀ p ∈ ps, '\r' ∉ p.src) :
    ∀ p ∈ remove_duplicated_imports ps, '\r' ∉ p.src := by
  intro p hp
  simp only [remove_duplicated_imports] at hp
  exact hps p (rdiPass1_mem_of ps [] [] p (List.mem_of_mem_filter hp))

theorem importsAssoc_fold_mem :
    ∀ (imports : List CodePartition) (acc : List (ImportObj × CodePartition))
      (kv : ImportObj × CodePartition),
      kv ∈ imports.foldl
        (fun acc p =>
          match import_obj_from_str p.src with
          | some obj => aupsert obj p acc
          | none => acc) acc →
      kv ∈ acc ∨ kv.2 ∈ imports := by
  intro imports
  induction imports with
  | nil => intro acc kv h; exact Or.inl h
  | cons q rest ih =>
    intro acc kv h
    rw [List.foldl_cons] at h
    rcases ih _ kv h with h1 | h1
    · cases hq : import_obj_from_str q.src with
      | none => rw [hq] at h1; exact Or.inl h1
      | some obj =>
        rw [hq] at h1
        dsimp only at h1
        rcases mem_aupsert h1 with rfl | h2
        · exact Or.inr (List.mem_cons_self _ _)
        · exact Or.inl h2
    · exact Or.inr (List.mem_cons_of_mem _ h1)

theorem importsAssoc_mem {imports : List CodePartition} {kv : ImportObj × CodePartition}
    (h : kv ∈ importsAssoc imports) : kv.2 ∈ imports := by
  rw [importsAssoc] at h
  rcases importsAssoc_fold_mem imports [] kv h with h1 | h1
  · exact absurd h1 (List.not_mem_nil kv)
  · exact h1

theorem sorting_noCR {ps : List CodePartition} {settings : Settings}
    (hps : ∀ p ∈ ps, '\r' ∉ p.src) :
    ∀ p ∈ apply_import_sorting ps settings, '\r' ∉ p.src := by
  intro p hp
  simp only [apply_import_sorting] at hp
  rcases List.mem_append.mp hp with h | h
  · rcases List.mem_append.mp h with h1 | h1
    · exact hps p (List.mem_of_mem_filter h1)
    · have h2 := List.mem_of_mem_dropLast h1
      obtain ⟨block, hblock, h3⟩ := List.mem_flatMap.mp h2
      rcases List.mem_append.mp h3 with h4 | h4
      · obtain ⟨obj, hobjmem, halk⟩ := List.mem_filterMap.mp h4
        have hmem := importsAssoc_mem (alookup_mem halk)
        obtain ⟨q, hq, hpq⟩ := List.mem_map.mp hmem
        by_cases hend : endsWith ['\n'] q.src = true
        · rw [if_pos hend] at hpq
          subst hpq
          exact hps q (List.mem_of_mem_filter hq)
        · rw [if_neg hend] at hpq
          subst hpq
          intro hx
          rcases List.mem_append.mp hx with h5 | h5
          · exact hps q (List.mem_of_mem_filter hq) h5
          · revert h5; decide
      · rcases List.mem_singleton.mp h4 with rfl
        intro hx
        revert hx
        decide
  · split at h
    · exact absurd h (List.not_mem_nil p)
    · rcases List.mem_singleton.mp h with rfl
      intro hx
      rcases List.mem_append.mp hx with h1 | h1
      · obtain ⟨q, hq, hxq⟩ := mem_partitionsToSrc (mem_pyRstrip h1)
        exact hps q (List.mem_of_mem_filter hq) hxq
      · revert h1; decide

theorem lineEnds_cons_of_ne {c : Char} (h1 : c ≠ '\r') (h2 : c ≠ '\n')
    (X : List Char) : lineEnds (c :: X) = lineEnds X := by
  cases X with
  | nil => simp [lineEnds, h1, h2]
  | cons d rest => simp [lineEnds, h1, h2]

theorem lineEnds_crlf_append (X : List Char) :
    lineEnds ('\r' :: '\n' :: X) = ['\r', '\n'] :: lineEnds X := by
  simp [lineEnds]

theorem lineEnds_lf_append (X : List Char) :
    lineEnds ('\n' :: X) = ['\n'] :: lineEnds X := by
  cases X with
  | nil => simp [lineEnds]
  | cons d rest => simp [lineEnds]

theorem lineEnds_cr_append {X : List Char} (h : X.take 1 ≠ ['\n']) :
    lineEnds ('\r' :: X) = ['\r'] :: lineEnds X := by
  cases X with
  | nil => simp [lineEnds]
  | cons d rest =>
    have hd : d ≠ '\n' := by
      intro hEq
      subst hEq
      exact h rfl
    simp [lineEnds, hd]

theorem not_mem_pyReplace_pat {c : Char} {r s : List Char} (hc : c ∉ r) :
    c ∉ pyReplace [c] r s := by
  intro hx
  rcases mem_pyReplace hx with h | h
  · exact hc h
  · exact h.2 rfl

theorem take1_ne_of_not_mem {c : Char} {l : List Char} (h : c ∉ l) : l.take 1 ≠ [c] := by
  intro hEq
  have hm : c ∈ l.take 1 := by
    rw [hEq]
    exact List.mem_singleton_self c
  exact h (List.mem_of_mem_take hm)

theorem lineEnds_pyReplace_nl {nl : List Char}
    (hnl : nl = ['\r', '\n'] ∨ nl = ['\r'] ∨ nl = ['\n']) :
    ∀ s : List Char, '\r' ∉ s →
      ∀ e ∈ lineEnds (pyReplace ['\n'] nl s), e = nl := by
  intro s
  induction s with
  | nil =>
    intro hcr e he
    rw [pyReplace_nil] at he
    exact absurd he (List.not_mem_nil e)
  | cons a rest ih =>
    intro hcr e he
    have hcr' : '\r' ∉ rest := fun hm => hcr (List.mem_cons_of_mem _ hm)
    have har : a ≠ '\r' := by
      intro hEq
      subst hEq
      exact hcr (List.mem_cons_self _ _)
    by_cases han : a = '\n'
    · subst han
      rw [pyReplace] at he
      rw [if_pos (by simp [List.isPrefixOf] : (['\n'].isPrefixOf ('\n' :: rest)) = true)] at he
      simp only [List.length_nil, List.drop_zero] at he
      rcases hnl with h | h | h
      · subst h
        rw [List.cons_append, List.cons_append, List.nil_append, lineEnds_crlf_append] at he
        rcases List.mem_cons.mp he with rfl | hm
        · rfl
        · exact ih hcr' e hm
      · subst h
        rw [List.cons_append, List.nil_append,
          lineEnds_cr_append (take1_ne_of_not_mem (not_mem_pyReplace_pat (by decide)))] at he
        rcases List.mem_cons.mp he with rfl | hm
        · rfl
        · exact ih hcr' e hm
      · subst h
        rw [List.cons_append, List.nil_append, lineEnds_lf_append] at he
        rcases List.mem_cons.mp he with rfl | hm
        · rfl
        · exact ih hcr' e hm
    · rw [pyReplace] at he
      have hpre : (['\n'].isPrefixOf (a :: rest)) = false := by
        simp [List.isPrefixOf]
        intro hEq
        exact absurd hEq.symm han
      rw [hpre] at he
      simp only [Bool.false_eq_true, if_false] at he
      rw [lineEnds_cons_of_ne har han] at he
      exact ih hcr' e he

theorem fix_pipeline_noCR (contents : List Char) (toks : List Tok)
    (to_add : List (List Char)) (to_remove : List ImpKey) (to_replace : Replacements)
    (settings : Settings)
    (hadd : ∀ a ∈ to_add, '\r' ∉ a)
    (hex : ∀ kv ∈ to_replace.exact, '\r' ∉ kv.2)
    (hmods : ∀ kv ∈ to_replace.mods, '\r' ∉ kv.2) :
    '\r' ∉ partitionsToSrc (apply_import_sorting (remove_duplicated_imports
      (replace_imports (remove_imports (separate_comma_imports (add_imports
        (combine_trailing_code_chunks (partition_source
          (pyReplace ['\r'] ['\n'] (pyReplace ['\r', '\n'] ['\n'] contents)) toks)) to_add))
            to_remove) to_replace)) settings) := by
  have h0 : '\r' ∉ pyReplace ['\r'] ['\n'] (pyReplace ['\r', '\n'] ['\n'] contents) := by
    intro hx
    rcases mem_pyReplace hx with h | h
    · revert h; decide
    · exact h.2 rfl
  refine partitionsToSrc_noCR ?_
  exact sorting_noCR (rdi_noCR (replace_noCR (remove_noCR (separate_noCR (add_noCR
    (combine_noCR (partition_source_noCR h0)) hadd))) hex hmods))

theorem isPrefixOf_append_self : ∀ (l t : List Char), (l.isPrefixOf (l ++ t)) = true := by
  intro l
  induction l with
  | nil => intro t; simp [List.isPrefixOf]
  | cons c rest ih => intro t; simp [List.isPrefixOf, ih]

theorem endsWith_append_self (pat s : List Char) : endsWith pat (s ++ pat) = true := by
  rw [endsWith, List.reverse_append]
  exact isPrefixOf_append_self _ _

theorem endingOfLine_crlf (acc : List Char) :
    endingOfLine (acc ++ ['\r', '\n']) = some ['\r', '\n'] := by
  rw [endingOfLine, if_pos (endsWith_append_self ['\r', '\n'] acc)]

theorem endingOfLine_cr (acc : List Char) :
    endingOfLine (acc ++ ['\r']) = some ['\r'] := by
  have h1 : endsWith ['\r', '\n'] (acc ++ ['\r']) = false := by
    rw [endsWith, List.reverse_append]
    simp [List.isPrefixOf]
  have h2 : endsWith ['\r'] (acc ++ ['\r']) = true := endsWith_append_self ['\r'] acc
  rw [endingOfLine]
  simp [h1, h2]

theorem endingOfLine_lf (acc : List Char) (hacc : '\r' ∉ acc) :
    endingOfLine (acc ++ ['\n']) = some ['\n'] := by
  have h1 : endsWith ['\r', '\n'] (acc ++ ['\n']) = false := by
    rw [endsWith, List.reverse_append]
    cases har : acc.reverse with
    | nil => simp [List.isPrefixOf]
    | cons y ys =>
      have hy : '\r' ≠ y := by
        intro hEq
        refine hacc (List.mem_reverse.mp ?_)
        rw [har, ← hEq]
        exact List.mem_cons_self _ _
      simp [List.isPrefixOf, hy]
  have h2 : endsWith ['\r'] (acc ++ ['\n']) = false := by
    rw [endsWith, List.reverse_append]
    simp [List.isPrefixOf]
  have h3 : endsWith ['\n'] (acc ++ ['\n']) = true := endsWith_append_self ['\n'] acc
  rw [endingOfLine]
  simp [h1, h2, h3]

theorem endingOfLine_other (acc : List Char) (c : Char) (hc1 : c ≠ '\r') (hc2 : c ≠ '\n') :
    endingOfLine (acc ++ [c]) = none := by
  have hc1' : '\r' ≠ c := fun hEq => hc1 hEq.symm
  have hc2' : '\n' ≠ c := fun hEq => hc2 hEq.symm
  have h1 : endsWith ['\r', '\n'] (acc ++ [c]) = false := by
    rw [endsWith, List.reverse_append]
    simp [List.isPrefixOf, hc2']
  have h2 : endsWith ['\r'] (acc ++ [c]) = false := by
    rw [endsWith, List.reverse_append]
    simp [List.isPrefixOf, hc1']
  have h3 : endsWith ['\n'] (acc ++ [c]) = false := by
    rw [endsWith, List.reverse_append]
    simp [List.isPrefixOf, hc2']
  rw [endingOfLine]
  simp [h1, h2, h3]

theorem endingOfLine_noBoundary (l : List Char)
    (h : ∀ x ∈ l, x ≠ '\r' ∧ x ≠ '\n') : endingOfLine l = none := by
  have hpre : ∀ pat : List Char, (∀ x ∈ pat, x = '\r' ∨ x = '\n') → pat ≠ [] →
      endsWith pat l = false := by
    intro pat hpat hne
    rw [endsWith]
    cases hp : pat.reverse with
    | nil =>
      exact absurd (by simpa using congrArg List.reverse hp) hne
    | cons y ys =>
      cases hl : l.reverse with
      | nil => simp [List.isPrefixOf]
      | cons z zs =>
        have hz := h z (List.mem_reverse.mp (by rw [hl]; exact List.mem_cons_self _ _))
        have hy := hpat y (List.mem_reverse.mp (by rw [hp]; exact List.mem_cons_self _ _))
        have hyz : y ≠ z := by
          rcases hy with rfl | rfl
          · exact fun hEq => hz.1 hEq.symm
          · exact fun hEq => hz.2 hEq.symm
        simp [List.isPrefixOf, hyz]
  rw [endingOfLine]
  simp [hpre ['\r', '\n'] (by decide) (by decide), hpre ['\r'] (by decide) (by decide),
    hpre ['\n'] (by decide) (by decide)]

set_option maxHeartbeats 2000000 in
theorem filterMap_splitlinesAux :
    ∀ (k : Nat) (s acc : List Char), s.length ≤ k →
      (∀ c ∈ acc, lineBoundary c = false) →
      List.filterMap endingOfLine (splitlinesAux acc s) = lineEnds s := by
  have hnb : ∀ (acc : List Char), (∀ c ∈ acc, lineBoundary c = false) →
      ∀ x ∈ acc.reverse, x ≠ '\r' ∧ x ≠ '\n' := by
    intro acc hacc x hx
    have hb := hacc x (List.mem_reverse.mp hx)
    constructor
    · intro hEq; subst hEq; revert hb; decide
    · intro hEq; subst hEq; revert hb; decide
  have hnilcase : ∀ (acc : List Char), (∀ c ∈ acc, lineBoundary c = false) →
      List.filterMap endingOfLine (splitlinesAux acc []) = lineEnds [] := by
    intro acc hacc
    rw [splitlinesAux]
    split
    · rfl
    · rw [List.filterMap_cons_none (endingOfLine_noBoundary acc.reverse (hnb acc hacc))]
      rfl
  have hcrnoacc : '\r' ∉ ([] : List Char) := List.not_mem_nil '\r'
  intro k
  induction k with
  | zero =>
    intro s acc hlen hacc
    have hs : s = [] := List.eq_nil_of_length_eq_zero (Nat.le_zero.mp hlen)
    subst hs
    exact hnilcase acc hacc
  | succ k ih =>
    intro s acc hlen hacc
    cases s with
    | nil => exact hnilcase acc hacc
    | cons c s' =>
      have hlen' : s'.length ≤ k := by
        simp only [List.length_cons] at hlen
        omega
      by_cases hcr : c = '\r'
      · subst hcr
        cases s' with
        | nil =>
          rw [splitlinesAux]
          · have hbr : lineBoundary '\r' = true := by decide
            rw [if_pos hbr]
            rw [List.filterMap_cons_some (endingOfLine_cr acc.reverse)]
            rw [hnilcase [] (fun c hc => absurd hc (List.not_mem_nil c))]
            rfl
          · simp
        | cons d s'' =>
          have hlen'' : s''.length ≤ k := by
            simp only [List.length_cons] at hlen
            omega
          by_cases hdn : d = '\n'
          · subst hdn
            rw [splitlinesAux]
            rw [List.filterMap_cons_some (endingOfLine_crlf acc.reverse)]
            rw [lineEnds_crlf_append]
            rw [ih s'' [] hlen'' (fun c hc => absurd hc (List.not_mem_nil c))]
          · rw [splitlinesAux]
            · have hbr : lineBoundary '\r' = true := by decide
              rw [if_pos hbr]
              rw [List.filterMap_cons_some (endingOfLine_cr acc.reverse)]
              rw [lineEnds_cr_append (show (d :: s'').take 1 ≠ ['\n'] from by
                simp [List.take]
                exact hdn)]
              rw [ih (d :: s'') [] hlen' (fun c hc => absurd hc (List.not_mem_nil c))]
            · simp [hdn]
      · rw [splitlinesAux]
        · by_cases hbc : lineBoundary c = true
          · rw [if_pos hbc]
            by_cases hcn : c = '\n'
            · subst hcn
              have hra : '\r' ∉ acc.reverse := by
                intro hm
                exact ((hnb acc hacc) '\r' hm).1 rfl
              rw [List.filterMap_cons_some (endingOfLine_lf acc.reverse hra)]
              rw [lineEnds_lf_append]
              rw [ih s' [] hlen' (fun c hc => absurd hc (List.not_mem_nil c))]
            · rw [List.filterMap_cons_none (endingOfLine_other acc.reverse c hcr hcn)]
              rw [lineEnds_cons_of_ne hcr hcn]
              exact ih s' [] hlen' (fun c hc => absurd hc (List.not_mem_nil c))
          · rw [if_neg hbc]
            have hcn : c ≠ '\n' := by
              intro hEq
              subst hEq
              exact hbc (by decide)
            rw [lineEnds_cons_of_ne hcr hcn]
            refine ih s' (c :: acc) hlen' ?_
            intro x hx
            rcases List.mem_cons.mp hx with rfl | hm
            · exact Bool.eq_false_iff.mpr hbc
            · exact hacc x hm
        · simp [hcr]

theorem mem_lineEnds3 :
    ∀ (k : Nat) (s : List Char), s.length ≤ k → ∀ e ∈ lineEnds s,
      e = ['\r', '\n'] ∨ e = ['\r'] ∨ e = ['\n'] := by
  intro k
  induction k with
  | zero =>
    intro s hlen e he
    have hs : s = [] := List.eq_nil_of_length_eq_zero (Nat.le_zero.mp hlen)
    subst hs
    exact absurd he (List.not_mem_nil e)
  | succ k ih =>
    intro s hlen e he
    cases s with
    | nil => exact absurd he (List.not_mem_nil e)
    | cons c s' =>
      cases s' with
      | nil =>
        rw [lineEnds] at he
        split at he
        · rename_i hc
          rcases List.mem_singleton.mp he with rfl
          rcases hc with rfl | rfl
          · exact Or.inr (Or.inl rfl)
          · exact Or.inr (Or.inr rfl)
        · exact absurd he (List.not_mem_nil e)
      | cons d rest =>
        rw [lineEnds] at he
        split at he
        · rename_i hc
          rcases List.mem_cons.mp he with rfl | hm
          · exact Or.inl rfl
          · refine ih rest ?_ e hm
            simp only [List.length_cons] at hlen
            omega
        · split at he
          · rename_i hc1 hc2
            rcases List.mem_cons.mp he with heq | hm
            · subst heq
              rcases hc2 with rfl | rfl
              · exact Or.inr (Or.inl rfl)
              · exact Or.inr (Or.inr rfl)
            · refine ih (d :: rest) ?_ e hm
              simp only [List.length_cons] at hlen ⊢
              omega
          · refine ih (d :: rest) ?_ e he
            simp only [List.length_cons] at hlen ⊢
            omega

theorem alookup_bump_same {k : List Char} :
    ∀ (acc : List (List Char × Nat)),
      alookup k (bump k acc) = some ((alookup k acc).getD 0 + 1) := by
  intro acc
  induction acc with
  | nil => simp [bump, alookup]
  | cons kv rest ih =>
    match kv with
    | (k', n) =>
      rw [bump]
      by_cases hk : k = k'
      · subst hk
        rw [if_pos rfl, alookup, if_pos rfl, alookup, if_pos rfl]
        rfl
      · rw [if_neg hk, alookup, if_neg hk, alookup, if_neg hk]
        exact ih

theorem alookup_bump_other {k e : List Char} (hne : k ≠ e) :
    ∀ (acc : List (List Char × Nat)), alookup k (bump e acc) = alookup k acc := by
  intro acc
  induction acc with
  | nil => simp [bump, alookup, hne]
  | cons kv rest ih =>
    match kv with
    | (k', n) =>
      rw [bump]
      by_cases he : e = k'
      · subst he
        rw [if_pos rfl, alookup, alookup, if_neg hne, if_neg hne]
      · rw [if_neg he, alookup, alookup]
        by_cases hk : k = k'
        · rw [if_pos hk, if_pos hk]
        · rw [if_neg hk, if_neg hk]
          exact ih

theorem foldl_match_filterMap :
    ∀ (lines : List (List Char)) (acc : List (List Char × Nat)),
      lines.foldl (fun acc line =>
        match endingOfLine line with
        | some e => bump e acc
        | none => acc) acc =
      (lines.filterMap endingOfLine).foldl (fun acc e => bump e acc) acc := by
  intro lines
  induction lines with
  | nil => intro acc; rfl
  | cons l rest ih =>
    intro acc
    cases hl : endingOfLine l with
    | none =>
      rw [List.filterMap_cons_none hl]
      simp only [List.foldl_cons, hl]
      exact ih acc
    | some e =>
      rw [List.filterMap_cons_some hl]
      simp only [List.foldl_cons, hl]
      exact ih (bump e acc)

theorem foldl_bump_alookup :
    ∀ (es : List (List Char)) (acc : List (List Char × Nat)) (k : List Char),
      alookup k (es.foldl (fun acc e => bump e acc) acc) =
      match alookup k acc with
      | some n => some (n + es.count k)
      | none => if es.count k = 0 then none else some (es.count k) := by
  intro es
  induction es with
  | nil =>
    intro acc k
    cases h : alookup k acc with
    | none => simp [h]
    | some n => simp [h]
  | cons e rest ih =>
    intro acc k
    rw [List.foldl_cons, ih]
    by_cases hk : k = e
    · subst hk
      rw [alookup_bump_same]
      cases h : alookup k acc with
      | none =>
        simp [h, List.count_cons_self]
        omega
      | some n =>
        simp [h, List.count_cons_self]
        omega
    · rw [alookup_bump_other hk, List.count_cons_of_ne hk]

theorem bump_ne_nil {e : List Char} : ∀ (acc : List (List Char × Nat)), bump e acc ≠ [] := by
  intro acc
  cases acc with
  | nil => simp [bump]
  | cons kv rest =>
    match kv with
    | (k', n) =>
      rw [bump]
      split <;> simp

theorem foldl_bump_ne_nil :
    ∀ (es : List (List Char)) (acc : List (List Char × Nat)), acc ≠ [] →
      es.foldl (fun acc e => bump e acc) acc ≠ [] := by
  intro es
  induction es with
  | nil => intro acc h; exact h
  | cons e rest ih =>
    intro acc h
    rw [List.foldl_cons]
    exact ih (bump e acc) (bump_ne_nil acc)

theorem bump_keys_sub {e : List Char} :
    ∀ (acc : List (List Char × Nat)) (k : List Char),
      k ∈ (bump e acc).map (fun kv => kv.1) → k = e ∨ k ∈ acc.map (fun kv => kv.1) := by
  intro acc
  induction acc with
  | nil =>
    intro k h
    simp [bump] at h
    exact Or.inl h
  | cons kv rest ih =>
    match kv with
    | (k', n) =>
      intro k h
      rw [bump] at h
      by_cases he : e = k'
      · rw [if_pos he] at h
        rw [List.map_cons] at h
        rcases List.mem_cons.mp h with rfl | hm
        · exact Or.inr (by rw [List.map_cons]; exact List.mem_cons_self _ _)
        · exact Or.inr (by rw [List.map_cons]; exact List.mem_cons_of_mem _ hm)
      · rw [if_neg he] at h
        rw [List.map_cons] at h
        rcases List.mem_cons.mp h with rfl | hm
        · exact Or.inr (by rw [List.map_cons]; exact List.mem_cons_self _ _)
        · rcases ih k hm with h1 | h1
          · exact Or.inl h1
          · exact Or.inr (by rw [List.map_cons]; exact List.mem_cons_of_mem _ h1)

theorem bump_keys_nodup {e : List Char} :
    ∀ (acc : List (List Char × Nat)),
      (acc.map (fun kv => kv.1)).Nodup → ((bump e acc).map (fun kv => kv.1)).Nodup := by
  intro acc
  induction acc with
  | nil => intro _; simp [bump]
  | cons kv rest ih =>
    match kv with
    | (k', n) =>
      intro hnd
      rw [List.map_cons] at hnd
      obtain ⟨hk', hrest⟩ := List.nodup_cons.mp hnd
      rw [bump]
      by_cases he : e = k'
      · rw [if_pos he, List.map_cons]
        exact List.nodup_cons.mpr ⟨hk', hrest⟩
      · rw [if_neg he, List.map_cons]
        refine List.nodup_cons.mpr ⟨?_, ih hrest⟩
        intro hm
        rcases bump_keys_sub rest k' hm with h1 | h1
        · exact he h1.symm
        · exact hk' h1

theorem foldl_bump_keys_nodup :
    ∀ (es : List (List Char)) (acc : List (List Char × Nat)),
      (acc.map (fun kv => kv.1)).Nodup →
      ((es.foldl (fun acc e => bump e acc) acc).map (fun kv => kv.1)).Nodup := by
  intro es
  induction es with
  | nil => intro acc h; exact h
  | cons e rest ih =>
    intro acc h
    rw [List.foldl_cons]
    exact ih (bump e acc) (bump_keys_nodup acc h)

theorem foldl_bump_keys_sub :
    ∀ (es : List (List Char)) (acc : List (List Char × Nat)) (k : List Char),
      k ∈ ((es.foldl (fun acc e => bump e acc) acc).map (fun kv => kv.1)) →
      k ∈ es ∨ k ∈ acc.map (fun kv => kv.1) := by
  intro es
  induction es with
  | nil => intro acc k h; exact Or.inr h
  | cons e rest ih =>
    intro acc k h
    rw [List.foldl_cons] at h
    rcases ih (bump e acc) k h with h1 | h1
    · exact Or.inl (List.mem_cons_of_mem _ h1)
    · rcases bump_keys_sub acc k h1 with h2 | h2
      · exact Or.inl (h2 ▸ List.mem_cons_self _ _)
      · exact Or.inr h2

theorem alookup_of_mem_nodup {α β : Type} [DecidableEq α] :
    ∀ {l : List (α × β)}, (l.map (fun kv => kv.1)).Nodup →
      ∀ {kv : α × β}, kv ∈ l → alookup kv.1 l = some kv.2 := by
  intro l
  induction l with
  | nil => intro _ kv h; exact absurd h (List.not_mem_nil kv)
  | cons kv' rest ih =>
    intro hnd kv h
    match kv' with
    | (k', v') =>
      rw [List.map_cons] at hnd
      obtain ⟨hk', hrest⟩ := List.nodup_cons.mp hnd
      rcases List.mem_cons.mp h with rfl | hm
      · rw [alookup, if_pos rfl]
      · rw [alookup]
        by_cases hk : kv.1 = k'
        · exfalso
          refine hk' ?_
          rw [← hk]
          exact List.mem_map.mpr ⟨kv, hm, rfl⟩
        · rw [if_neg hk]
          exact ih hrest hm

theorem maxCount_fold_spec :
    ∀ (C : List (List Char × Nat)) (kv0 : List Char × Nat),
      (C.foldl (fun best x => if best.2 < x.2 then x else best) kv0) ∈ kv0 :: C ∧
      ∀ kv ∈ kv0 :: C,
        kv.2 ≤ (C.foldl (fun best x => if best.2 < x.2 then x else best) kv0).2 := by
  intro C
  induction C with
  | nil =>
    intro kv0
    refine ⟨List.mem_singleton_self _, ?_⟩
    intro kv hkv
    rcases List.mem_singleton.mp hkv with rfl
    exact le_refl _
  | cons x rest ih =>
    intro kv0
    rw [List.foldl_cons]
    obtain ⟨hm, hb⟩ := ih (if kv0.2 < x.2 then x else kv0)
    constructor
    · rcases List.mem_cons.mp hm with hEq | hm2
      · rw [hEq]
        by_cases h0 : kv0.2 < x.2
        · rw [if_pos h0]
          exact List.mem_cons_of_mem _ (List.mem_cons_self _ _)
        · rw [if_neg h0]
          exact List.mem_cons_self _ _
      · exact List.mem_cons_of_mem _ (List.mem_cons_of_mem _ hm2)
    · intro kv hkv
      rcases List.mem_cons.mp hkv with hEq | hkv2
      · refine le_trans ?_ (hb _ (List.mem_cons_self _ _))
        rw [hEq]
        by_cases h0 : kv0.2 < x.2
        · rw [if_pos h0]
          exact Nat.le_of_lt h0
        · rw [if_neg h0]
      · rcases List.mem_cons.mp hkv2 with hEq | hkv3
        · refine le_trans ?_ (hb _ (List.mem_cons_self _ _))
          rw [hEq]
          by_cases h0 : kv0.2 < x.2
          · rw [if_pos h0]
          · rw [if_neg h0]
            exact Nat.le_of_not_lt h0
        · exact hb kv (List.mem_cons_of_mem _ hkv3)

theorem maxCount_spec {C : List (List Char × Nat)} (h : C ≠ []) :
    maxCount C ∈ C ∧ ∀ kv ∈ C, kv.2 ≤ (maxCount C).2 := by
  cases C with
  | nil => exact absurd rfl h
  | cons kv0 rest =>
    rw [maxCount]
    exact maxCount_fold_spec rest kv0

theorem counter_max_spec (es : List (List Char)) :
    (maxCount (es.foldl (fun acc e => bump e acc) [(['\n'], 0)])).1 ∈ ['\n'] :: es ∧
    ∀ e : List Char, es.count e ≤
      es.count (maxCount (es.foldl (fun acc e => bump e acc) [(['\n'], 0)])).1 := by
  have hCne : es.foldl (fun acc e => bump e acc) [(['\n'], 0)] ≠ [] :=
    foldl_bump_ne_nil es _ (by simp)
  have hnodup : ((es.foldl (fun acc e => bump e acc) [(['\n'], 0)]).map
      (fun kv => kv.1)).Nodup :=
    foldl_bump_keys_nodup es _ (by simp)
  obtain ⟨hmem, hbound⟩ := maxCount_spec hCne
  have halk := alookup_of_mem_nodup hnodup hmem
  have h1 := foldl_bump_alookup es [(['\n'], 0)]
    (maxCount (es.foldl (fun acc e => bump e acc) [(['\n'], 0)])).1
  rw [halk] at h1
  have hcount : (maxCount (es.foldl (fun acc e => bump e acc) [(['\n'], 0)])).2 =
      es.count (maxCount (es.foldl (fun acc e => bump e acc) [(['\n'], 0)])).1 := by
    by_cases hk : (maxCount (es.foldl (fun acc e => bump e acc) [(['\n'], 0)])).1 = ['\n']
    · rw [hk] at h1 ⊢
      rw [show alookup ['\n'] [(['\n'], 0)] = some 0 from by simp [alookup]] at h1
      dsimp only at h1
      have h2 := Option.some.inj h1
      omega
    · rw [show alookup (maxCount (es.foldl (fun acc e => bump e acc)
          [(['\n'], 0)])).1 [(['\n'], 0)] = none from by rw [alookup, if_neg hk]; rfl] at h1
      dsimp only at h1
      by_cases hcnt : es.count (maxCount (es.foldl (fun acc e => bump e acc)
          [(['\n'], 0)])).1 = 0
      · rw [if_pos hcnt] at h1
        cases h1
      · rw [if_neg hcnt] at h1
        exact Option.some.inj h1
  constructor
  · have hkey : (maxCount (es.foldl (fun acc e => bump e acc) [(['\n'], 0)])).1 ∈
        (es.foldl (fun acc e => bump e acc) [(['\n'], 0)]).map (fun kv => kv.1) :=
      List.mem_map.mpr ⟨_, hmem, rfl⟩
    rcases foldl_bump_keys_sub es _ _ hkey with h2 | h2
    · exact List.mem_cons_of_mem _ h2
    · simp at h2
      rw [h2]
      exact List.mem_cons_self _ _
  · intro e
    by_cases hcnt : es.count e = 0
    · rw [hcnt]
      exact Nat.zero_le _
    · have h3 := foldl_bump_alookup es [(['\n'], 0)] e
      by_cases hk : e = ['\n']
      · subst hk
        rw [show alookup ['\n'] [(['\n'], 0)] = some 0 from by simp [alookup]] at h3
        dsimp only at h3
        have hm2 := alookup_mem h3
        have h4 := hbound _ hm2
        rw [hcount] at h4
        simpa using h4
      · rw [show alookup e [(['\n'], 0)] = none from by rw [alookup, if_neg hk]; rfl] at h3
        dsimp only at h3
        rw [if_neg hcnt] at h3
        have hm2 := alookup_mem h3
        have h4 := hbound _ hm2
        rw [hcount] at h4
        exact h4

theorem mostCommonLineEnding_eq_fold (s : List Char) :
    mostCommonLineEnding s =
      (maxCount ((lineEnds s).foldl (fun acc e => bump e acc) [(['\n'], 0)])).1 := by
  rw [mostCommonLineEnding, foldl_match_filterMap,
    filterMap_splitlinesAux s.length s [] (le_refl _)
      (fun c hc => absurd hc (List.not_mem_nil c))]

theorem mostCommonLineEnding_mem3 (s : List Char) :
    mostCommonLineEnding s = ['\r', '\n'] ∨ mostCommonLineEnding s = ['\r'] ∨
      mostCommonLineEnding s = ['\n'] := by
  rw [mostCommonLineEnding_eq_fold]
  rcases List.mem_cons.mp (counter_max_spec (lineEnds s)).1 with h | h
  · exact Or.inr (Or.inr h)
  · exact mem_lineEnds3 s.length s (le_refl _) _ h

theorem mostCommonLineEnding_majority (s : List Char) :
    ∀ e : List Char, (lineEnds s).count e ≤ (lineEnds s).count (mostCommonLineEnding s) := by
  intro e
  rw [mostCommonLineEnding_eq_fold]
  exact (counter_max_spec (lineEnds s)).2 e

/-- C9: the output of `fix_file_contents` uses the input's most frequent line
terminator throughout.  Every CR/LF/CRLF terminator of the output equals
`mostCommonLineEnding contents`; that value is always one of CRLF, CR, LF; it
is a most frequent terminator of the input (no terminator occurs more often);
and on a uniform input (all CRLF, or all CR) it is that uniform terminator —
so an all-CRLF input yields an all-CRLF output and an all-CR input an all-CR
output.  The configuration strings are assumed CR-free (they are single-line
command arguments). -/
theorem c9_line_ending_preservation
    (contents : List Char) (toks : List Tok) (to_add : List (List Char))
    (to_remove : List ImpKey) (to_replace : Replacements) (settings : Settings)
    (hadd : ∀ a ∈ to_add, '\r' ∉ a)
    (hex : ∀ kv ∈ to_replace.exact, '\r' ∉ kv.2)
    (hmods : ∀ kv ∈ to_replace.mods, '\r' ∉ kv.2) :
    (∀ e ∈ lineEnds (fix_file_contents contents toks to_add to_remove to_replace settings),
        e = mostCommonLineEnding contents) ∧
    (mostCommonLineEnding contents = ['\r', '\n'] ∨
      mostCommonLineEnding contents = ['\r'] ∨ mostCommonLineEnding contents = ['\n']) ∧
    (∀ e : List Char, (lineEnds contents).count e ≤
        (lineEnds contents).count (mostCommonLineEnding contents)) ∧
    (∀ t ∈ lineEnds contents, (∀ e ∈ lineEnds contents, e = t) →
        mostCommonLineEnding contents = t) := by
  refine ⟨?_, mostCommonLineEnding_mem3 contents, mostCommonLineEnding_majority contents, ?_⟩
  · intro e he
    simp only [fix_file_contents] at he
    exact lineEnds_pyReplace_nl (mostCommonLineEnding_mem3 contents) _
      (fix_pipeline_noCR contents toks to_add to_remove to_replace settings hadd hex hmods)
      e he
  · intro t ht huni
    have h1 : 0 < (lineEnds contents).count t := List.count_pos_iff.mpr ht
    have h2 := mostCommonLineEnding_majority contents t
    have h3 : 0 < (lineEnds contents).count (mostCommonLineEnding contents) :=
      lt_of_lt_of_le h1 h2
    exact huni _ (List.count_pos_iff.mp h3)

/-- Witness for `c9_line_ending_preservation`: instantiated on the concrete
mixed-terminator input `"a\r\nb\r\nc\n"` (whose majority terminator is CRLF)
with an empty configuration. -/
theorem c9_witness :
    mostCommonLineEnding "a\r\nb\r\nc\n".data = ['\r', '\n'] ∧
    ((∀ e ∈ lineEnds (fix_file_contents "a\r\nb\r\nc\n".data toksC1 [] []
        ⟨[], []⟩ ⟨fun _ => 0⟩), e = mostCommonLineEnding "a\r\nb\r\nc\n".data) ∧
      (mostCommonLineEnding "a\r\nb\r\nc\n".data = ['\r', '\n'] ∨
        mostCommonLineEnding "a\r\nb\r\nc\n".data = ['\r'] ∨
        mostCommonLineEnding "a\r\nb\r\nc\n".data = ['\n']) ∧
      (∀ e : List Char, (lineEnds "a\r\nb\r\nc\n".data).count e ≤
          (lineEnds "a\r\nb\r\nc\n".data).count
            (mostCommonLineEnding "a\r\nb\r\nc\n".data)) ∧
      (∀ t ∈ lineEnds "a\r\nb\r\nc\n".data,
          (∀ e ∈ lineEnds "a\r\nb\r\nc\n".data, e = t) →
          mostCommonLineEnding "a\r\nb\r\nc\n".data = t)) :=
  ⟨by decide,
   c9_line_ending_preservation "a\r\nb\r\nc\n".data toksC1 [] [] ⟨[], []⟩ ⟨fun _ => 0⟩
     (by simp) (by simp) (by simp)⟩

theorem mem_pyReplace_gen :
    ∀ (k : Nat) (pat r s : List Char) (x : Char), s.length ≤ k →
      x ∈ pyReplace pat r s → x ∈ r ∨ x ∈ s := by
  intro k
  induction k with
  | zero =>
    intro pat r s x hlen hx
    have hs : s = [] := List.eq_nil_of_length_eq_zero (Nat.le_zero.mp hlen)
    subst hs
    rw [pyReplace_nil] at hx
    exact absurd hx (List.not_mem_nil x)
  | succ k ih =>
    intro pat r s x hlen hx
    cases s with
    | nil =>
      rw [pyReplace_nil] at hx
      exact absurd hx (List.not_mem_nil x)
    | cons c rest =>
      cases pat with
      | nil =>
        simp only [pyReplace] at hx
        exact Or.inr hx
      | cons p ps =>
        rw [pyReplace] at hx
        by_cases hpre : ((p :: ps).isPrefixOf (c :: rest)) = true
        · rw [if_pos hpre] at hx
          rcases List.mem_append.mp hx with h1 | h1
          · exact Or.inl h1
          · have hlen' : (rest.drop ps.length).length ≤ k := by
              simp only [List.length_cons] at hlen
              simp only [List.length_drop]
              omega
            rcases ih (p :: ps) r (rest.drop ps.length) x hlen' h1 with h2 | h2
            · exact Or.inl h2
            · exact Or.inr (List.mem_cons_of_mem _ (List.mem_of_mem_drop h2))
        · rw [if_neg hpre] at hx
          rcases List.mem_cons.mp hx with rfl | h1
          · exact Or.inr (List.mem_cons_self _ _)
          · have hlen' : rest.length ≤ k := by
              simp only [List.length_cons] at hlen
              omega
            rcases ih (p :: ps) r rest x hlen' h1 with h2 | h2
            · exact Or.inl h2
            · exact Or.inr (List.mem_cons_of_mem _ h2)

theorem pyLstrip_all_space {s : List Char} (h : ∀ c ∈ s, pySpace c = true) :
    pyLstrip s = [] := by
  rw [pyLstrip]
  exact List.dropWhile_eq_nil_iff.mpr h

theorem pyStrip_all_space {s : List Char} (h : ∀ c ∈ s, pySpace c = true) :
    pyStrip s = [] := by
  rw [pyStrip, pyLstrip_all_space h]
  rfl

theorem pyRstrip_all_space {s : List Char} (h : ∀ c ∈ s, pySpace c = true) :
    pyRstrip s = [] := by
  rw [pyRstrip,
    List.dropWhile_eq_nil_iff.mpr (fun x hx => h x (List.mem_reverse.mp hx))]
  rfl

theorem partitionLoop_types_none {src : List Char} :
    ∀ (toks : List Tok) (sp : Nat) (seen : Bool),
      (∀ t ∈ toks, ¬(t.kind = TokKind.COMMENT) ∧ ¬(t.kind = TokKind.STRING) ∧
        ¬(t.scol = 0 ∧ t.kind = TokKind.NAME ∧
          (t.text = "from".data ∨ t.text = "import".data))) →
      ∀ chunk ∈ partitionLoop src sp none seen toks,
        chunk.code_type = CodeType.NON_CODE ∨ chunk.code_type = CodeType.CODE := by
  intro toks
  induction toks with
  | nil =>
    intro sp seen _ chunk hck
    simp [partitionLoop] at hck
  | cons t rest ih =>
    intro sp seen hts chunk hck
    have ht := hts t (List.mem_cons_self _ _)
    have hts' := fun t' ht' => hts t' (List.mem_cons_of_mem _ ht')
    rw [partitionLoop] at hck
    rw [if_neg (fun hc => ht.1 hc.2)] at hck
    rw [if_neg (fun hc => ht.2.1 hc.2)] at hck
    rw [if_neg ht.2.2] at hck
    by_cases hnl : t.kind = TokKind.NL
    · rw [if_pos hnl] at hck
      rcases List.mem_cons.mp hck with rfl | hm
      · exact Or.inl rfl
      · exact ih t.endpos seen hts' chunk hm
    · rw [if_neg hnl] at hck
      rw [if_neg (fun hc => ht.1 hc)] at hck
      by_cases hem : t.kind = TokKind.ENDMARKER
      · rw [if_pos hem] at hck
        exact ih sp seen hts' chunk hck
      · rw [if_neg hem] at hck
        rcases List.mem_singleton.mp hck with rfl
        exact Or.inr rfl

theorem combine_types {ps : List CodePartition}
    (ht : ∀ p ∈ ps, p.code_type = CodeType.NON_CODE ∨ p.code_type = CodeType.CODE) :
    ∀ p ∈ combine_trailing_code_chunks ps,
      p.code_type = CodeType.NON_CODE ∨ p.code_type = CodeType.CODE := by
  intro p hp
  simp only [combine_trailing_code_chunks] at hp
  split at hp
  · exact ht p hp
  · rcases List.mem_append.mp hp with h | h
    · refine ht p ?_
      have h1 := List.mem_reverse.mp h
      exact List.mem_reverse.mp ((List.dropWhile_sublist _).mem h1)
    · rcases List.mem_singleton.mp h with rfl
      exact Or.inr rfl

theorem combine_src_space {ps : List CodePartition}
    (hw : ∀ p ∈ ps, ∀ x ∈ p.src, pySpace x = true) :
    ∀ p ∈ combine_trailing_code_chunks ps, ∀ x ∈ p.src, pySpace x = true := by
  intro p hp
  simp only [combine_trailing_code_chunks] at hp
  split at hp
  · exact hw p hp
  · rcases List.mem_append.mp hp with h | h
    · refine hw p ?_
      have h1 := List.mem_reverse.mp h
      exact List.mem_reverse.mp ((List.dropWhile_sublist _).mem h1)
    · rcases List.mem_singleton.mp h with rfl
      intro x hx
      obtain ⟨q, hq, hxq⟩ := mem_partitionsToSrc hx
      refine hw q ?_ x hxq
      have h1 := List.mem_reverse.mp hq
      exact List.mem_reverse.mp ((List.takeWhile_sublist _).mem h1)

theorem add_id {ps : List CodePartition} {to_add : List (List Char)}
    (hstrip : (pyStrip (partitionsToSrc ps)).isEmpty = true) :
    add_imports ps to_add = ps := by
  rw [add_imports, if_pos hstrip]

theorem separate_id :
    ∀ {ps : List CodePartition}, (∀ p ∈ ps, ¬ p.code_type = CodeType.IMPORT) →
      separate_comma_imports ps = ps := by
  intro ps
  induction ps with
  | nil => intro _; rfl
  | cons q rest ih =>
    intro ht
    rw [separate_comma_imports]
    simp only [List.flatMap_cons]
    rw [if_neg (ht q (List.mem_cons_self _ _))]
    have ih' := ih (fun p hp => ht p (List.mem_cons_of_mem _ hp))
    rw [separate_comma_imports] at ih'
    rw [ih', List.singleton_append]

theorem remove_id {ps : List CodePartition} {to_remove : List ImpKey}
    (ht : ∀ p ∈ ps, ¬ p.code_type = CodeType.IMPORT) :
    remove_imports ps to_remove = ps := by
  rw [remove_imports]
  refine List.filter_eq_self.mpr ?_
  intro p hp
  simp [ht p hp]

theorem replace_id :
    ∀ {ps : List CodePartition} {to_replace : Replacements},
      (∀ p ∈ ps, ¬ p.code_type = CodeType.IMPORT) →
      replace_imports ps to_replace = ps := by
  intro ps to_replace
  induction ps with
  | nil => intro _; rfl
  | cons q rest ih =>
    intro ht
    rw [replace_imports, List.map_cons]
    have hq : replacePart to_replace q = q := by
      rw [replacePart, if_neg (ht q (List.mem_cons_self _ _))]
    rw [hq]
    have ih' := ih (fun p hp => ht p (List.mem_cons_of_mem _ hp))
    rw [replace_imports] at ih'
    rw [ih']

theorem rdiPass1_id :
    ∀ (ps : List CodePartition) (seen : List ImportObj) (smn : List (List Char)),
      (∀ p ∈ ps, ¬ p.code_type = CodeType.IMPORT) →
      rdiPass1 seen smn ps = (ps, smn) := by
  intro ps
  induction ps with
  | nil => intro seen smn _; rfl
  | cons q rest ih =>
    intro seen smn ht
    rw [rdiPass1, if_neg (ht q (List.mem_cons_self _ _))]
    rw [ih seen smn (fun p hp => ht p (List.mem_cons_of_mem _ hp))]

theorem rdi_id {ps : List CodePartition}
    (ht : ∀ p ∈ ps, ¬ p.code_type = CodeType.IMPORT) :
    remove_duplicated_imports ps = ps := by
  simp only [remove_duplicated_imports]
  rw [rdiPass1_id ps [] [] ht]
  refine List.filter_eq_self.mpr ?_
  intro p hp
  simp [ht p hp]

theorem apply_sorting_empty {ps : List CodePartition} {settings : Settings}
    (ht : ∀ p ∈ ps, p.code_type = CodeType.NON_CODE ∨ p.code_type = CodeType.CODE)
    (hw : ∀ p ∈ ps, ∀ x ∈ p.src, pySpace x = true) :
    apply_import_sorting ps settings = [] := by
  have hpre : ps.filter (fun p => p.code_type = CodeType.PRE_IMPORT_CODE) = [] := by
    refine List.filter_eq_nil_iff.mpr ?_
    intro p hp
    rcases ht p hp with h | h <;> simp [h]
  have himp : ps.filter (fun p => p.code_type = CodeType.IMPORT) = [] := by
    refine List.filter_eq_nil_iff.mpr ?_
    intro p hp
    rcases ht p hp with h | h <;> simp [h]
  have hrest : pyRstrip (partitionsToSrc
      (ps.filter (fun p => p.code_type = CodeType.CODE))) = [] := by
    refine pyRstrip_all_space ?_
    intro c hc
    obtain ⟨p, hp, hcp⟩ := mem_partitionsToSrc hc
    exact hw p (List.mem_of_mem_filter hp) c hcp
  simp only [apply_import_sorting]
  rw [hpre, himp, hrest]
  rfl

/-- C10: on an input consisting solely of whitespace characters (the empty
string included), `fix_file_contents` returns the empty string even when
`to_add` is non-empty: `add_imports` refuses to add to a stripped-empty file,
every region is whitespace `NON_CODE`/`CODE`, and `apply_import_sorting`
rstrips the trailing code away entirely. -/
theorem c10_whitespace_only_deleted
    (contents : List Char) (toks : List Tok) (to_add : List (List Char))
    (to_remove : List ImpKey) (to_replace : Replacements) (settings : Settings)
    (h : Tokenizes (pyReplace ['\r'] ['\n'] (pyReplace ['\r', '\n'] ['\n'] contents)) toks)
    (hws : ∀ c ∈ contents, pySpace c = true) :
    fix_file_contents contents toks to_add to_remove to_replace settings = [] := by
  set src' := pyReplace ['\r'] ['\n'] (pyReplace ['\r', '\n'] ['\n'] contents) with hsrcdef
  obtain ⟨h1, h2, h3, h4, h5, h6, h7, h8, h9, h10, h11, h12⟩ := h
  have hsrc'w : ∀ c ∈ src', pySpace c = true := by
    intro c hc
    rw [hsrcdef] at hc
    rcases mem_pyReplace_gen (pyReplace ['\r', '\n'] ['\n'] contents).length ['\r'] ['\n']
        (pyReplace ['\r', '\n'] ['\n'] contents) c (le_refl _) hc with hm | hm
    · rcases List.mem_singleton.mp hm with rfl
      decide
    · rcases mem_pyReplace_gen contents.length ['\r', '\n'] ['\n'] contents c
          (le_refl _) hm with hm' | hm'
      · rcases List.mem_singleton.mp hm' with rfl
        decide
      · exact hws c hm'
  have htok : ∀ t ∈ toks, ¬(t.kind = TokKind.COMMENT) ∧ ¬(t.kind = TokKind.STRING) ∧
      ¬(t.scol = 0 ∧ t.kind = TokKind.NAME ∧
        (t.text = "from".data ∨ t.text = "import".data)) := by
    intro t htm
    refine ⟨?_, ?_, ?_⟩
    · intro hk
      have h9' := h9 t htm hk
      have h8' := h8 t htm (Or.inl hk)
      have hx : '#' ∈ t.text := by
        have hm : '#' ∈ t.text.take 1 := by
          rw [h9']
          exact List.mem_singleton_self _
        exact List.mem_of_mem_take hm
      rw [h8'] at hx
      have hsp := hsrc'w '#' (mem_pySlice hx)
      revert hsp
      decide
    · intro hk
      have h10' := h10 t htm hk
      have h8' := h8 t htm (Or.inr (Or.inl hk))
      rcases h10' with hq | hq
      · rw [h8'] at hq
        have hsp := hsrc'w _ (mem_pySlice hq)
        revert hsp
        decide
      · rw [h8'] at hq
        have hsp := hsrc'w _ (mem_pySlice hq)
        revert hsp
        decide
    · rintro ⟨hcol, hk, htext⟩
      have h8' := h8 t htm (Or.inr (Or.inr hk))
      rcases htext with he | he
      · have hx : 'f' ∈ t.text := by
          rw [he]
          decide
        rw [h8'] at hx
        have hsp := hsrc'w 'f' (mem_pySlice hx)
        revert hsp
        decide
      · have hx : 'i' ∈ t.text := by
          rw [he]
          decide
        rw [h8'] at hx
        have hsp := hsrc'w 'i' (mem_pySlice hx)
        revert hsp
        decide
  have hP1t : ∀ p ∈ partition_source src' toks,
      p.code_type = CodeType.NON_CODE ∨ p.code_type = CodeType.CODE := by
    intro p hp
    rw [partition_source] at hp
    exact partitionLoop_types_none toks 0 false htok p (List.mem_of_mem_filter hp)
  have hP1w : ∀ p ∈ partition_source src' toks, ∀ x ∈ p.src, pySpace x = true :=
    fun p hp x hx => hsrc'w x (partition_source_src_subset p hp x hx)
  have hP2t := combine_types hP1t
  have hP2w := combine_src_space hP1w
  have hP2ni : ∀ p ∈ combine_trailing_code_chunks (partition_source src' toks),
      ¬ p.code_type = CodeType.IMPORT := by
    intro p hp hk
    rcases hP2t p hp with h' | h' <;> (rw [hk] at h'; exact CodeType.noConfusion h')
  have hstrip : (pyStrip (partitionsToSrc (combine_trailing_code_chunks
      (partition_source src' toks)))).isEmpty = true := by
    rw [pyStrip_all_space]
    · rfl
    · intro c hc
      obtain ⟨p, hp, hcp⟩ := mem_partitionsToSrc hc
      exact hP2w p hp c hcp
  simp only [fix_file_contents]
  rw [← hsrcdef]
  rw [add_id hstrip, separate_id hP2ni, remove_id hP2ni, replace_id hP2ni, rdi_id hP2ni,
    apply_sorting_empty hP2t hP2w]
  exact pyReplace_nil _ _

/-- Witness for `c10_whitespace_only_deleted`: the whitespace-only input
`"\n\n"` with its real token stream `toksC10` and a non-empty `to_add`
configuration still comes out empty. -/
theorem c10_witness :
    Tokenizes (pyReplace ['\r'] ['\n'] (pyReplace ['\r', '\n'] ['\n'] "\n\n".data))
      toksC10 ∧
    (∀ c ∈ "\n\n".data, pySpace c = true) ∧
    fix_file_contents "\n\n".data toksC10 ["import os".data] [] ⟨[], []⟩
      ⟨fun _ => 0⟩ = [] :=
  by
  have hnorm : pyReplace ['\r'] ['\n'] (pyReplace ['\r', '\n'] ['\n'] "\n\n".data) =
      "\n\n".data := by
    rw [pyReplace_of_not_hasSeq ['\r', '\n'] ['\n'] _ (by decide)]
    rw [pyReplace_of_not_hasSeq ['\r'] ['\n'] _ (by decide)]
  refine ⟨by rw [hnorm]; decide, by decide, ?_⟩
  exact c10_whitespace_only_deleted "\n\n".data toksC10 ["import os".data] [] ⟨[], []⟩
    ⟨fun _ => 0⟩ (by rw [hnorm]; decide) (by decide)

theorem hasSeq_subset {pat : List Char} :
    ∀ {s : List Char}, hasSeq pat s = true → ∀ c ∈ pat, c ∈ s := by
  intro s
  induction s with
  | nil =>
    intro h c hc
    rw [hasSeq] at h
    rw [List.isEmpty_iff.mp h] at hc
    exact absurd hc (List.not_mem_nil c)
  | cons a rest ih =>
    intro h c hc
    rw [hasSeq, Bool.or_eq_true] at h
    rcases h with h | h
    · have hpre := List.isPrefixOf_iff_prefix.mp h
      exact hpre.subset hc
    · exact List.mem_cons_of_mem _ (ih h c hc)

theorem normalize_id_of_noCR {s : List Char} (h : '\r' ∉ s) :
    pyReplace ['\r'] ['\n'] (pyReplace ['\r', '\n'] ['\n'] s) = s := by
  have h1 : hasSeq ['\r', '\n'] s = false := by
    cases hh : hasSeq ['\r', '\n'] s with
    | false => rfl
    | true => exact absurd (hasSeq_subset hh '\r' (List.mem_cons_self _ _)) h
  have h2 : hasSeq ['\r'] s = false := by
    cases hh : hasSeq ['\r'] s with
    | false => rfl
    | true => exact absurd (hasSeq_subset hh '\r' (List.mem_cons_self _ _)) h
  rw [pyReplace_of_not_hasSeq ['\r', '\n'] ['\n'] s h1,
    pyReplace_of_not_hasSeq ['\r'] ['\n'] s h2]

theorem mem_lineEnds_subset :
    ∀ (k : Nat) (s : List Char), s.length ≤ k → ∀ e ∈ lineEnds s, ∀ c ∈ e, c ∈ s := by
  intro k
  induction k with
  | zero =>
    intro s hlen e he
    have hs : s = [] := List.eq_nil_of_length_eq_zero (Nat.le_zero.mp hlen)
    subst hs
    exact absurd he (List.not_mem_nil e)
  | succ k ih =>
    intro s hlen e he c hc
    cases s with
    | nil => exact absurd he (List.not_mem_nil e)
    | cons a s' =>
      cases s' with
      | nil =>
        rw [lineEnds] at he
        split at he
        · rcases List.mem_singleton.mp he with rfl
          rcases List.mem_singleton.mp hc with rfl
          exact List.mem_singleton_self _
        · exact absurd he (List.not_mem_nil e)
      | cons d rest =>
        have hlen1 : rest.length ≤ k := by
          simp only [List.length_cons] at hlen
          omega
        have hlen2 : (d :: rest).length ≤ k := by
          simp only [List.length_cons] at hlen ⊢
          omega
        rw [lineEnds] at he
        split at he
        · rename_i hcond
          rcases List.mem_cons.mp he with rfl | hm
          · rcases List.mem_cons.mp hc with rfl | hc2
            · rw [hcond.1]
              exact List.mem_cons_self _ _
            · rcases List.mem_singleton.mp hc2 with rfl
              rw [hcond.2]
              exact List.mem_cons_of_mem _ (List.mem_cons_self _ _)
          · exact List.mem_cons_of_mem _
              (List.mem_cons_of_mem _ (ih rest hlen1 e hm c hc))
        · split at he
          · rcases List.mem_cons.mp he with heq | hm
            · subst heq
              rcases List.mem_singleton.mp hc with rfl
              exact List.mem_cons_self _ _
            · exact List.mem_cons_of_mem _ (ih (d :: rest) hlen2 e hm c hc)
          · exact List.mem_cons_of_mem _ (ih (d :: rest) hlen2 e he c hc)

theorem mostCommonLineEnding_noCR {s : List Char} (h : '\r' ∉ s) :
    mostCommonLineEnding s = ['\n'] := by
  rw [mostCommonLineEnding_eq_fold]
  rcases List.mem_cons.mp (counter_max_spec (lineEnds s)).1 with h1 | h1
  · exact h1
  · rcases mem_lineEnds3 s.length s (le_refl _) _ h1 with h2 | h2 | h2
    · exfalso
      refine h (mem_lineEnds_subset s.length s (le_refl _) _ h1 '\r' ?_)
      rw [h2]
      exact List.mem_cons_self _ _
    · exfalso
      refine h (mem_lineEnds_subset s.length s (le_refl _) _ h1 '\r' ?_)
      rw [h2]
      exact List.mem_cons_self _ _
    · exact h2

theorem dropWhile_dropWhile (p : Char → Bool) :
    ∀ (l : List Char), (l.dropWhile p).dropWhile p = l.dropWhile p := by
  intro l
  induction l with
  | nil => rfl
  | cons c rest ih =>
    rw [List.dropWhile_cons]
    by_cases hc : p c = true
    · rw [if_pos hc]
      exact ih
    · rw [if_neg hc, List.dropWhile_cons, if_neg hc]

theorem pyRstrip_idem (s : List Char) : pyRstrip (pyRstrip s) = pyRstrip s := by
  rw [pyRstrip, pyRstrip, List.reverse_reverse, dropWhile_dropWhile]

theorem remove_empty (ps : List CodePartition) : remove_imports ps [] = ps := by
  rw [remove_imports]
  refine List.filter_eq_self.mpr ?_
  intro p hp
  by_cases hct : p.code_type = CodeType.IMPORT
  · rw [if_pos hct]
    cases hobj : import_obj_from_str p.src with
    | none => rfl
    | some obj => rfl
  · rw [if_neg hct]

theorem replacePart_empty (p : CodePartition) : replacePart ⟨[], []⟩ p = p := by
  rw [replacePart]
  by_cases hct : p.code_type = CodeType.IMPORT
  · rw [if_pos hct]
    cases hobj : import_obj_from_str p.src with
    | none => rfl
    | some obj =>
      cases obj with
      | imp names => rfl
      | frm mod names =>
        dsimp only
        rw [show (moduleToBaseModules mod).findSome?
            (fun mn => (alookup mn ({ exact := [], mods := [] } : Replacements).mods).map
              (fun v => (mn, v))) = none from findSome?_const_none _]
        rfl
  · rw [if_neg hct]

theorem replace_empty (ps : List CodePartition) : replace_imports ps ⟨[], []⟩ = ps := by
  rw [replace_imports]
  have hmap : ps.map (replacePart ⟨[], []⟩) = ps.map (fun p => p) :=
    List.map_congr_left (fun p hp => replacePart_empty p)
  rw [hmap, List.map_id']

/-- C2 counterexample: with the chained replacement rules `a → b` and
`b → c` (as built by `Replacements.make`), fixing `"from a import x\n"`
yields `"from b import x\n"`, and fixing that output again yields
`"from c import x\n"` — the pipeline is not idempotent. -/
theorem c2_counterexample :
    Tokenizes "from a import x\n".data toksC2a ∧
    Tokenizes "from b import x\n".data toksC2b ∧
    fix_file_contents "from a import x\n".data toksC2a [] []
      (replacementsMake [(['a'], ['b'], []), (['b'], ['c'], [])]) ⟨fun _ => 0⟩ =
      "from b import x\n".data ∧
    fix_file_contents "from b import x\n".data toksC2b [] []
      (replacementsMake [(['a'], ['b'], []), (['b'], ['c'], [])]) ⟨fun _ => 0⟩ =
      "from c import x\n".data ∧
    ("from c import x\n".data ≠ "from b import x\n".data) := by
  have hnorm1 : pyReplace ['\r'] ['\n']
      (pyReplace ['\r', '\n'] ['\n'] "from a import x\n".data) =
      "from a import x\n".data := normalize_id_of_noCR (by decide)
  have hnorm2 : pyReplace ['\r'] ['\n']
      (pyReplace ['\r', '\n'] ['\n'] "from b import x\n".data) =
      "from b import x\n".data := normalize_id_of_noCR (by decide)
  refine ⟨by rw [hnorm1] at *; decide, by rw [hnorm2] at *; decide, ?_, ?_, by decide⟩
  · simp only [fix_file_contents]
    rw [hnorm1, show mostCommonLineEnding "from a import x\n".data = ['\n'] from by decide,
      pyReplace_self]
    decide
  · simp only [fix_file_contents]
    rw [hnorm2, show mostCommonLineEnding "from b import x\n".data = ['\n'] from by decide,
      pyReplace_self]
    decide

theorem identChar_not_space {c : Char} (h : identChar c = true) : pySpace c = false := by
  cases hs : pySpace c with
  | false => rfl
  | true =>
    exfalso
    rw [pySpace] at hs
    simp only [Bool.or_eq_true, decide_eq_true_eq] at hs
    rcases hs with ((((hc | hc) | hc) | hc) | hc) | hc <;> (subst hc; revert h; decide)

theorem identChar_ne_comma {c : Char} (h : identChar c = true) : c ≠ ',' := by
  intro hEq
  subst hEq
  revert h
  decide

theorem validWord_ne_nil {w : List Char} (hw : validWord w = true) : w ≠ [] := by
  intro hEq
  subst hEq
  revert hw
  decide

theorem validWord_all {w : List Char} (hw : validWord w = true) : w.all identChar = true := by
  rw [validWord, Bool.and_eq_true] at hw
  exact hw.2

theorem lexWords_ident :
    ∀ (w acc s : List Char), w.all identChar = true →
      lexWords acc (w ++ s) = lexWords (w.reverse ++ acc) s := by
  intro w
  induction w with
  | nil => intro acc s _; simp
  | cons c w' ih =>
    intro acc s hall
    rw [List.all_cons, Bool.and_eq_true] at hall
    rw [List.cons_append, lexWords]
    rw [if_neg (by rw [identChar_not_space hall.1]; exact Bool.false_ne_true)]
    rw [if_neg (identChar_ne_comma hall.1)]
    rw [ih (c :: acc) s hall.2]
    congr 1
    simp

theorem lexWords_word_sp (w rest : List Char) (hw : validWord w = true) {c : Char}
    (hc : pySpace c = true) :
    lexWords [] (w ++ c :: rest) = w :: lexWords [] rest := by
  rw [lexWords_ident w [] (c :: rest) (validWord_all hw), List.append_nil, lexWords,
    if_pos hc]
  rw [if_neg (by simp [validWord_ne_nil hw] : ¬ w.reverse.isEmpty = true)]
  rw [List.reverse_reverse]

theorem validWord_no_hash {w : List Char} (h : validWord w = true) : '#' ∉ w := by
  intro hm
  exact absurd (List.all_eq_true.mp (validWord_all h) _ hm) (by decide)

theorem objToSrc_no_hash {obj : ImportObj}
    (h : ∀ w ∈ objWords obj, validWord w = true) : '#' ∉ objToSrc obj := by
  intro hx
  have hn_word : ∀ names : List ImpName,
      '#' ∈ List.intercalate ", ".data (names.map nameToSrc) →
      (∀ n ∈ names, n.name ∈ objWords obj ∧
        ∀ a, n.asname = some a → a ∈ objWords obj) → False := by
    intro names hmem hws
    rcases mem_intercalate_sep hmem with h5 | h5
    · revert h5; decide
    · obtain ⟨w, hw, hxw⟩ := h5
      obtain ⟨n, hn, rfl⟩ := List.mem_map.mp hw
      rcases mem_nameToSrc hxw with h4 | h4 | h4
      · exact validWord_no_hash (h n.name (hws n hn).1) h4
      · revert h4; decide
      · obtain ⟨a, ha, h4⟩ := h4
        exact validWord_no_hash (h a ((hws n hn).2 a ha)) h4
  cases obj with
  | imp names =>
    rw [objToSrc] at hx
    rcases List.mem_append.mp hx with h1 | h1
    swap
    · revert h1; decide
    rcases List.mem_append.mp h1 with h2 | h2
    · revert h2; decide
    · refine hn_word names h2 ?_
      intro n hn
      constructor
      · rw [objWords]
        exact List.mem_flatMap.mpr ⟨n, hn, List.mem_cons_self _ _⟩
      · intro a ha
        rw [objWords]
        refine List.mem_flatMap.mpr ⟨n, hn, List.mem_cons_of_mem _ ?_⟩
        rw [ha]
        exact List.mem_singleton_self a
  | frm mod names =>
    rw [objToSrc] at hx
    rcases List.mem_append.mp hx with h1 | h1
    swap
    · revert h1; decide
    rcases List.mem_append.mp h1 with h2 | h2
    swap
    · refine hn_word names h2 ?_
      intro n hn
      constructor
      · rw [objWords]
        exact List.mem_cons_of_mem _
          (List.mem_flatMap.mpr ⟨n, hn, List.mem_cons_self _ _⟩)
      · intro a ha
        rw [objWords]
        refine List.mem_cons_of_mem _
          (List.mem_flatMap.mpr ⟨n, hn, List.mem_cons_of_mem _ ?_⟩)
        rw [ha]
        exact List.mem_singleton_self a
    rcases List.mem_append.mp h2 with h3 | h3
    swap
    · revert h3; decide
    rcases List.mem_append.mp h3 with h4 | h4
    · revert h4; decide
    · exact validWord_no_hash (h mod (by rw [objWords]; exact List.mem_cons_self _ _)) h4

theorem intercalate_single (sep x : List Char) : List.intercalate sep [x] = x := by
  simp [List.intercalate]

theorem lexWords_objToSrc_frm (m n : List Char) (asn : Option (List Char))
    (hm : validWord m = true) (hn : validWord n = true)
    (ha : ∀ a, asn = some a → validWord a = true) :
    lexWords [] (objToSrc (ImportObj.frm m [⟨n, asn⟩])) =
      "from".data :: m :: "import".data :: n ::
        (match asn with | none => [] | some a => ["as".data, a]) := by
  rw [objToSrc, List.map_cons, List.map_nil, intercalate_single]
  rw [List.append_assoc, List.append_assoc, List.append_assoc]
  rw [show "from ".data = "from".data ++ [' '] from rfl, List.append_assoc,
    List.singleton_append]
  rw [lexWords_word_sp "from".data _ (by decide) (by decide)]
  rw [show " import ".data = ' ' :: ("import".data ++ [' ']) from rfl]
  rw [show m ++ ((' ' :: ("import".data ++ [' '])) ++ (nameToSrc ⟨n, asn⟩ ++ ['\n'])) =
      m ++ ' ' :: ("import".data ++ ' ' :: (nameToSrc ⟨n, asn⟩ ++ ['\n'])) from by simp]
  rw [lexWords_word_sp m _ hm (by decide)]
  rw [lexWords_word_sp "import".data _ (by decide) (by decide)]
  cases asn with
  | none =>
    have hns : nameToSrc ⟨n, none⟩ = n := by
      rw [nameToSrc]
      exact List.append_nil n
    rw [hns, show n ++ ['\n'] = n ++ '\n' :: [] from rfl]
    rw [lexWords_word_sp n _ hn (by decide)]
    rfl
  | some a =>
    have hns : nameToSrc ⟨n, some a⟩ = n ++ ' ' :: ("as".data ++ ' ' :: a) := rfl
    rw [hns]
    rw [show (n ++ ' ' :: ("as".data ++ ' ' :: a)) ++ ['\n'] =
        n ++ ' ' :: ("as".data ++ ' ' :: (a ++ ['\n'])) from by simp]
    rw [lexWords_word_sp n _ hn (by decide)]
    rw [lexWords_word_sp "as".data _ (by decide) (by decide)]
    rw [show a ++ ['\n'] = a ++ '\n' :: [] from rfl]
    rw [lexWords_word_sp a _ (ha a rfl) (by decide)]
    rfl

theorem lexWords_objToSrc_imp (n : List Char) (asn : Option (List Char))
    (hn : validWord n = true)
    (ha : ∀ a, asn = some a → validWord a = true) :
    lexWords [] (objToSrc (ImportObj.imp [⟨n, asn⟩])) =
      "import".data :: n ::
        (match asn with | none => [] | some a => ["as".data, a]) := by
  rw [objToSrc, List.map_cons, List.map_nil, intercalate_single]
  rw [List.append_assoc]
  rw [show "import ".data = "import".data ++ [' '] from rfl, List.append_assoc,
    List.singleton_append]
  rw [lexWords_word_sp "import".data _ (by decide) (by decide)]
  cases asn with
  | none =>
    have hns : nameToSrc ⟨n, none⟩ = n := by
      rw [nameToSrc]
      exact List.append_nil n
    rw [hns, show n ++ ['\n'] = n ++ '\n' :: [] from rfl]
    rw [lexWords_word_sp n _ hn (by decide)]
    rfl
  | some a =>
    have hns : nameToSrc ⟨n, some a⟩ = n ++ ' ' :: ("as".data ++ ' ' :: a) := rfl
    rw [hns]
    rw [show (n ++ ' ' :: ("as".data ++ ' ' :: a)) ++ ['\n'] =
        n ++ ' ' :: ("as".data ++ ' ' :: (a ++ ['\n'])) from by simp]
    rw [lexWords_word_sp n _ hn (by decide)]
    rw [lexWords_word_sp "as".data _ (by decide) (by decide)]
    rw [show a ++ ['\n'] = a ++ '\n' :: [] from rfl]
    rw [lexWords_word_sp a _ (ha a rfl) (by decide)]
    rfl

theorem roundtrip_frm (m n : List Char) (asn : Option (List Char))
    (hm : validWord m = true) (hn : validWord n = true) (hnas : n ≠ "as".data)
    (ha : ∀ a, asn = some a → validWord a = true ∧ a ≠ "as".data) :
    import_obj_from_str (objToSrc (ImportObj.frm m [⟨n, asn⟩])) =
      some (ImportObj.frm m [⟨n, asn⟩]) := by
  have hvw : ∀ w ∈ objWords (ImportObj.frm m [⟨n, asn⟩]), validWord w = true := by
    intro w hw
    rw [objWords] at hw
    rcases List.mem_cons.mp hw with rfl | hw2
    · exact hm
    · obtain ⟨nn, hnn, hwn⟩ := List.mem_flatMap.mp hw2
      rcases List.mem_singleton.mp hnn with rfl
      rcases List.mem_cons.mp hwn with rfl | hw3
      · exact hn
      · cases hasn : asn with
        | none => rw [hasn] at hw3; exact absurd hw3 (List.not_mem_nil w)
        | some a =>
          rw [hasn] at hw3
          rw [List.mem_singleton.mp hw3]
          exact (ha a hasn).1
  have htw : (objToSrc (ImportObj.frm m [⟨n, asn⟩])).takeWhile (fun c => c ≠ '#') =
      objToSrc (ImportObj.frm m [⟨n, asn⟩]) := by
    refine List.takeWhile_eq_self_iff.mpr ?_
    intro x hx
    simp only [decide_eq_true_eq]
    intro hEq
    subst hEq
    exact objToSrc_no_hash hvw hx
  rw [import_obj_from_str, htw]
  rw [lexWords_objToSrc_frm m n asn hm hn (fun a hsome => (ha a hsome).1)]
  try dsimp only
  rw [if_neg (by decide : ¬("from".data = "import".data))]
  rw [if_pos rfl]
  try dsimp only
  rw [if_pos ⟨hm, rfl⟩]
  cases asn with
  | none =>
    try dsimp only
    rw [show parseNames [n] = some [⟨n, none⟩] from by
      rw [parseNames.eq_def]
      try dsimp only
      rw [if_pos ⟨hn, hnas⟩]]
    rfl
  | some a =>
    obtain ⟨hva, hana⟩ := ha a rfl
    try dsimp only
    rw [show parseNames [n, "as".data, a] = some [⟨n, some a⟩] from by
      rw [parseNames.eq_def]
      try dsimp only
      rw [if_pos ⟨hn, hnas⟩]
      rw [if_neg (by decide : ¬("as".data = [',']))]
      rw [if_pos rfl]
      try dsimp only
      rw [if_pos ⟨hva, hana⟩]]
    rfl

theorem roundtrip_imp (n : List Char) (asn : Option (List Char))
    (hn : validWord n = true) (hnas : n ≠ "as".data)
    (ha : ∀ a, asn = some a → validWord a = true ∧ a ≠ "as".data) :
    import_obj_from_str (objToSrc (ImportObj.imp [⟨n, asn⟩])) =
      some (ImportObj.imp [⟨n, asn⟩]) := by
  have hvw : ∀ w ∈ objWords (ImportObj.imp [⟨n, asn⟩]), validWord w = true := by
    intro w hw
    rw [objWords] at hw
    obtain ⟨nn, hnn, hwn⟩ := List.mem_flatMap.mp hw
    rcases List.mem_singleton.mp hnn with rfl
    rcases List.mem_cons.mp hwn with rfl | hw3
    · exact hn
    · cases hasn : asn with
      | none => rw [hasn] at hw3; exact absurd hw3 (List.not_mem_nil w)
      | some a =>
        rw [hasn] at hw3
        rw [List.mem_singleton.mp hw3]
        exact (ha a hasn).1
  have htw : (objToSrc (ImportObj.imp [⟨n, asn⟩])).takeWhile (fun c => c ≠ '#') =
      objToSrc (ImportObj.imp [⟨n, asn⟩]) := by
    refine List.takeWhile_eq_self_iff.mpr ?_
    intro x hx
    simp only [decide_eq_true_eq]
    intro hEq
    subst hEq
    exact objToSrc_no_hash hvw hx
  rw [import_obj_from_str, htw]
  rw [lexWords_objToSrc_imp n asn hn (fun a hsome => (ha a hsome).1)]
  try dsimp only
  rw [if_pos rfl]
  cases asn with
  | none =>
    try dsimp only
    rw [show parseNames [n] = some [⟨n, none⟩] from by
      rw [parseNames.eq_def]
      try dsimp only
      rw [if_pos ⟨hn, hnas⟩]]
    rfl
  | some a =>
    obtain ⟨hva, hana⟩ := ha a rfl
    try dsimp only
    rw [show parseNames [n, "as".data, a] = some [⟨n, some a⟩] from by
      rw [parseNames.eq_def]
      try dsimp only
      rw [if_pos ⟨hn, hnas⟩]
      rw [if_neg (by decide : ¬("as".data = [',']))]
      rw [if_pos rfl]
      try dsimp only
      rw [if_pos ⟨hva, hana⟩]]
    rfl

theorem parseNames_wordOk :
    ∀ (k : Nat) (ws : List (List Char)), ws.length ≤ k →
      ∀ {names : List ImpName}, parseNames ws = some names →
      ∀ n ∈ names, (validWord n.name = true ∧ n.name ≠ "as".data) ∧
        ∀ a, n.asname = some a → validWord a = true ∧ a ≠ "as".data := by
  intro k
  induction k with
  | zero =>
    intro ws hlen names h
    have hws : ws = [] := List.eq_nil_of_length_eq_zero (Nat.le_zero.mp hlen)
    subst hws
    exact Option.noConfusion h
  | succ k ih =>
    intro ws hlen names h n hn
    cases ws with
    | nil => exact Option.noConfusion h
    | cons w rest =>
      rw [parseNames.eq_def] at h
      dsimp only at h
      by_cases hv : (validWord w = true) ∧ (w ≠ "as".data)
      case neg => rw [if_neg hv] at h; cases h
      case pos =>
      rw [if_pos hv] at h
      cases rest with
      | nil =>
        dsimp only at h
        injection h with h1
        subst h1
        rcases List.mem_singleton.mp hn with rfl
        exact ⟨hv, fun a ha => by cases ha⟩
      | cons w2 rest' =>
        dsimp only at h
        by_cases hw2 : w2 = [',']
        · rw [if_pos hw2] at h
          obtain ⟨tail, htail, hcons⟩ := Option.map_eq_some'.mp h
          subst hcons
          rcases List.mem_cons.mp hn with rfl | hmem
          · exact ⟨hv, fun a ha => by cases ha⟩
          · refine ih rest' ?_ htail n hmem
            simp only [List.length_cons] at hlen
            omega
        · rw [if_neg hw2] at h
          by_cases hw2as : w2 = "as".data
          · rw [if_pos hw2as] at h
            cases rest' with
            | nil => exact Option.noConfusion h
            | cons al rest'' =>
              dsimp only at h
              by_cases hval : (validWord al = true) ∧ (al ≠ "as".data)
              case neg => rw [if_neg hval] at h; cases h
              case pos =>
              rw [if_pos hval] at h
              cases rest'' with
              | nil =>
                dsimp only at h
                injection h with h1
                subst h1
                rcases List.mem_singleton.mp hn with rfl
                refine ⟨hv, fun a ha => ?_⟩
                injection ha with h2
                subst h2
                exact hval
              | cons w3 rest3 =>
                dsimp only at h
                by_cases hw3 : w3 = [',']
                · rw [if_pos hw3] at h
                  obtain ⟨tail, htail, hcons⟩ := Option.map_eq_some'.mp h
                  subst hcons
                  rcases List.mem_cons.mp hn with rfl | hmem
                  · refine ⟨hv, fun a ha => ?_⟩
                    injection ha with h2
                    subst h2
                    exact hval
                  · refine ih rest3 ?_ htail n hmem
                    simp only [List.length_cons] at hlen
                    omega
                · rw [if_neg hw3] at h; cases h
          · rw [if_neg hw2as] at h; cases h

theorem import_obj_names_wordOk {s : List Char} {obj : ImportObj}
    (h : import_obj_from_str s = some obj) :
    ∀ n ∈ objNames obj, (validWord n.name = true ∧ n.name ≠ "as".data) ∧
      ∀ a, n.asname = some a → validWord a = true ∧ a ≠ "as".data := by
  rw [import_obj_from_str] at h
  generalize lexWords [] (s.takeWhile (fun c => c ≠ '#')) = ws at h
  cases ws with
  | nil => exact Option.noConfusion h
  | cons w rest =>
    dsimp only at h
    by_cases hwi : w = "import".data
    · rw [if_pos hwi] at h
      obtain ⟨names, hnames, hobj⟩ := Option.map_eq_some'.mp h
      subst hobj
      intro n hn
      rw [objNames] at hn
      exact parseNames_wordOk rest.length rest (le_refl _) hnames n hn
    · rw [if_neg hwi] at h
      by_cases hwf : w = "from".data
      · rw [if_pos hwf] at h
        cases rest with
        | nil => exact Option.noConfusion h
        | cons m rest2 =>
          cases rest2 with
          | nil => exact Option.noConfusion h
          | cons w2 rest' =>
            dsimp only at h
            by_cases hc : (validWord m = true) ∧ (w2 = "import".data)
            · rw [if_pos hc] at h
              obtain ⟨names, hnames, hobj⟩ := Option.map_eq_some'.mp h
              subst hobj
              intro n hn
              rw [objNames] at hn
              exact parseNames_wordOk rest'.length rest' (le_refl _) hnames n hn
            · rw [if_neg hc] at h
              exact Option.noConfusion h
      · rw [if_neg hwf] at h
        exact Option.noConfusion h

theorem lexWords_append_nl :
    ∀ (s acc : List Char), lexWords acc (s ++ ['\n']) = lexWords acc s := by
  intro s
  induction s with
  | nil =>
    intro acc
    rw [List.nil_append, lexWords, lexWords]
    rw [if_pos (by decide : pySpace '\n' = true)]
    by_cases hacc : acc.isEmpty = true
    · rw [if_pos hacc, if_pos hacc]
      rfl
    · rw [if_neg hacc, if_neg hacc]
      rfl
  | cons c rest ih =>
    intro acc
    rw [List.cons_append, lexWords, lexWords]
    by_cases hsp : pySpace c = true
    · rw [if_pos hsp, if_pos hsp]
      by_cases hacc : acc.isEmpty = true
      · rw [if_pos hacc, if_pos hacc, ih []]
      · rw [if_neg hacc, if_neg hacc, ih []]
    · rw [if_neg hsp, if_neg hsp]
      by_cases hcm : c = ','
      · rw [if_pos hcm, if_pos hcm]
        by_cases hacc : acc.isEmpty = true
        · rw [if_pos hacc, if_pos hacc, ih []]
        · rw [if_neg hacc, if_neg hacc, ih []]
      · rw [if_neg hcm, if_neg hcm, ih (c :: acc)]

theorem takeWhile_stop (p : Char → Bool) :
    ∀ (s t : List Char), (∃ c ∈ s, p c = false) →
      (s ++ t).takeWhile p = s.takeWhile p := by
  intro s
  induction s with
  | nil =>
    intro t hex
    obtain ⟨c, hc, _⟩ := hex
    exact absurd hc (List.not_mem_nil c)
  | cons a rest ih =>
    intro t hex
    rw [List.cons_append, List.takeWhile_cons, List.takeWhile_cons]
    by_cases hp : p a = true
    · rw [if_pos hp, if_pos hp]
      obtain ⟨c, hc, hpc⟩ := hex
      rcases List.mem_cons.mp hc with rfl | hc2
      · rw [hp] at hpc
        cases hpc
      · rw [ih t ⟨c, hc2, hpc⟩]
    · rw [if_neg hp, if_neg hp]

theorem import_obj_append_nl (s : List Char) :
    import_obj_from_str (s ++ ['\n']) = import_obj_from_str s := by
  rw [import_obj_from_str, import_obj_from_str]
  by_cases hh : '#' ∈ s
  · rw [takeWhile_stop (fun c => decide (c ≠ '#')) s ['\n'] ⟨'#', hh, by decide⟩]
  · have h1 : s.takeWhile (fun c => c ≠ '#') = s := by
      refine List.takeWhile_eq_self_iff.mpr ?_
      intro x hx
      simp only [decide_eq_true_eq]
      intro hEq
      subst hEq
      exact hh hx
    have h2 : (s ++ ['\n']).takeWhile (fun c => c ≠ '#') = s ++ ['\n'] := by
      refine List.takeWhile_eq_self_iff.mpr ?_
      intro x hx
      simp only [decide_eq_true_eq]
      intro hEq
      subst hEq
      rcases List.mem_append.mp hx with hm | hm
      · exact hh hm
      · revert hm
        decide
    rw [h1, h2, lexWords_append_nl]

theorem separate_single {ps : List CodePartition} :
    ∀ p ∈ separate_comma_imports ps, p.code_type = CodeType.IMPORT →
      ∀ o, import_obj_from_str p.src = some o → objIsMultiple o = false := by
  intro p hp hct o ho
  rw [separate_comma_imports] at hp
  obtain ⟨q, hq, hpq⟩ := List.mem_flatMap.mp hp
  by_cases hqt : q.code_type = CodeType.IMPORT
  · rw [if_pos hqt] at hpq
    cases hobj : import_obj_from_str q.src with
    | none =>
      rw [hobj] at hpq
      rcases List.mem_singleton.mp hpq with rfl
      rw [hobj] at ho
      exact Option.noConfusion ho
    | some obj =>
      rw [hobj] at hpq
      try dsimp only at hpq
      by_cases hmul : objIsMultiple obj = true
      · rw [if_pos hmul] at hpq
        obtain ⟨o', ho', rfl⟩ := List.mem_map.mp hpq
        have hw := import_obj_names_wordOk hobj
        cases obj with
        | imp names =>
          rw [objSplit] at ho'
          obtain ⟨nn, hnn, rfl⟩ := List.mem_map.mp ho'
          have hfacts := hw nn (by rw [objNames]; exact hnn)
          have hrt := roundtrip_imp nn.name nn.asname hfacts.1.1 hfacts.1.2 hfacts.2
          have h2 : some (ImportObj.imp [nn]) = some o := Eq.trans (Eq.symm hrt) ho
          rw [← Option.some.inj h2]
          rfl
        | frm mod names =>
          rw [objSplit] at ho'
          obtain ⟨nn, hnn, rfl⟩ := List.mem_map.mp ho'
          have hfacts := hw nn (by rw [objNames]; exact hnn)
          have hmod : validWord mod = true :=
            import_obj_valid hobj mod (by rw [objWords]; exact List.mem_cons_self _ _)
          have hrt := roundtrip_frm mod nn.name nn.asname hmod hfacts.1.1 hfacts.1.2
            hfacts.2
          have h2 : some (ImportObj.frm mod [nn]) = some o := Eq.trans (Eq.symm hrt) ho
          rw [← Option.some.inj h2]
          rfl
      · rw [if_neg hmul] at hpq
        rcases List.mem_singleton.mp hpq with rfl
        rw [hobj] at ho
        rw [← Option.some.inj ho]
        exact Bool.eq_false_iff.mpr hmul
  · rw [if_neg hqt] at hpq
    rcases List.mem_singleton.mp hpq with rfl
    exact absurd hct hqt

theorem aupsert_keys_sub {α β : Type} [DecidableEq α] {k : α} {v : β} :
    ∀ {l : List (α × β)} {x : α}, x ∈ (aupsert k v l).map (fun kv => kv.1) →
      x = k ∨ x ∈ l.map (fun kv => kv.1) := by
  intro l
  induction l with
  | nil =>
    intro x h
    simp [aupsert] at h
    exact Or.inl h
  | cons kv rest ih =>
    intro x h
    match kv with
    | (k', v') =>
      rw [aupsert] at h
      by_cases hk : k = k'
      · rw [if_pos hk] at h
        rw [List.map_cons] at h
        rcases List.mem_cons.mp h with rfl | hm
        · exact Or.inr (by rw [List.map_cons]; exact List.mem_cons_self _ _)
        · exact Or.inr (by rw [List.map_cons]; exact List.mem_cons_of_mem _ hm)
      · rw [if_neg hk] at h
        rw [List.map_cons] at h
        rcases List.mem_cons.mp h with rfl | hm
        · exact Or.inr (by rw [List.map_cons]; exact List.mem_cons_self _ _)
        · rcases ih hm with h1 | h1
          · exact Or.inl h1
          · exact Or.inr (by rw [List.map_cons]; exact List.mem_cons_of_mem _ h1)

theorem aupsert_keys_nodup {α β : Type} [DecidableEq α] {k : α} {v : β} :
    ∀ {l : List (α × β)}, (l.map (fun kv => kv.1)).Nodup →
      ((aupsert k v l).map (fun kv => kv.1)).Nodup := by
  intro l
  induction l with
  | nil => intro _; simp [aupsert]
  | cons kv rest ih =>
    match kv with
    | (k', v') =>
      intro hnd
      rw [List.map_cons] at hnd
      obtain ⟨hk', hrest⟩ := List.nodup_cons.mp hnd
      rw [aupsert]
      by_cases hk : k = k'
      · rw [if_pos hk, List.map_cons]
        exact List.nodup_cons.mpr ⟨hk', hrest⟩
      · rw [if_neg hk, List.map_cons]
        refine List.nodup_cons.mpr ⟨?_, ih hrest⟩
        intro hm
        rcases aupsert_keys_sub hm with h1 | h1
        · exact hk h1.symm
        · exact hk' h1

theorem aupsert_append_of_not_mem {α β : Type} [DecidableEq α] {k : α} {v : β} :
    ∀ {l : List (α × β)}, k ∉ l.map (fun kv => kv.1) → aupsert k v l = l ++ [(k, v)] := by
  intro l
  induction l with
  | nil => intro _; rfl
  | cons kv rest ih =>
    match kv with
    | (k', v') =>
      intro hk
      rw [List.map_cons] at hk
      rw [aupsert, if_neg (fun hEq => hk (by rw [hEq]; exact List.mem_cons_self _ _))]
      rw [ih (fun hm => hk (List.mem_cons_of_mem _ hm)), List.cons_append]

theorem importsAssoc_fold_inv :
    ∀ (imports : List CodePartition) (acc : List (ImportObj × CodePartition)),
      (∀ kv ∈ acc, import_obj_from_str kv.2.src = some kv.1) →
      ∀ kv ∈ imports.foldl
        (fun acc p =>
          match import_obj_from_str p.src with
          | some obj => aupsert obj p acc
          | none => acc) acc,
      import_obj_from_str kv.2.src = some kv.1 := by
  intro imports
  induction imports with
  | nil => intro acc hacc kv h; exact hacc kv h
  | cons q rest ih =>
    intro acc hacc kv h
    rw [List.foldl_cons] at h
    refine ih _ ?_ kv h
    intro kv' hkv'
    cases hq : import_obj_from_str q.src with
    | none =>
      rw [hq] at hkv'
      exact hacc kv' hkv'
    | some obj =>
      rw [hq] at hkv'
      dsimp only at hkv'
      rcases mem_aupsert hkv' with rfl | h2
      · exact hq
      · exact hacc kv' h2

theorem importsAssoc_inv {imports : List CodePartition} :
    ∀ kv ∈ importsAssoc imports, import_obj_from_str kv.2.src = some kv.1 := by
  intro kv h
  rw [importsAssoc] at h
  exact importsAssoc_fold_inv imports [] (fun kv' h' => absurd h' (List.not_mem_nil kv'))
    kv h

theorem importsAssoc_fold_keys_nodup :
    ∀ (imports : List CodePartition) (acc : List (ImportObj × CodePartition)),
      (acc.map (fun kv => kv.1)).Nodup →
      ((imports.foldl
        (fun acc p =>
          match import_obj_from_str p.src with
          | some obj => aupsert obj p acc
          | none => acc) acc).map (fun kv => kv.1)).Nodup := by
  intro imports
  induction imports with
  | nil => intro acc h; exact h
  | cons q rest ih =>
    intro acc hacc
    rw [List.foldl_cons]
    refine ih _ ?_
    cases hq : import_obj_from_str q.src with
    | none => exact hacc
    | some obj => exact aupsert_keys_nodup hacc

theorem importsAssoc_keys_nodup {imports : List CodePartition} :
    ((importsAssoc imports).map (fun kv => kv.1)).Nodup := by
  rw [importsAssoc]
  exact importsAssoc_fold_keys_nodup imports [] (by simp)

theorem importsAssoc_fold_fresh :
    ∀ (pairs acc : List (ImportObj × CodePartition)),
      (∀ kv ∈ pairs, import_obj_from_str kv.2.src = some kv.1) →
      (((acc ++ pairs).map (fun kv => kv.1)).Nodup) →
      (pairs.map (fun kv => kv.2)).foldl
        (fun acc p =>
          match import_obj_from_str p.src with
          | some obj => aupsert obj p acc
          | none => acc) acc = acc ++ pairs := by
  intro pairs
  induction pairs with
  | nil =>
    intro acc _ _
    rw [List.map_nil, List.foldl_nil, List.append_nil]
  | cons kv rest ih =>
    intro acc hinv hnd
    match kv with
    | (o, p) =>
      have hp : import_obj_from_str p.src = some o :=
        hinv (o, p) (List.mem_cons_self _ _)
      rw [List.map_cons]
      simp only [List.foldl_cons, hp]
      have hfresh : o ∉ acc.map (fun kv => kv.1) := by
        intro hm
        rw [List.map_append] at hnd
        have hdisj := (List.nodup_append.mp hnd).2.2
        exact hdisj hm (by rw [List.map_cons]; exact List.mem_cons_self _ _)
      rw [aupsert_append_of_not_mem hfresh]
      have hnd' : (((acc ++ [(o, p)]) ++ rest).map (fun kv => kv.1)).Nodup := by
        rw [show (acc ++ [(o, p)]) ++ rest = acc ++ (o, p) :: rest by simp]
        exact hnd
      rw [ih (acc ++ [(o, p)]) (fun kv' h' => hinv kv' (List.mem_cons_of_mem _ h')) hnd']
      simp

theorem importsAssoc_of_pairs (pairs : List (ImportObj × CodePartition))
    (hinv : ∀ kv ∈ pairs, import_obj_from_str kv.2.src = some kv.1)
    (hnd : (pairs.map (fun kv => kv.1)).Nodup) :
    importsAssoc (pairs.map (fun kv => kv.2)) = pairs := by
  rw [importsAssoc]
  have h := importsAssoc_fold_fresh pairs [] hinv (by rw [List.nil_append]; exact hnd)
  rw [h, List.nil_append]

theorem wordLe_total : ∀ (a b : List Char), wordLe a b = true ∨ wordLe b a = true := by
  intro a
  induction a with
  | nil => intro b; exact Or.inl rfl
  | cons x as ih =>
    intro b
    cases b with
    | nil => exact Or.inr rfl
    | cons y bs =>
      rw [wordLe, wordLe]
      by_cases hxy : x = y
      · subst hxy
        rw [if_pos rfl, if_pos rfl]
        exact ih bs
      · rw [if_neg hxy, if_neg (fun hEq => hxy hEq.symm)]
        rcases Nat.lt_or_ge x.toNat y.toNat with h | h
        · exact Or.inl (by simp [h])
        · have hne : x.toNat ≠ y.toNat :=
            fun hEq => hxy (Char.eq_of_val_eq (UInt32.toNat.inj hEq))
          have hlt : y.toNat < x.toNat := Nat.lt_of_le_of_ne h (fun hEq => hne hEq.symm)
          exact Or.inr (by simp [hlt])

theorem sortLe_total (settings : Settings) (a b : ImportObj) :
    (settings.classify (objModulePath a) < settings.classify (objModulePath b) ||
      (settings.classify (objModulePath a) = settings.classify (objModulePath b) &&
        wordLe (objSortStr a) (objSortStr b)) : Bool) = true ∨
    (settings.classify (objModulePath b) < settings.classify (objModulePath a) ||
      (settings.classify (objModulePath b) = settings.classify (objModulePath a) &&
        wordLe (objSortStr b) (objSortStr a)) : Bool) = true := by
  rcases Nat.lt_trichotomy (settings.classify (objModulePath a))
      (settings.classify (objModulePath b)) with h | h | h
  · left
    simp [h]
  · rcases wordLe_total (objSortStr a) (objSortStr b) with hw | hw
    · left
      simp [h, hw]
    · right
      simp [h.symm, hw]
  · right
    simp [h]

theorem insertLe_chain {α : Type} (le : α → α → Bool)
    (htot : ∀ a b, le a b = true ∨ le b a = true) (x : α) :
    ∀ {l : List α}, List.Chain' (fun a b => le a b = true) l →
      List.Chain' (fun a b => le a b = true) (insertLe le x l) := by
  intro l
  induction l with
  | nil => intro _; exact List.chain'_singleton x
  | cons y rest ih =>
    intro hch
    rw [insertLe]
    by_cases hxy : le x y = true
    · rw [if_pos hxy]
      exact List.chain'_cons.mpr ⟨hxy, hch⟩
    · rw [if_neg hxy]
      have hyx : le y x = true := (htot x y).resolve_left hxy
      have hch' := ih hch.tail
      cases rest with
      | nil => exact List.chain'_cons.mpr ⟨hyx, List.chain'_singleton x⟩
      | cons z rest' =>
        rw [insertLe] at hch' ⊢
        by_cases hxz : le x z = true
        · rw [if_pos hxz] at hch' ⊢
          exact List.chain'_cons.mpr ⟨hyx, hch'⟩
        · rw [if_neg hxz] at hch' ⊢
          exact List.chain'_cons.mpr ⟨(List.chain'_cons.mp hch).1, hch'⟩

theorem insertionSort_chain {α : Type} (le : α → α → Bool)
    (htot : ∀ a b, le a b = true ∨ le b a = true) :
    ∀ l : List α, List.Chain' (fun a b => le a b = true) (insertionSort le l) := by
  intro l
  induction l with
  | nil => exact List.chain'_nil
  | cons x rest ih =>
    rw [insertionSort]
    exact insertLe_chain le htot x ih

theorem insertionSort_of_chain {α : Type} (le : α → α → Bool) :
    ∀ {l : List α}, List.Chain' (fun a b => le a b = true) l → insertionSort le l = l := by
  intro l
  induction l with
  | nil => intro _; rfl
  | cons x rest ih =>
    intro hch
    rw [insertionSort, ih hch.tail]
    cases rest with
    | nil => rfl
    | cons y rest' =>
      rw [insertLe, if_pos (List.chain'_cons.mp hch).1]

theorem insertLe_perm {α : Type} (le : α → α → Bool) (x : α) :
    ∀ l : List α, List.Perm (insertLe le x l) (x :: l) := by
  intro l
  induction l with
  | nil => exact List.Perm.refl _
  | cons y rest ih =>
    rw [insertLe]
    by_cases hxy : le x y = true
    · rw [if_pos hxy]
    · rw [if_neg hxy]
      exact (List.Perm.cons y ih).trans (List.Perm.swap x y rest)

theorem insertionSort_perm {α : Type} (le : α → α → Bool) :
    ∀ l : List α, List.Perm (insertionSort le l) l := by
  intro l
  induction l with
  | nil => exact List.Perm.refl _
  | cons x rest ih =>
    rw [insertionSort]
    exact (insertLe_perm le x _).trans (List.Perm.cons x ih)

theorem groupRuns_flatten (cls : ImportObj → Nat) :
    ∀ l : List ImportObj, (groupRuns cls l).flatten = l := by
  intro l
  induction l with
  | nil => rfl
  | cons x rest ih =>
    rw [groupRuns]
    cases hgr : groupRuns cls rest with
    | nil =>
      rw [hgr] at ih
      have hrest : rest = [] := ih.symm
      subst hrest
      rfl
    | cons blk blocks =>
      rw [hgr] at ih
      cases blk with
      | nil =>
        dsimp only
        rw [List.flatten_cons, ← ih, List.flatten_cons]
        rfl
      | cons y ys =>
        dsimp only
        by_cases hcls : cls x = cls y
        · rw [if_pos hcls]
          rw [List.flatten_cons, ← ih, List.flatten_cons]
          rfl
        · rw [if_neg hcls]
          rw [List.flatten_cons, ← ih, List.flatten_cons]
          rfl

theorem groupRuns_ne_nil (cls : ImportObj → Nat) :
    ∀ l : List ImportObj, [] ∉ groupRuns cls l := by
  intro l
  induction l with
  | nil => simp [groupRuns]
  | cons x rest ih =>
    rw [groupRuns]
    cases hgr : groupRuns cls rest with
    | nil =>
      intro hm
      rcases List.mem_singleton.mp hm with h
      cases h
    | cons blk blocks =>
      rw [hgr] at ih
      cases blk with
      | nil => exact absurd (List.mem_cons_self _ _) ih
      | cons y ys =>
        dsimp only
        by_cases hcls : cls x = cls y
        · rw [if_pos hcls]
          intro hm
          rcases List.mem_cons.mp hm with h | h
          · cases h
          · exact ih (List.mem_cons_of_mem _ h)
        · rw [if_neg hcls]
          intro hm
          rcases List.mem_cons.mp hm with h | h
          · cases h
          · exact ih h

theorem apply_import_sorting_eq (partitions : List CodePartition) (settings : Settings) :
    apply_import_sorting partitions settings =
      partitions.filter (fun p => p.code_type = CodeType.PRE_IMPORT_CODE) ++
        newImports (importsAssoc
          ((partitions.filter (fun p => p.code_type = CodeType.IMPORT)).map fun p =>
            if endsWith ['\n'] p.src then p else ⟨.IMPORT, p.src ++ ['\n']⟩)) settings ++
        (if (pyRstrip (partitionsToSrc
              (partitions.filter (fun p => p.code_type = CodeType.CODE)))).isEmpty then []
         else [⟨.CODE, pyRstrip (partitionsToSrc
              (partitions.filter (fun p => p.code_type = CodeType.CODE))) ++ ['\n']⟩]) := rfl

theorem sortModel_eq (settings : Settings) (objs : List ImportObj) :
    sortModel settings objs =
      groupRuns (fun o => settings.classify (objModulePath o))
        (insertionSort (sortLe settings) objs) := rfl

theorem sortLe_tot (settings : Settings) :
    ∀ a b : ImportObj, sortLe settings a b = true ∨ sortLe settings b a = true :=
  fun a b => sortLe_total settings a b

theorem getLastD_mem {α : Type} (l : List α) (d : α) (h : l ≠ []) : l.getLastD d ∈ l := by
  cases l with
  | nil => exact absurd rfl h
  | cons a r =>
    rw [List.getLastD_eq_getLast?, List.getLast?_eq_getLast _ (List.cons_ne_nil a r)]
    exact List.getLast_mem _

theorem alookup_succeeds {α β : Type} [DecidableEq α] {k : α} :
    ∀ {l : List (α × β)}, k ∈ l.map (fun kv => kv.1) → ∃ v, alookup k l = some v := by
  intro l
  induction l with
  | nil => intro h; exact absurd h (List.not_mem_nil k)
  | cons kv rest ih =>
    match kv with
    | (k', v') =>
      intro h
      rw [alookup]
      by_cases hk : k = k'
      · exact ⟨v', by rw [if_pos hk]⟩
      · rw [if_neg hk]
        refine ih ?_
        rw [List.map_cons] at h
        rcases List.mem_cons.mp h with h1 | h1
        · exact absurd h1 hk
        · exact h1

theorem lookup_values_mem (assoc : List (ImportObj × CodePartition)) (b : List ImportObj) :
    ∀ p ∈ b.filterMap (fun o => alookup o assoc), ∃ kv ∈ assoc, p = kv.2 := by
  intro p hp
  obtain ⟨o, _, hlk⟩ := List.mem_filterMap.mp hp
  exact ⟨(o, p), alookup_mem hlk, rfl⟩

theorem flatMap_sep_decomp (g : List ImportObj → List CodePartition) :
    ∀ blocks : List (List ImportObj), blocks ≠ [] →
      ∃ L b, b ∈ blocks ∧
        (blocks.flatMap fun blk => g blk ++ [(⟨.NON_CODE, ['\n']⟩ : CodePartition)]) =
          (L ++ g b) ++ [⟨.NON_CODE, ['\n']⟩] := by
  intro blocks
  induction blocks with
  | nil => intro h; exact absurd rfl h
  | cons b rest ih =>
    intro _
    cases rest with
    | nil =>
      refine ⟨[], b, List.mem_cons_self _ _, ?_⟩
      rw [List.flatMap_cons, List.flatMap_nil, List.append_nil, List.nil_append]
    | cons b2 rest' =>
      obtain ⟨L, bb, hbb, hEq⟩ := ih (List.cons_ne_nil _ _)
      refine ⟨g b ++ [⟨.NON_CODE, ['\n']⟩] ++ L, bb, List.mem_cons_of_mem _ hbb, ?_⟩
      rw [List.flatMap_cons, hEq]
      simp [List.append_assoc]

theorem flatMap_sep_filter (pr : CodePartition → Bool)
    (hsep : pr ⟨.NON_CODE, ['\n']⟩ = false) (g : List ImportObj → List CodePartition) :
    ∀ blocks : List (List ImportObj),
      (blocks.flatMap fun blk =>
        g blk ++ [(⟨.NON_CODE, ['\n']⟩ : CodePartition)]).filter pr =
        blocks.flatMap fun blk => (g blk).filter pr := by
  intro blocks
  induction blocks with
  | nil => rfl
  | cons b rest ih =>
    rw [List.flatMap_cons, List.flatMap_cons, List.filter_append, List.filter_append, ih]
    rw [show List.filter pr [(⟨.NON_CODE, ['\n']⟩ : CodePartition)] = [] by
      rw [List.filter_cons, hsep]; rfl]
    rw [List.append_nil]

theorem flatMap_sep_filterMap (φ : CodePartition → Option ImportObj)
    (hsep : φ ⟨.NON_CODE, ['\n']⟩ = none) (g : List ImportObj → List CodePartition) :
    ∀ blocks : List (List ImportObj),
      (blocks.flatMap fun blk =>
        g blk ++ [(⟨.NON_CODE, ['\n']⟩ : CodePartition)]).filterMap φ =
        blocks.flatMap fun blk => (g blk).filterMap φ := by
  intro blocks
  induction blocks with
  | nil => rfl
  | cons b rest ih =>
    rw [List.flatMap_cons, List.flatMap_cons, List.filterMap_append _ _ _,
      List.filterMap_append _ _ _, ih]
    rw [show List.filterMap φ [(⟨.NON_CODE, ['\n']⟩ : CodePartition)] = [] by
      rw [List.filterMap_cons, hsep]; rfl]
    rw [List.append_nil]

theorem insertionSort_ne_nil {α : Type} (le : α → α → Bool) {l : List α} (h : l ≠ []) :
    insertionSort le l ≠ [] := by
  intro hs
  have hp := insertionSort_perm le l
  rw [hs] at hp
  exact h hp.symm.eq_nil

theorem groupRuns_ne_nil_of (cls : ImportObj → Nat) {l : List ImportObj} (h : l ≠ []) :
    groupRuns cls l ≠ [] := by
  cases l with
  | nil => exact absurd rfl h
  | cons x rest =>
    rw [groupRuns]
    cases hgr : groupRuns cls rest with
    | nil => simp
    | cons blk blocks =>
      cases blk with
      | nil => simp
      | cons y ys =>
        dsimp only
        by_cases hc : cls x = cls y
        · rw [if_pos hc]
          simp
        · rw [if_neg hc]
          simp

theorem sortModel_ne_nil (settings : Settings) {objs : List ImportObj} (h : objs ≠ []) :
    sortModel settings objs ≠ [] := by
  rw [sortModel_eq]
  exact groupRuns_ne_nil_of _ (insertionSort_ne_nil _ h)

theorem newImports_eq_X (assoc : List (ImportObj × CodePartition)) (settings : Settings)
    (hne : assoc ≠ []) :
    (sortModel settings (assoc.map (fun kv => kv.1))).flatMap (fun block =>
      (block.filterMap fun obj => alookup obj assoc) ++ [(⟨.NON_CODE, ['\n']⟩ : CodePartition)])
      = newImports assoc settings ++ [⟨.NON_CODE, ['\n']⟩] := by
  have hkeys : assoc.map (fun kv => kv.1) ≠ [] := by
    cases assoc with
    | nil => exact absurd rfl hne
    | cons kv rest => simp
  obtain ⟨L, b, _, hEq⟩ := flatMap_sep_decomp
    (fun block => block.filterMap fun obj => alookup obj assoc)
    (sortModel settings (assoc.map (fun kv => kv.1))) (sortModel_ne_nil settings hkeys)
  rw [newImports, hEq, List.dropLast_concat]

theorem newImports_mem (assoc : List (ImportObj × CodePartition)) (settings : Settings) :
    ∀ p ∈ newImports assoc settings,
      (∃ kv ∈ assoc, p = kv.2) ∨ p = ⟨.NON_CODE, ['\n']⟩ := by
  intro p hp
  rw [newImports] at hp
  have hx := (List.dropLast_sublist _).subset hp
  obtain ⟨b, _, hpb⟩ := List.mem_flatMap.mp hx
  rcases List.mem_append.mp hpb with h1 | h1
  · exact Or.inl (lookup_values_mem assoc b p h1)
  · exact Or.inr (List.mem_singleton.mp h1)

theorem flatMap_congr_mem {α β : Type} (f g : α → List β) :
    ∀ l : List α, (∀ a ∈ l, f a = g a) → l.flatMap f = l.flatMap g := by
  intro l
  induction l with
  | nil => intro _; rfl
  | cons a rest ih =>
    intro h
    rw [List.flatMap_cons, List.flatMap_cons, h a (List.mem_cons_self _ _),
      ih (fun a' ha' => h a' (List.mem_cons_of_mem _ ha'))]

theorem flatMap_id_flatten {α : Type} :
    ∀ L : List (List α), L.flatMap (fun b => b) = L.flatten := by
  intro L
  induction L with
  | nil => rfl
  | cons b rest ih => rw [List.flatMap_cons, List.flatten_cons, ih]

theorem flatMap_filterMap_flatten {α β : Type} (f : α → Option β) :
    ∀ L : List (List α), L.flatMap (fun b => b.filterMap f) = L.flatten.filterMap f := by
  intro L
  induction L with
  | nil => rfl
  | cons b rest ih =>
    rw [List.flatMap_cons, List.flatten_cons, List.filterMap_append _ _ _, ih]

theorem newImports_filter (assoc : List (ImportObj × CodePartition)) (settings : Settings)
    (pr : CodePartition → Bool) (hsep : pr ⟨.NON_CODE, ['\n']⟩ = false) :
    (newImports assoc settings).filter pr =
      (sortModel settings (assoc.map (fun kv => kv.1))).flatMap fun block =>
        (block.filterMap fun obj => alookup obj assoc).filter pr := by
  by_cases hne : assoc = []
  · subst hne
    rfl
  · have h1 := flatMap_sep_filter pr hsep
      (fun block => block.filterMap fun obj => alookup obj assoc)
      (sortModel settings (assoc.map (fun kv => kv.1)))
    rw [newImports_eq_X assoc settings hne, List.filter_append] at h1
    rw [show List.filter pr [(⟨.NON_CODE, ['\n']⟩ : CodePartition)] = [] by
      rw [List.filter_cons, hsep]; rfl, List.append_nil] at h1
    exact h1

theorem newImports_filterMap (assoc : List (ImportObj × CodePartition)) (settings : Settings)
    (φ : CodePartition → Option ImportObj) (hsep : φ ⟨.NON_CODE, ['\n']⟩ = none) :
    (newImports assoc settings).filterMap φ =
      (sortModel settings (assoc.map (fun kv => kv.1))).flatMap fun block =>
        (block.filterMap fun obj => alookup obj assoc).filterMap φ := by
  by_cases hne : assoc = []
  · subst hne
    rfl
  · have h1 := flatMap_sep_filterMap φ hsep
      (fun block => block.filterMap fun obj => alookup obj assoc)
      (sortModel settings (assoc.map (fun kv => kv.1)))
    rw [newImports_eq_X assoc settings hne, List.filterMap_append _ _ _] at h1
    rw [show List.filterMap φ [(⟨.NON_CODE, ['\n']⟩ : CodePartition)] = [] by
      rw [List.filterMap_cons, hsep]; rfl, List.append_nil] at h1
    exact h1

theorem partObjs_lookups (assoc : List (ImportObj × CodePartition))
    (hinv : ∀ kv ∈ assoc, import_obj_from_str kv.2.src = some kv.1)
    (hct : ∀ kv ∈ assoc, kv.2.code_type = CodeType.IMPORT) :
    ∀ b : List ImportObj, (∀ o ∈ b, ∃ v, alookup o assoc = some v) →
      partObjs (b.filterMap fun o => alookup o assoc) = b := by
  intro b
  induction b with
  | nil => intro _; rfl
  | cons o rest ih =>
    intro h
    obtain ⟨v, hv⟩ := h o (List.mem_cons_self _ _)
    have hmem : (o, v) ∈ assoc := alookup_mem hv
    rw [List.filterMap_cons, hv]
    dsimp only
    rw [partObjs, List.filterMap_cons, if_pos (hct (o, v) hmem), hinv (o, v) hmem]
    dsimp only
    exact congrArg (o :: ·) (ih (fun o' ho' => h o' (List.mem_cons_of_mem _ ho')))

theorem partObjs_nonimport :
    ∀ ps : List CodePartition, (∀ p ∈ ps, ¬p.code_type = CodeType.IMPORT) →
      partObjs ps = [] := by
  intro ps
  induction ps with
  | nil => intro _; rfl
  | cons p rest ih =>
    intro h
    rw [partObjs, List.filterMap_cons, if_neg (h p (List.mem_cons_self _ _))]
    exact ih (fun q hq => h q (List.mem_cons_of_mem _ hq))

theorem partObjs_append (l₁ l₂ : List CodePartition) :
    partObjs (l₁ ++ l₂) = partObjs l₁ ++ partObjs l₂ := by
  simp only [partObjs]
  exact List.filterMap_append _ _ _

theorem newImports_partObjs (assoc : List (ImportObj × CodePartition)) (settings : Settings)
    (hinv : ∀ kv ∈ assoc, import_obj_from_str kv.2.src = some kv.1)
    (hct : ∀ kv ∈ assoc, kv.2.code_type = CodeType.IMPORT) :
    partObjs (newImports assoc settings) =
      insertionSort (sortLe settings) (assoc.map (fun kv => kv.1)) := by
  have hφ : (fun p : CodePartition =>
      if p.code_type = CodeType.IMPORT then import_obj_from_str p.src else none)
        ⟨.NON_CODE, ['\n']⟩ = none := by decide
  have h1 := newImports_filterMap assoc settings
    (fun p => if p.code_type = CodeType.IMPORT then import_obj_from_str p.src else none) hφ
  rw [partObjs, h1]
  have hsub : ∀ b ∈ sortModel settings (assoc.map (fun kv => kv.1)),
      ∀ o ∈ b, ∃ v, alookup o assoc = some v := by
    intro b hb o ho
    refine alookup_succeeds ?_
    have hfl : o ∈ (sortModel settings (assoc.map (fun kv => kv.1))).flatten :=
      List.mem_flatten.mpr ⟨b, hb, ho⟩
    rw [sortModel_eq, groupRuns_flatten] at hfl
    exact (insertionSort_perm _ _).subset hfl
  have h2 := flatMap_congr_mem
    (fun b => (b.filterMap fun o => alookup o assoc).filterMap
      (fun p : CodePartition =>
        if p.code_type = CodeType.IMPORT then import_obj_from_str p.src else none))
    (fun b => b) (sortModel settings (assoc.map (fun kv => kv.1)))
    (fun b hb => by
      have := partObjs_lookups assoc hinv hct b (hsub b hb)
      rw [partObjs] at this
      exact this)
  rw [h2, flatMap_id_flatten, sortModel_eq, groupRuns_flatten]

theorem newImports_filter_IMPORT (assoc : List (ImportObj × CodePartition))
    (settings : Settings)
    (hct : ∀ kv ∈ assoc, kv.2.code_type = CodeType.IMPORT) :
    (newImports assoc settings).filter (fun p => p.code_type = CodeType.IMPORT) =
      (insertionSort (sortLe settings) (assoc.map (fun kv => kv.1))).filterMap
        fun o => alookup o assoc := by
  have h1 := newImports_filter assoc settings
    (fun p => decide (p.code_type = CodeType.IMPORT)) (by decide)
  rw [h1]
  have h2 := flatMap_congr_mem
    (fun b : List ImportObj =>
      (b.filterMap fun o => alookup o assoc).filter
        (fun p => decide (p.code_type = CodeType.IMPORT)))
    (fun b : List ImportObj => b.filterMap fun o => alookup o assoc)
    (sortModel settings (assoc.map (fun kv => kv.1)))
    (fun b _ => by
      refine List.filter_eq_self.mpr ?_
      intro p hp
      obtain ⟨kv, hkv, rfl⟩ := lookup_values_mem assoc b p hp
      rw [hct kv hkv]
      rfl)
  rw [h2, flatMap_filterMap_flatten, sortModel_eq, groupRuns_flatten]

theorem newImports_last (assoc : List (ImportObj × CodePartition)) (settings : Settings)
    (hne : assoc ≠ []) :
    ∃ NI' v, (∃ kv ∈ assoc, v = kv.2) ∧
      newImports assoc settings = NI' ++ [v] := by
  have hkeys : assoc.map (fun kv => kv.1) ≠ [] := by
    cases assoc with
    | nil => exact absurd rfl hne
    | cons kv rest => simp
  obtain ⟨L, b, hb, hEq⟩ := flatMap_sep_decomp
    (fun block => block.filterMap fun obj => alookup obj assoc)
    (sortModel settings (assoc.map (fun kv => kv.1))) (sortModel_ne_nil settings hkeys)
  have hbne : b ≠ [] := by
    intro hbnil
    exact groupRuns_ne_nil _ _ (by rw [sortModel_eq] at hb; exact hbnil ▸ hb)
  have hlkne : (b.filterMap fun obj => alookup obj assoc) ≠ [] := by
    cases b with
    | nil => exact absurd rfl hbne
    | cons o rest =>
      have ho : ∃ v, alookup o assoc = some v := by
        refine alookup_succeeds ?_
        have hfl : o ∈ (sortModel settings (assoc.map (fun kv => kv.1))).flatten :=
          List.mem_flatten.mpr ⟨_, hb, List.mem_cons_self _ _⟩
        rw [sortModel_eq, groupRuns_flatten] at hfl
        exact (insertionSort_perm _ _).subset hfl
      obtain ⟨v, hv⟩ := ho
      rw [List.filterMap_cons, hv]
      exact List.cons_ne_nil _ _
  rcases List.eq_nil_or_concat (b.filterMap fun obj => alookup obj assoc) with hnil | hcat
  · exact absurd hnil hlkne
  · obtain ⟨lk', v, hlk⟩ := hcat
    refine ⟨L ++ lk', v, ?_, ?_⟩
    · refine lookup_values_mem assoc b v ?_
      rw [hlk, List.concat_eq_append]
      exact List.mem_append.mpr (Or.inr (List.mem_singleton.mpr rfl))
    · rw [newImports, hEq, List.dropLast_concat, hlk, List.concat_eq_append,
        ← List.append_assoc]

theorem combine_nil : combine_trailing_code_chunks [] = [] := by decide

theorem combine_id_concat (ps : List CodePartition) (a : CodePartition)
    (ha : nonCombinable a.code_type = true) :
    combine_trailing_code_chunks (ps ++ [a]) = ps ++ [a] := by
  rw [combine_trailing_code_chunks]
  simp only [List.reverse_append, List.reverse_singleton, List.singleton_append]
  rw [show List.takeWhile (fun c => !nonCombinable c.code_type) (a :: ps.reverse) = [] by
    rw [List.takeWhile_cons, ha]; rfl]
  rw [if_pos (show (List.isEmpty ([] : List CodePartition)) = true from rfl)]

theorem combine_id_code_concat (F : List CodePartition) (s : List Char)
    (hF : F = [] ∨ ∃ F' a, F = F' ++ [a] ∧ nonCombinable a.code_type = true) :
    combine_trailing_code_chunks (F ++ [⟨.CODE, s⟩]) = F ++ [⟨.CODE, s⟩] := by
  rw [combine_trailing_code_chunks]
  simp only [List.reverse_append, List.reverse_singleton, List.singleton_append]
  rw [show List.takeWhile (fun c => !nonCombinable c.code_type)
        ((⟨.CODE, s⟩ : CodePartition) :: F.reverse) =
      ⟨.CODE, s⟩ :: List.takeWhile (fun c => !nonCombinable c.code_type) F.reverse by
    rw [List.takeWhile_cons]; rfl]
  rw [show List.dropWhile (fun c => !nonCombinable c.code_type)
        ((⟨.CODE, s⟩ : CodePartition) :: F.reverse) =
      List.dropWhile (fun c => !nonCombinable c.code_type) F.reverse by
    rw [List.dropWhile_cons]; rfl]
  rcases hF with rfl | ⟨F', a, rfl, ha⟩
  · rw [show List.takeWhile (fun c => !nonCombinable c.code_type)
        (List.reverse ([] : List CodePartition)) = [] from rfl]
    rw [show List.dropWhile (fun c => !nonCombinable c.code_type)
        (List.reverse ([] : List CodePartition)) = [] from rfl]
    simp only [List.isEmpty_cons, Bool.false_eq_true, if_false]
    simp [partitionsToSrc]
  · simp only [List.reverse_append, List.reverse_singleton, List.singleton_append]
    rw [show List.takeWhile (fun c => !nonCombinable c.code_type) (a :: F'.reverse) = [] by
      rw [List.takeWhile_cons, ha]; rfl]
    rw [show List.dropWhile (fun c => !nonCombinable c.code_type) (a :: F'.reverse) =
        a :: F'.reverse by
      rw [List.dropWhile_cons, ha]; rfl]
    simp only [List.isEmpty_cons, Bool.false_eq_true, if_false]
    simp [partitionsToSrc]

theorem add_id_of_nl {ps : List CodePartition}
    (h : ∀ p ∈ ps, endsWith ['\n'] p.src = true) : add_imports ps [] = ps := by
  rw [add_imports]
  by_cases hs : (pyStrip (partitionsToSrc ps)).isEmpty = true
  · rw [if_pos hs]
  · rw [if_neg hs]
    have hne : ps ≠ [] := by
      rintro rfl
      exact hs (by decide)
    dsimp only
    rw [if_pos (h _ (getLastD_mem ps ⟨.CODE, []⟩ hne))]
    rw [List.map_nil, List.append_nil]

theorem separate_id_of (ps : List CodePartition)
    (h : ∀ p ∈ ps, p.code_type = CodeType.IMPORT →
      ∀ o, import_obj_from_str p.src = some o → objIsMultiple o = false) :
    separate_comma_imports ps = ps := by
  induction ps with
  | nil => rfl
  | cons p rest ih =>
    rw [separate_comma_imports, List.flatMap_cons]
    have htail : separate_comma_imports rest = rest :=
      ih (fun q hq hqt o ho => h q (List.mem_cons_of_mem _ hq) hqt o ho)
    rw [separate_comma_imports] at htail
    rw [htail]
    by_cases hct : p.code_type = CodeType.IMPORT
    · rw [if_pos hct]
      cases hobj : import_obj_from_str p.src with
      | none => rfl
      | some obj =>
        dsimp only
        simp only [h p (List.mem_cons_self _ _) hct obj hobj, Bool.false_eq_true, if_false]
        rfl
    · rw [if_neg hct]
      rfl

theorem rdiPass1_keeps_all :
    ∀ (parts : List CodePartition) (seen : List ImportObj) (smn : List (List Char)),
      (partObjs parts).Nodup →
      (∀ o ∈ partObjs parts, memB o seen = false) →
      (rdiPass1 seen smn parts).1 = parts := by
  intro parts
  induction parts with
  | nil => intro seen smn _ _; rfl
  | cons p rest ih =>
    intro seen smn hnd hfresh
    rw [rdiPass1]
    by_cases hct : p.code_type = CodeType.IMPORT
    · rw [if_pos hct]
      cases hobj : import_obj_from_str p.src with
      | none =>
        have hpo : partObjs (p :: rest) = partObjs rest := by
          rw [partObjs, List.filterMap_cons, if_pos hct, hobj]
          rfl
        rw [hpo] at hnd hfresh
        exact congrArg (p :: ·) (ih seen smn hnd hfresh)
      | some obj =>
        have hpo : partObjs (p :: rest) = obj :: partObjs rest := by
          rw [partObjs, List.filterMap_cons, if_pos hct, hobj]
          rfl
        rw [hpo] at hnd hfresh
        simp only [hfresh obj (List.mem_cons_self _ _), Bool.false_eq_true, if_false]
        refine congrArg (p :: ·) (ih _ _ (List.nodup_cons.mp hnd).2 ?_)
        intro o ho
        rw [memB]
        have h1 : o ≠ obj := fun hEq => (List.nodup_cons.mp hnd).1 (hEq ▸ ho)
        rw [hfresh o (List.mem_cons_of_mem _ ho)]
        simp [h1]
    · rw [if_neg hct]
      have hpo : partObjs (p :: rest) = partObjs rest := by
        rw [partObjs, List.filterMap_cons, if_neg hct]
        rfl
      rw [hpo] at hnd hfresh
      exact congrArg (p :: ·) (ih seen smn hnd hfresh)

theorem filterMap_alookup_pairs {α β : Type} [DecidableEq α] (assoc : List (α × β)) :
    ∀ l : List α, (∀ o ∈ l, ∃ v, alookup o assoc = some v) →
      ∃ pairs : List (α × β),
        pairs.map (fun kv => kv.1) = l ∧
        pairs.map (fun kv => kv.2) = l.filterMap (fun o => alookup o assoc) ∧
        ∀ kv ∈ pairs, alookup kv.1 assoc = some kv.2 := by
  intro l
  induction l with
  | nil => exact fun _ => ⟨[], rfl, rfl, fun kv h => absurd h (List.not_mem_nil kv)⟩
  | cons o rest ih =>
    intro h
    obtain ⟨v, hv⟩ := h o (List.mem_cons_self _ _)
    obtain ⟨pairs, h1, h2, h3⟩ := ih (fun o' ho' => h o' (List.mem_cons_of_mem _ ho'))
    refine ⟨(o, v) :: pairs, ?_, ?_, ?_⟩
    · rw [List.map_cons, h1]
    · rw [List.filterMap_cons, hv]
      dsimp only
      rw [List.map_cons, h2]
    · intro kv hkv
      rcases List.mem_cons.mp hkv with rfl | h'
      · exact hv
      · exact h3 kv h'

theorem stages_id_core (assoc : List (ImportObj × CodePartition))
    (pre RP : List CodePartition) (settings : Settings)
    (hinv : ∀ kv ∈ assoc, import_obj_from_str kv.2.src = some kv.1)
    (hnd : (assoc.map (fun kv => kv.1)).Nodup)
    (hct : ∀ kv ∈ assoc, kv.2.code_type = CodeType.IMPORT)
    (hnl : ∀ kv ∈ assoc, endsWith ['\n'] kv.2.src = true)
    (hsingle : ∀ kv ∈ assoc, objIsMultiple kv.1 = false)
    (hsurv : ∀ kv ∈ assoc, isUnaliasedImp kv.1 = true →
      ∀ kv' ∈ assoc, isUnaliasedImp kv'.1 = true →
        objModulePath kv.1 ∉ moduleToBaseModules (objModulePath kv'.1))
    (hpreT : ∀ p ∈ pre, p.code_type = CodeType.PRE_IMPORT_CODE)
    (hpreNl : ∀ p ∈ pre, endsWith ['\n'] p.src = true)
    (hRP : RP = [] ∨ ∃ s, pyRstrip s = s ∧ s.isEmpty = false ∧
      RP = [⟨CodeType.CODE, s ++ ['\n']⟩]) :
    apply_import_sorting (remove_duplicated_imports (replace_imports (remove_imports
      (separate_comma_imports (add_imports (combine_trailing_code_chunks
        (pre ++ newImports assoc settings ++ RP)) [])) []) ⟨[], []⟩)) settings =
      pre ++ newImports assoc settings ++ RP := by
  have hNImem := newImports_mem assoc settings
  have hNIct : ∀ p ∈ newImports assoc settings,
      p.code_type = CodeType.IMPORT ∨ p = ⟨.NON_CODE, ['\n']⟩ := by
    intro p hp
    rcases hNImem p hp with ⟨kv, hkv, rfl⟩ | rfl
    · exact Or.inl (hct kv hkv)
    · exact Or.inr rfl
  have hNInl : ∀ p ∈ newImports assoc settings, endsWith ['\n'] p.src = true := by
    intro p hp
    rcases hNImem p hp with ⟨kv, hkv, rfl⟩ | rfl
    · exact hnl kv hkv
    · decide
  have hRPct : ∀ p ∈ RP, p.code_type = CodeType.CODE := by
    rcases hRP with rfl | ⟨s, _, _, rfl⟩
    · intro p hp
      exact absurd hp (List.not_mem_nil p)
    · intro p hp
      rcases List.mem_singleton.mp hp with rfl
      rfl
  have hRPnl : ∀ p ∈ RP, endsWith ['\n'] p.src = true := by
    rcases hRP with rfl | ⟨s, _, _, rfl⟩
    · intro p hp
      exact absurd hp (List.not_mem_nil p)
    · intro p hp
      rcases List.mem_singleton.mp hp with rfl
      exact endsWith_append_self ['\n'] s
  have hQnl : ∀ p ∈ pre ++ newImports assoc settings ++ RP,
      endsWith ['\n'] p.src = true := by
    intro p hp
    rcases List.mem_append.mp hp with h1 | h1
    · rcases List.mem_append.mp h1 with h2 | h2
      · exact hpreNl p h2
      · exact hNInl p h2
    · exact hRPnl p h1
  have hfront : pre ++ newImports assoc settings = [] ∨
      ∃ F' a, pre ++ newImports assoc settings = F' ++ [a] ∧
        nonCombinable a.code_type = true := by
    by_cases hA : assoc = []
    · subst hA
      rw [show newImports [] settings = [] from rfl, List.append_nil]
      rcases List.eq_nil_or_concat pre with hnil | ⟨pre', a, hcat⟩
      · exact Or.inl hnil
      · rw [List.concat_eq_append] at hcat
        refine Or.inr ⟨pre', a, hcat, ?_⟩
        have ha : a.code_type = CodeType.PRE_IMPORT_CODE :=
          hpreT a (by
            rw [hcat]
            exact List.mem_append.mpr (Or.inr (List.mem_singleton.mpr rfl)))
        rw [nonCombinable, ha]
        rfl
    · obtain ⟨NI', v, ⟨kv, hkv, hveq⟩, hNIeq⟩ := newImports_last assoc settings hA
      refine Or.inr ⟨pre ++ NI', v, by rw [hNIeq, List.append_assoc], ?_⟩
      rw [hveq, nonCombinable, hct kv hkv]
      rfl
  have hcomb : combine_trailing_code_chunks (pre ++ newImports assoc settings ++ RP) =
      pre ++ newImports assoc settings ++ RP := by
    rcases hRP with rfl | ⟨s, hsr, hsne, rfl⟩
    · rw [List.append_nil]
      rcases hfront with hnil | ⟨F', a, hEq, ha⟩
      · rw [hnil]
        exact combine_nil
      · rw [hEq]
        exact combine_id_concat F' a ha
    · exact combine_id_code_concat (pre ++ newImports assoc settings) (s ++ ['\n']) hfront
  have hadd : add_imports (pre ++ newImports assoc settings ++ RP) [] =
      pre ++ newImports assoc settings ++ RP := add_id_of_nl hQnl
  have hsepid : separate_comma_imports (pre ++ newImports assoc settings ++ RP) =
      pre ++ newImports assoc settings ++ RP := by
    refine separate_id_of _ ?_
    intro p hp hpct o ho
    rcases List.mem_append.mp hp with h1 | h1
    · rcases List.mem_append.mp h1 with h2 | h2
      · rw [hpreT p h2] at hpct
        exact absurd hpct (by decide)
      · rcases hNImem p h2 with ⟨kv, hkv, rfl⟩ | rfl
        · rw [hinv kv hkv] at ho
          rw [← Option.some.inj ho]
          exact hsingle kv hkv
        · exact absurd hpct (by decide)
    · rw [hRPct p h1] at hpct
      exact absurd hpct (by decide)
  have hobjs : partObjs (pre ++ newImports assoc settings ++ RP) =
      insertionSort (sortLe settings) (assoc.map (fun kv => kv.1)) := by
    rw [partObjs_append, partObjs_append]
    rw [partObjs_nonimport pre (fun p hp => by rw [hpreT p hp]; decide)]
    rw [partObjs_nonimport RP (fun p hp => by rw [hRPct p hp]; decide)]
    rw [newImports_partObjs assoc settings hinv hct]
    rw [List.nil_append, List.append_nil]
  have hsorted_nodup : (insertionSort (sortLe settings) (assoc.map (fun kv => kv.1))).Nodup :=
    (insertionSort_perm _ _).nodup_iff.mpr hnd
  have hpass1 : (rdiPass1 [] [] (pre ++ newImports assoc settings ++ RP)).1 =
      pre ++ newImports assoc settings ++ RP := by
    refine rdiPass1_keeps_all _ [] [] ?_ ?_
    · rw [hobjs]
      exact hsorted_nodup
    · intro o _
      rfl
  have hrdi : remove_duplicated_imports (pre ++ newImports assoc settings ++ RP) =
      pre ++ newImports assoc settings ++ RP := by
    rw [remove_duplicated_imports_eq, hpass1]
    refine List.filter_eq_self.mpr ?_
    intro p hp
    rcases List.mem_append.mp hp with h1 | h1
    · rcases List.mem_append.mp h1 with h2 | h2
      · simp [hpreT p h2]
      · rcases hNImem p h2 with ⟨kv, hkv, rfl⟩ | rfl
        · simp only [hinv kv hkv]
          by_cases hu : isUnaliasedImp kv.1 = true
          · have hmemF : memB (objModulePath kv.1)
                ((rdiPass1 [] [] (pre ++ (newImports assoc settings ++ RP))).2) = false := by
              cases hmb : memB (objModulePath kv.1)
                  ((rdiPass1 [] [] (pre ++ (newImports assoc settings ++ RP))).2) with
              | false => rfl
              | true =>
                exfalso
                have hm := memB_iff.mp hmb
                rcases rdiPass1_smn_src _ [] [] _ hm with hin | hex
                · exact absurd hin (List.not_mem_nil _)
                · obtain ⟨p', hp', hp'ct, obj', hp'parse, hu', hbm⟩ := hex
                  rcases List.mem_append.mp hp' with g1 | g1
                  · rw [hpreT p' g1] at hp'ct
                    exact absurd hp'ct (by decide)
                  · rcases List.mem_append.mp g1 with g2 | g2
                    · rcases hNImem p' g2 with ⟨kv', hkv', rfl⟩ | rfl
                      · rw [hinv kv' hkv'] at hp'parse
                        have hoeq : kv'.1 = obj' := Option.some.inj hp'parse
                        refine hsurv kv hkv hu kv' hkv' (by rw [hoeq]; exact hu') ?_
                        rw [hoeq]
                        exact hbm
                      · exact absurd hp'ct (by decide)
                    · rw [hRPct p' g2] at hp'ct
                      exact absurd hp'ct (by decide)
            simp
            exact Or.inr (Or.inr hmemF)
          · have hu' : isUnaliasedImp kv.1 = false := by
              cases hx : isUnaliasedImp kv.1 with
              | false => rfl
              | true => exact absurd hx hu
            simp [hu']
        · simp
    · simp [hRPct p h1]
  have hsucc : ∀ o ∈ insertionSort (sortLe settings) (assoc.map (fun kv => kv.1)),
      ∃ v, alookup o assoc = some v :=
    fun o ho => alookup_succeeds ((insertionSort_perm _ _).subset ho)
  obtain ⟨pairs, hpk, hpv, hplk⟩ := filterMap_alookup_pairs assoc
    (insertionSort (sortLe settings) (assoc.map (fun kv => kv.1))) hsucc
  have hpinv : ∀ kv ∈ pairs, import_obj_from_str kv.2.src = some kv.1 := by
    intro kv hkv
    exact hinv (kv.1, kv.2) (alookup_mem (hplk kv hkv))
  have hpnd : (pairs.map (fun kv => kv.1)).Nodup := by
    rw [hpk]
    exact hsorted_nodup
  have hassoc2 : importsAssoc (pairs.map (fun kv => kv.2)) = pairs :=
    importsAssoc_of_pairs pairs hpinv hpnd
  have hsort2 : insertionSort (sortLe settings)
      (insertionSort (sortLe settings) (assoc.map (fun kv => kv.1))) =
      insertionSort (sortLe settings) (assoc.map (fun kv => kv.1)) :=
    insertionSort_of_chain (sortLe settings)
      (insertionSort_chain (sortLe settings) (sortLe_tot settings) (assoc.map (fun kv => kv.1)))
  have hNI2 : newImports pairs settings = newImports assoc settings := by
    rw [newImports, newImports, hpk, sortModel_eq, sortModel_eq, hsort2]
    refine congrArg List.dropLast (flatMap_congr_mem _ _ _ ?_)
    intro block hblock
    have hbsub : ∀ o ∈ block, o ∈ insertionSort (sortLe settings)
        (assoc.map (fun kv => kv.1)) := by
      intro o ho
      have hfl := List.mem_flatten.mpr ⟨block, hblock, ho⟩
      rw [groupRuns_flatten] at hfl
      exact hfl
    have hagree : block.filterMap (fun o => alookup o pairs) =
        block.filterMap (fun o => alookup o assoc) := by
      refine List.filterMap_congr ?_
      intro o ho
      have hos : o ∈ pairs.map (fun kv => kv.1) := by
        rw [hpk]
        exact hbsub o ho
      obtain ⟨kv, hkv, hkveq⟩ := List.mem_map.mp hos
      have hl1 : alookup o pairs = some kv.2 := by
        rw [← hkveq]
        exact alookup_of_mem_nodup hpnd hkv
      have hl2 : alookup o assoc = some kv.2 := by
        rw [← hkveq]
        exact hplk kv hkv
      rw [hl1, hl2]
    rw [hagree]
  have hfilt_pre : (pre ++ newImports assoc settings ++ RP).filter
      (fun p => p.code_type = CodeType.PRE_IMPORT_CODE) = pre := by
    rw [List.filter_append, List.filter_append]
    rw [List.filter_eq_self.mpr (fun p hp => by rw [hpreT p hp]; rfl)]
    rw [List.filter_eq_nil_iff.mpr (fun p hp => by
      rcases hNIct p hp with h | rfl
      · rw [h]
        decide
      · decide)]
    rw [List.filter_eq_nil_iff.mpr (fun p hp => by rw [hRPct p hp]; decide)]
    rw [List.append_nil, List.append_nil]
  have hfilt_imp : (pre ++ newImports assoc settings ++ RP).filter
      (fun p => p.code_type = CodeType.IMPORT) =
      (insertionSort (sortLe settings) (assoc.map (fun kv => kv.1))).filterMap
        fun o => alookup o assoc := by
    rw [List.filter_append, List.filter_append]
    rw [List.filter_eq_nil_iff.mpr (fun p hp => by rw [hpreT p hp]; decide)]
    rw [newImports_filter_IMPORT assoc settings hct]
    rw [List.filter_eq_nil_iff.mpr (fun p hp => by rw [hRPct p hp]; decide)]
    rw [List.nil_append, List.append_nil]
  have hmap_id : ((insertionSort (sortLe settings)
      (assoc.map (fun kv => kv.1))).filterMap (fun o => alookup o assoc)).map
      (fun p => if endsWith ['\n'] p.src then p else ⟨.IMPORT, p.src ++ ['\n']⟩) =
      (insertionSort (sortLe settings) (assoc.map (fun kv => kv.1))).filterMap
        fun o => alookup o assoc := by
    have hid : ∀ p ∈ (insertionSort (sortLe settings)
        (assoc.map (fun kv => kv.1))).filterMap (fun o => alookup o assoc),
        (if endsWith ['\n'] p.src then p else (⟨.IMPORT, p.src ++ ['\n']⟩ : CodePartition)) =
          id p := by
      intro p hp
      obtain ⟨kv, hkv, rfl⟩ := lookup_values_mem assoc _ p hp
      rw [if_pos (hnl kv hkv)]
      rfl
    rw [List.map_congr_left hid, List.map_id]
  have hfilt_code : (pre ++ newImports assoc settings ++ RP).filter
      (fun p => p.code_type = CodeType.CODE) = RP := by
    rw [List.filter_append, List.filter_append]
    rw [List.filter_eq_nil_iff.mpr (fun p hp => by rw [hpreT p hp]; decide)]
    rw [List.filter_eq_nil_iff.mpr (fun p hp => by
      rcases hNIct p hp with h | rfl
      · rw [h]
        decide
      · decide)]
    rw [List.filter_eq_self.mpr (fun p hp => by rw [hRPct p hp]; rfl)]
    rw [List.append_nil, List.nil_append]
  rw [hcomb, hadd, hsepid, remove_empty, replace_empty, hrdi]
  rw [apply_import_sorting_eq]
  rw [hfilt_pre, hfilt_imp, hmap_id, hpv.symm, hassoc2, hNI2, hfilt_code]
  rcases hRP with rfl | ⟨s, hsr, hsne, rfl⟩
  · rw [show partitionsToSrc ([] : List CodePartition) = [] from rfl]
    rw [show pyRstrip ([] : List Char) = [] from rfl]
    rw [if_pos (show (List.isEmpty ([] : List Char)) = true from rfl)]
  · rw [show partitionsToSrc [(⟨CodeType.CODE, s ++ ['\n']⟩ : CodePartition)] =
      s ++ ['\n'] by simp [partitionsToSrc]]
    rw [pyRstrip_append_ws (by intro c hc; rcases List.mem_singleton.mp hc with rfl; rfl)]
    rw [hsr]
    rw [if_neg (by rw [hsne]; exact Bool.false_ne_true)]

theorem filter_ct_of_mem {ct : CodeType} {l : List CodePartition} {p : CodePartition}
    (h : p ∈ l.filter (fun x => x.code_type = ct)) : p.code_type = ct := by
  have h2 := List.of_mem_filter h
  exact of_decide_eq_true h2

theorem ensureNl_map_prop (ps : List CodePartition) :
    ∀ p ∈ (ps.filter (fun p => p.code_type = CodeType.IMPORT)).map
      (fun p => if endsWith ['\n'] p.src then p else ⟨.IMPORT, p.src ++ ['\n']⟩),
      p.code_type = CodeType.IMPORT ∧ endsWith ['\n'] p.src = true := by
  intro p hp
  obtain ⟨q, hq, rfl⟩ := List.mem_map.mp hp
  by_cases hnl : endsWith ['\n'] q.src = true
  · rw [if_pos hnl]
    exact ⟨filter_ct_of_mem hq, hnl⟩
  · rw [if_neg hnl]
    exact ⟨rfl, endsWith_append_self ['\n'] q.src⟩

theorem assoc_key_source (partitions : List CodePartition)
    {kv : ImportObj × CodePartition}
    (hkv : kv ∈ importsAssoc ((partitions.filter
      (fun p => p.code_type = CodeType.IMPORT)).map
      (fun p => if endsWith ['\n'] p.src then p else ⟨.IMPORT, p.src ++ ['\n']⟩))) :
    ∃ q ∈ partitions, q.code_type = CodeType.IMPORT ∧
      import_obj_from_str q.src = some kv.1 := by
  have hv := importsAssoc_mem hkv
  obtain ⟨q, hq, hmap⟩ := List.mem_map.mp hv
  have hparse := importsAssoc_inv kv hkv
  refine ⟨q, List.mem_of_mem_filter hq, filter_ct_of_mem hq, ?_⟩
  by_cases hnl : endsWith ['\n'] q.src = true
  · rw [if_pos hnl] at hmap
    rw [← hmap] at hparse
    exact hparse
  · rw [if_neg hnl] at hmap
    rw [← hmap] at hparse
    rw [show (⟨CodeType.IMPORT, q.src ++ ['\n']⟩ : CodePartition).src = q.src ++ ['\n']
      from rfl] at hparse
    rw [import_obj_append_nl q.src] at hparse
    exact hparse

theorem stages_id_of_sorted (P3 : List CodePartition) (settings : Settings)
    (hpre : ∀ p ∈ apply_import_sorting
        (remove_duplicated_imports (separate_comma_imports P3)) settings,
      p.code_type = CodeType.PRE_IMPORT_CODE → endsWith ['\n'] p.src = true) :
    apply_import_sorting (remove_duplicated_imports (replace_imports (remove_imports
      (separate_comma_imports (add_imports (combine_trailing_code_chunks
        (apply_import_sorting (remove_duplicated_imports (separate_comma_imports P3))
          settings)) [])) []) ⟨[], []⟩)) settings =
      apply_import_sorting (remove_duplicated_imports (separate_comma_imports P3))
        settings := by
  have hP7sub : ∀ q ∈ remove_duplicated_imports (separate_comma_imports P3),
      q ∈ separate_comma_imports P3 := by
    intro q hq
    rw [remove_duplicated_imports_eq] at hq
    exact rdiPass1_mem_of _ _ _ _ (List.mem_of_mem_filter hq)
  have hsingleP7 : ∀ q ∈ remove_duplicated_imports (separate_comma_imports P3),
      q.code_type = CodeType.IMPORT →
      ∀ o, import_obj_from_str q.src = some o → objIsMultiple o = false :=
    fun q hq => separate_single q (hP7sub q hq)
  have hsurvP7 : ∀ q ∈ remove_duplicated_imports (separate_comma_imports P3),
      q.code_type = CodeType.IMPORT →
      ∀ o, import_obj_from_str q.src = some o → isUnaliasedImp o = true →
      memB (objModulePath o) ((rdiPass1 [] [] (separate_comma_imports P3)).2) = false := by
    intro q hq hqct o ho hu
    rw [remove_duplicated_imports_eq] at hq
    have hflt := List.of_mem_filter hq
    try dsimp only at hflt
    rw [ho] at hflt
    simp [hqct, hu] at hflt
    exact hflt
  have hcollectP7 : ∀ q ∈ remove_duplicated_imports (separate_comma_imports P3),
      q.code_type = CodeType.IMPORT →
      ∀ o, import_obj_from_str q.src = some o → isUnaliasedImp o = true →
      ∀ m ∈ moduleToBaseModules (objModulePath o),
        m ∈ (rdiPass1 [] [] (separate_comma_imports P3)).2 := by
    intro q hq hqct o ho hu m hm
    exact rdiPass1_smn_collect _ [] [] q o (hP7sub q hq) hqct ho hu rfl m hm
  rw [apply_import_sorting_eq (remove_duplicated_imports (separate_comma_imports P3))
    settings]
  refine stages_id_core _ _ _ settings importsAssoc_inv importsAssoc_keys_nodup
    ?_ ?_ ?_ ?_ ?_ ?_ ?_
  · intro kv hkv
    exact (ensureNl_map_prop _ kv.2 (importsAssoc_mem hkv)).1
  · intro kv hkv
    exact (ensureNl_map_prop _ kv.2 (importsAssoc_mem hkv)).2
  · intro kv hkv
    obtain ⟨q, hq, hqct, hqp⟩ := assoc_key_source _ hkv
    exact hsingleP7 q hq hqct kv.1 hqp
  · intro kv hkv hu kv' hkv' hu' hin
    obtain ⟨q, hq, hqct, hqp⟩ := assoc_key_source _ hkv
    obtain ⟨q', hq', hq'ct, hq'p⟩ := assoc_key_source _ hkv'
    have h1 := hcollectP7 q' hq' hq'ct kv'.1 hq'p hu' (objModulePath kv.1) hin
    have h2 := hsurvP7 q hq hqct kv.1 hqp hu
    exact absurd (memB_iff.mpr h1) (by rw [h2]; exact Bool.false_ne_true)
  · intro p hp
    exact filter_ct_of_mem hp
  · intro p hp
    refine hpre p ?_ (filter_ct_of_mem hp)
    rw [apply_import_sorting_eq]
    exact List.mem_append.mpr (Or.inl (List.mem_append.mpr (Or.inl hp)))
  · by_cases hE : (pyRstrip (partitionsToSrc
        ((remove_duplicated_imports (separate_comma_imports P3)).filter
          (fun p => p.code_type = CodeType.CODE)))).isEmpty = true
    · left
      rw [if_pos hE]
    · right
      refine ⟨pyRstrip (partitionsToSrc
        ((remove_duplicated_imports (separate_comma_imports P3)).filter
          (fun p => p.code_type = CodeType.CODE))), pyRstrip_idem _, ?_, ?_⟩
      · cases hx : (pyRstrip (partitionsToSrc
            ((remove_duplicated_imports (separate_comma_imports P3)).filter
              (fun p => p.code_type = CodeType.CODE)))).isEmpty with
        | true => exact absurd hx hE
        | false => rfl
      · rw [if_neg hE]

/-- C2 (amended): re-running the fixer on its own output is the identity
for an empty change configuration (no imports to add, remove or replace),
provided the input's most common line ending is `'\n'`, every
pre-import-code region of the fixed partition ends with a newline, and
re-tokenizing the fixed output re-partitions it into exactly the fixed
partition list.  (The unconditional claim is false: with replacement
rules, a second run can rewrite further — see the counterexample.) -/
theorem c2_idempotent_refix (contents : List Char) (toks toks2 : List Tok)
    (settings : Settings)
    (hmcLF : mostCommonLineEnding contents = ['\n'])
    (hpre : ∀ p ∈ apply_import_sorting (remove_duplicated_imports (replace_imports
      (remove_imports (separate_comma_imports (add_imports (combine_trailing_code_chunks
        (partition_source (pyReplace ['\r'] ['\n'] (pyReplace ['\r', '\n'] ['\n'] contents))
          toks)) [])) []) ⟨[], []⟩)) settings,
      p.code_type = CodeType.PRE_IMPORT_CODE → endsWith ['\n'] p.src = true)
    (htoks2 : partition_source (fix_file_contents contents toks [] [] ⟨[], []⟩ settings)
        toks2 =
      apply_import_sorting (remove_duplicated_imports (replace_imports (remove_imports
        (separate_comma_imports (add_imports (combine_trailing_code_chunks
          (partition_source (pyReplace ['\r'] ['\n'] (pyReplace ['\r', '\n'] ['\n'] contents))
            toks)) [])) []) ⟨[], []⟩)) settings) :
    fix_file_contents (fix_file_contents contents toks [] [] ⟨[], []⟩ settings) toks2
        [] [] ⟨[], []⟩ settings =
      fix_file_contents contents toks [] [] ⟨[], []⟩ settings := by
  have hcollapse : replace_imports (remove_imports (separate_comma_imports
      (add_imports (combine_trailing_code_chunks (partition_source
        (pyReplace ['\r'] ['\n'] (pyReplace ['\r', '\n'] ['\n'] contents)) toks)) [])) [])
      ⟨[], []⟩ =
    separate_comma_imports (add_imports (combine_trailing_code_chunks (partition_source
      (pyReplace ['\r'] ['\n'] (pyReplace ['\r', '\n'] ['\n'] contents)) toks)) []) := by
    rw [remove_empty, replace_empty]
  rw [hcollapse] at hpre htoks2
  have hfix1 : fix_file_contents contents toks [] [] ⟨[], []⟩ settings =
      partitionsToSrc (apply_import_sorting (remove_duplicated_imports
        (separate_comma_imports (add_imports (combine_trailing_code_chunks
          (partition_source (pyReplace ['\r'] ['\n'] (pyReplace ['\r', '\n'] ['\n'] contents))
            toks)) []))) settings) := by
    simp only [fix_file_contents]
    rw [remove_empty, replace_empty, hmcLF, pyReplace_self]
  have hnoCR : '\r' ∉ partitionsToSrc (apply_import_sorting (remove_duplicated_imports
      (separate_comma_imports (add_imports (combine_trailing_code_chunks
        (partition_source (pyReplace ['\r'] ['\n'] (pyReplace ['\r', '\n'] ['\n'] contents))
          toks)) []))) settings) := by
    have h := fix_pipeline_noCR contents toks [] [] ⟨[], []⟩ settings
      (fun a ha => absurd ha (List.not_mem_nil a))
      (fun kv hkv => absurd hkv (List.not_mem_nil kv))
      (fun kv hkv => absurd hkv (List.not_mem_nil kv))
    rw [hcollapse] at h
    exact h
  rw [hfix1] at htoks2
  rw [hfix1]
  simp only [fix_file_contents]
  rw [normalize_id_of_noCR hnoCR, mostCommonLineEnding_noCR hnoCR, pyReplace_self, htoks2]
  exact congrArg partitionsToSrc (stages_id_of_sorted _ settings hpre)

/-- Witness for C2's amended theorem: on `"import a\n"` (already fixed)
every hypothesis holds concretely and a second run returns the output of
the first unchanged. -/
theorem c2_idempotent_refix_witness :
    fix_file_contents (fix_file_contents "import a\n".data toksC2w [] [] ⟨[], []⟩
        ⟨fun _ => 0⟩) toksC2w [] [] ⟨[], []⟩ ⟨fun _ => 0⟩ =
      fix_file_contents "import a\n".data toksC2w [] [] ⟨[], []⟩ ⟨fun _ => 0⟩ :=
  c2_idempotent_refix "import a\n".data toksC2w toksC2w ⟨fun _ => 0⟩
    (by decide)
    (by
      rw [show pyReplace ['\r'] ['\n'] (pyReplace ['\r', '\n'] ['\n'] "import a\n".data) =
          "import a\n".data from normalize_id_of_noCR (by decide)]
      decide)
    (by
      rw [show fix_file_contents "import a\n".data toksC2w [] [] ⟨[], []⟩ ⟨fun _ => 0⟩ =
          "import a\n".data from by
        simp only [fix_file_contents]
        rw [show pyReplace ['\r'] ['\n'] (pyReplace ['\r', '\n'] ['\n'] "import a\n".data) =
            "import a\n".data from normalize_id_of_noCR (by decide)]
        rw [show mostCommonLineEnding "import a\n".data = ['\n'] from by decide]
        rw [pyReplace_self]
        decide]
      rw [show pyReplace ['\r'] ['\n'] (pyReplace ['\r', '\n'] ['\n'] "import a\n".data) =
          "import a\n".data from normalize_id_of_noCR (by decide)]
      decide)

end ReorderPythonImports
